import Mathlib

/-! Block-sparse encoders of `SparseLib/src/kernels/sparse_data.cpp`.

A shallow embedding of `tobsr`, `tobsc`, `to_bsr_amx` and `reorder_to_bsr_amx`.

* `dim_t` values are natural numbers (`Nat`); vectors are lists; `push_back` is `++ [x]`.
* The element type `T` is modelled by `Int`: the encoders only compare elements
  with zero and copy them.
* A dense buffer `const T*` is a list read with `getD · 0`; pointer arithmetic
  `p + off` is `List.drop off`.
* `data[k] = v` on a vector is `List.set`.
* `for` loops over `0 .. n` are folds over `List.range n`; `while` loops run on
  fuel and report `Err.out_of_fuel` if it is used up; a failed `assert` is
  `Err.assert_failed`.
-/

namespace jd.spns

/-! ## Data model -/

/-- Ways in which an embedded call can fail to return a structure. -/
inductive Err where
  | assert_failed
  | out_of_fuel
  deriving DecidableEq, Repr

/-- Object built by `bsr_data_t<T>(block, shape, indptr, indices, data, group)`;
`group` defaults to 1 in the constructor. -/
structure bsr_data_t where
  block : Nat × Nat
  shape : Nat × Nat
  indptr : List Nat
  indices : List Nat
  data : List Int
  group : Nat
  deriving DecidableEq, Repr

/-- Object built by `bsc_data_t<T>(block, shape, indptr, indices, data)`. -/
structure bsc_data_t where
  block : Nat × Nat
  shape : Nat × Nat
  indptr : List Nat
  indices : List Nat
  data : List Int
  deriving DecidableEq, Repr

/-! ## Loop combinators -/

/-- A `while (cond) body` loop on fuel: `fuel` bounds the number of iterations. -/
def whileLoop {σ : Type} (cond : σ → Bool) (body : σ → Except Err σ) :
    Nat → σ → Except Err σ
  | 0, s => if cond s then .error .out_of_fuel else .ok s
  | fuel + 1, s =>
    if cond s then
      match body s with
      | .ok s' => whileLoop cond body fuel s'
      | .error e => .error e
    else .ok s

/-- A `for` loop over the items of `l` whose body may fail. -/
def forLoop {σ β : Type} (body : σ → β → Except Err σ) : List β → σ → Except Err σ
  | [], s => .ok s
  | x :: xs, s =>
    match body s x with
    | .ok s' => forLoop body xs s'
    | .error e => .error e

/-! ## `tobsr` (lines 37-78) -/

/-- Lines 44-54: the zero test of the `blk_row × blk_col` block whose first
element is at offset `start` of the buffer; `true` iff no element differs from 0. -/
def is_zero (uncoded_data : List Int) (cols blk_row blk_col start : Nat) : Bool :=
  (List.range blk_row).all fun i =>
    (List.range blk_col).all fun j =>
      uncoded_data.getD (start + (i * cols + j)) 0 == 0

/-- Lines 43-58: the scan of block-row `b_row`, appending to `colidxs`. -/
def tobsr_scan_row (uncoded_data : List Int) (cols blk_row blk_col b_row : Nat)
    (colidxs : List Nat) : List Nat :=
  (List.range (cols / blk_col)).foldl
    (fun colidxs b_col =>
      if !(is_zero uncoded_data cols blk_row blk_col (b_row * blk_row * cols + b_col * blk_col))
      then colidxs ++ [b_col] else colidxs)
    colidxs

/-- Lines 39-59: first pass, state `(rowptr, colidxs)`. -/
def tobsr_scan (rows cols blk_row blk_col : Nat) (uncoded_data : List Int) :
    List Nat × List Nat :=
  (List.range (rows / blk_row)).foldl
    (fun st b_row =>
      (st.1 ++ [st.2.length], tobsr_scan_row uncoded_data cols blk_row blk_col b_row st.2))
    ([], [])

/-- Lines 68-74: copy of one block into `data` at block slot `nnz_idx`. -/
def tobsr_copy_block (uncoded_data : List Int) (cols blk_row blk_col b_row b_col nnz_idx : Nat)
    (data : List Int) : List Int :=
  (List.range blk_row).foldl
    (fun data i =>
      (List.range blk_col).foldl
        (fun data j =>
          data.set (nnz_idx * (blk_row * blk_col) + (i * blk_col + j))
            (uncoded_data.getD (b_row * blk_row * cols + b_col * blk_col + (i * cols + j)) 0))
        data)
    data

/-- Lines 65-76: second pass, state `(data, nnz_idx)`. -/
def tobsr_fill (rows cols blk_row blk_col : Nat) (uncoded_data : List Int)
    (rowptr colidxs : List Nat) (st : List Int × Nat) : List Int × Nat :=
  (List.range (rows / blk_row)).foldl
    (fun st b_row =>
      (List.range' (rowptr.getD b_row 0) (rowptr.getD (b_row + 1) 0 - rowptr.getD b_row 0)).foldl
        (fun st b_col_idx =>
          (tobsr_copy_block uncoded_data cols blk_row blk_col b_row (colidxs.getD b_col_idx 0)
            st.2 st.1, st.2 + 1))
        st)
    st

/-- Lines 37-78. -/
def tobsr (rows cols blk_row blk_col : Nat) (uncoded_data : List Int) : bsr_data_t :=
  let scan := tobsr_scan rows cols blk_row blk_col uncoded_data
  let colidxs := scan.2
  let nnz := colidxs.length
  let rowptr := scan.1 ++ [nnz]
  let data := List.replicate (nnz * blk_row * blk_col) (0 : Int)
  let filled := tobsr_fill rows cols blk_row blk_col uncoded_data rowptr colidxs (data, 0)
  { block := (blk_row, blk_col), shape := (rows, cols), indptr := rowptr, indices := colidxs,
    data := filled.1, group := 1 }

/-! ## `tobsc` (lines 149-185) -/

/-- Modelled from the spec: `all_zeros` is declared in a header that is not part of
the sources at hand. Section 4.1: given a pointer into the dense buffer, a row
stride and a block shape, it decides whether every element of the
`blk_row × blk_col` rectangle is zero, that is `ptr[i * stride + j] == 0` for all
`i < blk_row`, `j < blk_col`. -/
def all_zeros (ptr : List Int) (stride blk_row blk_col : Nat) : Bool :=
  (List.range blk_row).all fun i =>
    (List.range blk_col).all fun j => ptr.getD (i * stride + j) 0 == 0

/-- Lines 159-164: the scan of block-column `ib_col`, appending to `rowidxs`.
The stride handed to `all_zeros` is `rows`, as on line 161. -/
def tobsc_scan_col (uncoded_data : List Int) (rows cols blk_row blk_col ib_col : Nat)
    (rowidxs : List Nat) : List Nat :=
  (List.range (rows / blk_row)).foldl
    (fun rowidxs ib_row =>
      if !(all_zeros (uncoded_data.drop (ib_row * blk_row * cols + ib_col * blk_col))
            rows blk_row blk_col)
      then rowidxs ++ [ib_row] else rowidxs)
    rowidxs

/-- Lines 154-165: first pass, state `(colptr, rowidxs)`. -/
def tobsc_scan (rows cols blk_row blk_col : Nat) (uncoded_data : List Int) :
    List Nat × List Nat :=
  (List.range (cols / blk_col)).foldl
    (fun st ib_col =>
      (st.1 ++ [st.2.length], tobsc_scan_col uncoded_data rows cols blk_row blk_col ib_col st.2))
    ([], [])

/-- Lines 173-183: second pass, state `(data, curr_data_ptr)`. -/
def tobsc_fill (cols blk_row blk_col : Nat) (uncoded_data : List Int)
    (colptr rowidxs : List Nat) (st : List Int × Nat) : List Int × Nat :=
  (List.range (cols / blk_col)).foldl
    (fun st ib_col =>
      (List.range' (colptr.getD ib_col 0) (colptr.getD (ib_col + 1) 0 - colptr.getD ib_col 0)).foldl
        (fun st ib_row_idx =>
          (List.range blk_row).foldl
            (fun st i =>
              (List.range blk_col).foldl
                (fun st j =>
                  (st.1.set st.2
                    (uncoded_data.getD
                      (rowidxs.getD ib_row_idx 0 * blk_row * cols + ib_col * blk_col
                        + (i * cols + j)) 0),
                   st.2 + 1))
                st)
            st)
        st)
    st

/-- Lines 149-185. -/
def tobsc (rows cols blk_row blk_col : Nat) (uncoded_data : List Int) :
    Except Err bsc_data_t :=
  if rows % blk_row ≠ 0 then .error .assert_failed
  else if cols % blk_col ≠ 0 then .error .assert_failed
  else
    let scan := tobsc_scan rows cols blk_row blk_col uncoded_data
    let rowidxs := scan.2
    let blksize := blk_row * blk_col
    let nnz := rowidxs.length
    let colptr := scan.1 ++ [nnz]
    let data := List.replicate (nnz * blksize) (0 : Int)
    let filled := tobsc_fill cols blk_row blk_col uncoded_data colptr rowidxs (data, 0)
    .ok { block := (blk_row, blk_col), shape := (rows, cols), indptr := colptr,
          indices := rowidxs, data := filled.1 }

/-! ## `to_bsr_amx` (lines 81-143) -/

/-- Lines 96-99: copy up to `group` genuine indices; state `(colidxs, b_col_idx, b_cnt)`,
`hi` is `indptr[b_row + 1]`. -/
def amx_copy_loop (fuel group hi : Nat) (indices : List Nat)
    (st : List Nat × Nat × Nat) : Except Err (List Nat × Nat × Nat) :=
  whileLoop (fun st => decide (st.2.2 < group) && decide (st.2.1 < hi))
    (fun st => .ok (st.1 ++ [indices.getD st.2.1 0], st.2.1 + 1, st.2.2 + 1)) fuel st

/-- Lines 101-103: padding with `colidxs.back()`; state `(colidxs, b_cnt)`. -/
def amx_pad_loop (fuel group : Nat) (st : List Nat × Nat) :
    Except Err (List Nat × Nat) :=
  whileLoop (fun st => decide (st.2 < group))
    (fun st => .ok (st.1 ++ [st.1.getLastD 0], st.2 + 1)) fuel st

/-- Lines 94-104: the groups of one block-row; state `(colidxs, b_col_idx)`. -/
def amx_row_loop (fuel group hi : Nat) (indices : List Nat) (st : List Nat × Nat) :
    Except Err (List Nat × Nat) :=
  whileLoop (fun st => decide (st.2 < hi))
    (fun st =>
      match amx_copy_loop fuel group hi indices (st.1, st.2, 0) with
      | .error e => .error e
      | .ok s1 =>
        match amx_pad_loop fuel group (s1.1, s1.2.2) with
        | .error e => .error e
        | .ok s2 => .ok (s2.1, s1.2.1))
    fuel st

/-- Lines 89-105 (Stage A): state `(colidxs, group_rowptr)`. -/
def amx_group_indices (fuel group : Nat) (indptr indices : List Nat) :
    Except Err (List Nat × List Nat) :=
  forLoop
    (fun st b_row =>
      let group_rowptr := st.2.set b_row (st.1.length / group)
      match amx_row_loop fuel group (indptr.getD (b_row + 1) 0) indices
              (st.1, indptr.getD b_row 0) with
      | .error e => .error e
      | .ok s => .ok (s.1, group_rowptr))
    (List.range (indptr.length - 1))
    ([], List.replicate indptr.length 0)

/-- Lines 115-120: recover the number of genuine entries of a group;
state `(b_col_idx, b_cnt)`. -/
def amx_count_loop (fuel group : Nat) (colidxs : List Nat) (st : Nat × Nat) :
    Except Err (Nat × Nat) :=
  whileLoop
    (fun st => decide (st.2 < group) &&
      decide (colidxs.getD st.1 0 ≠ colidxs.getD (st.1 - 1) 0))
    (fun st => .ok (st.1 + 1, st.2 + 1)) fuel st

/-- Lines 114-129: the groups of one block-row; state `(new_data, data_ptr, nnz_idx)`. -/
def amx_compact_row (fuel group blksize : Nat) (colidxs : List Nat) (bsr_data : List Int)
    (lo hi : Nat) (st : List Int × Nat × Nat) : Except Err (List Int × Nat × Nat) :=
  forLoop
    (fun st group_idx =>
      match amx_count_loop fuel group colidxs (group_idx * group + 1, 1) with
      | .error e => .error e
      | .ok c =>
        let b_cnt := c.2
        let elem_num := b_cnt * blksize
        let new_data := (List.range elem_num).foldl
          (fun new_data elem =>
            new_data.set (st.2.1 + elem) (bsr_data.getD (st.2.2 * blksize + elem) 0))
          st.1
        let data_ptr := st.2.1 + elem_num
        let elem_num := (group - b_cnt) * blksize
        .ok (new_data, data_ptr + elem_num, st.2.2 + group))
    (List.range' lo (hi - lo)) st

/-- Lines 110-130 (Stage B): state `(new_data, data_ptr)`. -/
def amx_compact (fuel group blksize : Nat) (indptr group_rowptr colidxs : List Nat)
    (bsr_data : List Int) (st : List Int × Nat) : Except Err (List Int × Nat) :=
  forLoop
    (fun st b_row =>
      match amx_compact_row fuel group blksize colidxs bsr_data
              (group_rowptr.getD b_row 0) (group_rowptr.getD (b_row + 1) 0)
              (st.1, st.2, indptr.getD b_row 0) with
      | .error e => .error e
      | .ok s => .ok (s.1, s.2.1))
    (List.range (indptr.length - 1)) st

/-- Lines 133-141 (Stage C): reorder to the AMX layout; `n` is `colidxs.size()`,
state `(data, data_ptr, start_col)`. The loop moves 16 elements per block whatever
`blksize` is. With `blksize < 16` the code indexes `data` and `new_data` past their
`colidxs.size() * blksize` elements, which is undefined behaviour that `List.set` and
`getD` do not reproduce: this definition stands for the code on blocks of at least 16
elements. -/
def amx_reorder (fuel group n : Nat) (new_data : List Int) (st : List Int × Nat × Nat) :
    Except Err (List Int × Nat × Nat) :=
  whileLoop (fun st => decide (st.2.2 < n))
    (fun st =>
      let r := (List.range 16).foldl
        (fun st' i =>
          (List.range' st.2.2 group).foldl
            (fun st'' j => (st''.1.set st''.2 (new_data.getD (j * 16 + i) 0), st''.2 + 1))
            st')
        (st.1, st.2.1)
      .ok (r.1, r.2, st.2.2 + group))
    fuel st

/-- Lines 81-143. The template parameters are `sizeof_T` (standing for `sizeof(T)`)
and `group`; `fuel` bounds the iterations of each `while` loop. -/
def to_bsr_amx (fuel sizeof_T group rows cols blk_row blk_col : Nat)
    (uncoded_data : List Int) : Except Err bsr_data_t :=
  let bsr_data := tobsr rows cols blk_row blk_col uncoded_data
  if group = 1 then .ok bsr_data
  else if group ≠ 64 / sizeof_T then .error .assert_failed
  else
    let nrowptr := bsr_data.indptr.length
    match amx_group_indices fuel group bsr_data.indptr bsr_data.indices with
    | .error e => .error e
    | .ok a =>
      let colidxs := a.1
      let nnz_group := colidxs.length / group
      let group_rowptr := a.2.set (nrowptr - 1) nnz_group
      let blksize := blk_row * blk_col
      let new_data := List.replicate (colidxs.length * blksize) (0 : Int)
      match amx_compact fuel group blksize bsr_data.indptr group_rowptr colidxs bsr_data.data
              (new_data, 0) with
      | .error e => .error e
      | .ok b =>
        let data := List.replicate (colidxs.length * blksize) (0 : Int)
        match amx_reorder fuel group colidxs.length b.1 (data, 0, 0) with
        | .error e => .error e
        | .ok c =>
          .ok { block := (blk_row, blk_col), shape := (rows, cols), indptr := group_rowptr,
                indices := colidxs, data := c.1, group := group }

/-! ## `reorder_to_bsr_amx` (lines 19-33) -/

/-- Lines 19-33. The sub-view of chunk `i` starts at `uncoded_ptr + i * micro_rows * cols`;
the shape recorded on each structure is `{rows, cols}`, as on line 29. -/
def reorder_to_bsr_amx (fuel sizeof_T group rows cols micro_rows : Nat)
    (uncoded_ptr : List Int) : Except Err (List bsr_data_t) :=
  let blk_row := 16
  let blk_col := 1
  if rows % micro_rows ≠ 0 then .error .assert_failed
  else
    let num_micro_rows := rows / micro_rows
    forLoop
      (fun sparse_data i =>
        let uncoded_data := uncoded_ptr.drop (i * micro_rows * cols)
        match to_bsr_amx fuel sizeof_T group micro_rows cols blk_row blk_col uncoded_data with
        | .error e => .error e
        | .ok bsr_data =>
          .ok (sparse_data ++
            [{ block := (blk_row, blk_col), shape := (rows, cols), indptr := bsr_data.indptr,
               indices := bsr_data.indices, data := bsr_data.data, group := group }]))
      (List.range num_micro_rows) []

/-! ## Closed forms used in the proofs -/

/-- The sub-list `l[lo .. hi)`. -/
def slice {α : Type} (l : List α) (lo hi : Nat) : List α := (l.drop lo).take (hi - lo)

/-- Block-columns of block-row `b` whose block fails the zero test of `tobsr`,
in ascending order. -/
def nzcols (M : List Int) (cols blk_row blk_col b : Nat) : List Nat :=
  (List.range (cols / blk_col)).filter
    (fun c => !(is_zero M cols blk_row blk_col (b * blk_row * cols + c * blk_col)))

/-- Column indices found in block-rows `0 .. n - 1`. -/
def colsUpTo (M : List Int) (cols blk_row blk_col n : Nat) : List Nat :=
  (List.range n).flatMap (nzcols M cols blk_row blk_col)

/-- The elements of block `(b, c)` in row-major order. -/
def blockvals (M : List Int) (cols blk_row blk_col b c : Nat) : List Int :=
  (List.range blk_row).flatMap fun i =>
    (List.range blk_col).map fun j => M.getD (b * blk_row * cols + c * blk_col + (i * cols + j)) 0

/-- Payload of block-rows `0 .. n - 1`. -/
def dataUpTo (M : List Int) (cols blk_row blk_col n : Nat) : List Int :=
  (List.range n).flatMap fun b =>
    (nzcols M cols blk_row blk_col b).flatMap (blockvals M cols blk_row blk_col b)

/-- A slice of column indices followed by copies of its last entry up to the next
multiple of `g`. -/
def padRow (g : Nat) (sl : List Nat) : List Nat :=
  sl ++ List.replicate ((g - sl.length % g) % g) (sl.getLastD 0)

/-- Entries `a, a + 1, ..., a + n - 1` of a vector of indices. -/
def seg (indices : List Nat) (a n : Nat) : List Nat :=
  (List.range' a n).map fun k => indices.getD k 0

/-- Grouped column indices of block-rows `0 .. n - 1` of a BSR index structure. -/
def gcols (g : Nat) (indptr indices : List Nat) (n : Nat) : List Nat :=
  (List.range n).flatMap fun b =>
    padRow g (seg indices (indptr.getD b 0) (indptr.getD (b + 1) 0 - indptr.getD b 0))

/-- Grouped column indices of block-rows `0 .. n - 1` of the matrix `M`. -/
def gcolsUpTo (g : Nat) (M : List Int) (cols blk_row blk_col n : Nat) : List Nat :=
  (List.range n).flatMap fun b => padRow g (nzcols M cols blk_row blk_col b)

/-- Compacted payload of one group: the `c * bs` elements of its `c` genuine blocks,
read from the BSR payload at block slot `nnz_idx`, then zeros up to `g * bs`. -/
def groupPayload (g bs : Nat) (bsr_data : List Int) (nnz_idx c : Nat) : List Int :=
  (List.range (c * bs)).map (fun e => bsr_data.getD (nnz_idx * bs + e) 0)
    ++ List.replicate ((g - c) * bs) 0

/-- Compacted payload (the buffer `new_data` of Stage B) of block-rows `0 .. n - 1`:
block-row `b` has `grp[b+1] - grp[b]` groups, its `k`-th group holds `c b k` genuine
blocks read from block slot `indptr[b] + k * g` of the BSR payload. -/
def compacted (g bs : Nat) (indptr grp : List Nat) (bsr_data : List Int) (c : Nat → Nat → Nat)
    (n : Nat) : List Int :=
  (List.range n).flatMap fun b =>
    (List.range (grp.getD (b + 1) 0 - grp.getD b 0)).flatMap fun k =>
      groupPayload g bs bsr_data (indptr.getD b 0 + k * g) (c b k)

/-- One tile of Stage C: for `i = 0 .. 15`, element `i` of each of the `g` blocks
`start_col .. start_col + g - 1` of `new_data`. -/
def amxTile (g : Nat) (new_data : List Int) (start_col : Nat) : List Int :=
  (List.range 16).flatMap fun i =>
    (List.range' start_col g).map fun j => new_data.getD (j * 16 + i) 0

/-- Group row pointer of block-rows `0 .. n`: the number of groups before each row. -/
def groupPtr (g : Nat) (M : List Int) (cols blk_row blk_col n : Nat) : List Nat :=
  (List.range (n + 1)).map fun b => (gcolsUpTo g M cols blk_row blk_col b).length / g

/-- Number of genuine entries of the `k`-th group of block-row `b`. -/
def realCount (g : Nat) (M : List Int) (cols blk_row blk_col b k : Nat) : Nat :=
  min g ((nzcols M cols blk_row blk_col b).length - k * g)

/-- Gather that reverses Stage C on `n` blocks of 16 elements grouped by `g`:
`out[(G*g + s)*16 + i] := data[G*g*16 + i*g + s]` for every run `G`, slot `s < g`
and `i < 16`. -/
def amx_gather (g n : Nat) (data : List Int) : List Int :=
  (List.range (n / g)).flatMap fun G =>
    (List.range g).flatMap fun s =>
      (List.range 16).map fun i => data.getD (G * g * 16 + i * g + s) 0

/-- A 16 x 2 matrix whose first column holds 1 in row 0 and 7 in row 15 and whose
second column is zero. -/
def example_16x2 : List Int :=
  (List.range 32).map fun k => if k = 0 then 1 else if k = 30 then 7 else 0

/-- Tile of the `k`-th group of block-row `b` for block shape (16, 1), read from the
matrix: for `i = 0 .. 15` and slot `s = 0 .. g - 1`, the element of row `b*16 + i` in the
column of the group's `s`-th entry, or 0 for a padding slot. -/
def amxTileOf (g : Nat) (M : List Int) (cols b k : Nat) : List Int :=
  (List.range 16).flatMap fun i =>
    (List.range g).map fun s =>
      if k * g + s < (nzcols M cols 16 1 b).length
      then M.getD ((b * 16 + i) * cols + (nzcols M cols 16 1 b).getD (k * g + s) 0) 0
      else 0

/-- Grouped payload of block-row `b` for block shape (16, 1). -/
def amxRow (g : Nat) (M : List Int) (cols b : Nat) : List Int :=
  (List.range ((padRow g (nzcols M cols 16 1 b)).length / g)).flatMap (amxTileOf g M cols b)

/-- Structure stored by `reorder_to_bsr_amx` for the chunk of `p` block-rows that starts
at block-row `a` of the `rows × cols` matrix `M`. -/
def amxChunk (g rows cols p : Nat) (M : List Int) (a : Nat) : bsr_data_t :=
  { block := (16, 1), shape := (rows, cols),
    indptr := groupPtr g (M.drop (a * 16 * cols)) cols 16 1 p,
    indices := gcolsUpTo g (M.drop (a * 16 * cols)) cols 16 1 p,
    data := (List.range p).flatMap (amxRow g (M.drop (a * 16 * cols)) cols),
    group := g }

/-! ## Decoders named by the round-trip properties -/

/-- Scatter of the `k`-th stored block to the block whose top-left cell is
`(r0, c0)`: for every `i < blk_row`, `j < blk_col`, write
`data[k*blk_row*blk_col + i*blk_col + j]` to position `(r0 + i, c0 + j)`. -/
def dense_put_block (cols blk_row blk_col : Nat) (data : List Int) (r0 c0 k : Nat)
    (dense : List Int) : List Int :=
  (List.range blk_row).foldl
    (fun dense i =>
      (List.range blk_col).foldl
        (fun dense j =>
          dense.set ((r0 + i) * cols + (c0 + j))
            (data.getD (k * blk_row * blk_col + i * blk_col + j) 0))
        dense)
    dense

/-- Densification of a BSR structure: start from the all-zero `rows × cols` matrix
and, for every block-row `b`, every `k` in `[rowptr[b], rowptr[b+1])` and every
`i < blk_row`, `j < blk_col`, write `data[k*blk_row*blk_col + i*blk_col + j]` to
position `(b*blk_row + i, colidxs[k]*blk_col + j)`. -/
def bsr_to_dense (rows cols blk_row blk_col : Nat) (rowptr colidxs : List Nat)
    (data : List Int) : List Int :=
  (List.range (rows / blk_row)).foldl
    (fun dense b =>
      (List.range' (rowptr.getD b 0) (rowptr.getD (b + 1) 0 - rowptr.getD b 0)).foldl
        (fun dense k =>
          dense_put_block cols blk_row blk_col data (b * blk_row) (colidxs.getD k 0 * blk_col) k
            dense)
        dense)
    (List.replicate (rows * cols) 0)

/-- Densification of a BSC structure: start from the all-zero `rows × cols` matrix
and, for every block-column `c`, every `k` in `[colptr[c], colptr[c+1])` and every
`i < blk_row`, `j < blk_col`, write `data[k*blk_row*blk_col + i*blk_col + j]` to
position `(rowidxs[k]*blk_row + i, c*blk_col + j)`. -/
def bsc_to_dense (rows cols blk_row blk_col : Nat) (colptr rowidxs : List Nat)
    (data : List Int) : List Int :=
  (List.range (cols / blk_col)).foldl
    (fun dense c =>
      (List.range' (colptr.getD c 0) (colptr.getD (c + 1) 0 - colptr.getD c 0)).foldl
        (fun dense k =>
          dense_put_block cols blk_row blk_col data (rowidxs.getD k 0 * blk_row) (c * blk_col) k
            dense)
        dense)
    (List.replicate (rows * cols) 0)

/-- State of a partially densified matrix: it has `n` cells and each cell is either
still zero or already equal to the cell of `M`. -/
def DenseInv (M : List Int) (n : Nat) (d : List Int) : Prop :=
  d.length = n ∧ ∀ q, d.getD q 0 = 0 ∨ d.getD q 0 = M.getD q 0

/-- Structure stored by `reorder_to_bsr_amx` for chunk `i`, whose sub-view starts at offset
`i * micro_rows * cols` of the buffer. -/
def amxChunkOf (g rows cols micro_rows : Nat) (M : List Int) (i : Nat) : bsr_data_t :=
  { block := (16, 1), shape := (rows, cols),
    indptr := groupPtr g (M.drop (i * micro_rows * cols)) cols 16 1 (micro_rows / 16),
    indices := gcolsUpTo g (M.drop (i * micro_rows * cols)) cols 16 1 (micro_rows / 16),
    data := (List.range (micro_rows / 16)).flatMap
      (amxRow g (M.drop (i * micro_rows * cols)) cols),
    group := g }

/-- Tile-major layout of run `G` as section 4.3 words it for a general block shape: for
`rowWithinTile` in `[0, blk_row)`, the `rowWithinTile`-th row (`blk_col` elements) of each
of the `g` blocks `G*g .. G*g + g - 1` of the compacted buffer, back to back. -/
def tileRowsSpec (blk_row blk_col g : Nat) (new_data : List Int) (G : Nat) : List Int :=
  (List.range blk_row).flatMap fun rowWithinTile =>
    (List.range g).flatMap fun s =>
      (List.range blk_col).map fun e =>
        new_data.getD ((G * g + s) * (blk_row * blk_col) + rowWithinTile * blk_col + e) 0

/-- A 1 x 32 matrix holding 1, 2, ..., 32. -/
def example_1x32 : List Int := (List.range 32).map fun k => (k : Int) + 1

/-- Additive decode of one cell of a grouped structure: the sum of
`data[G*g*16 + i*g + s]` over the groups `G` in `[indptr[b], indptr[b+1])` and the slots
`s < g` whose column index `indices[G*g + s]` is `c`. -/
def amx_scatter_cell (g : Nat) (r : bsr_data_t) (b i c : Nat) : Int :=
  ((List.range' (r.indptr.getD b 0) (r.indptr.getD (b + 1) 0 - r.indptr.getD b 0)).map fun G =>
    ((List.range g).map fun s =>
      if r.indices.getD (G * g + s) 0 = c then r.data.getD (G * g * 16 + i * g + s) 0
      else 0).sum).sum

/-! ## `tobsr` and `to_bsr_amx` with checked indexing

The same statements, with every read of a vector or of the dense buffer checked: a read
at an index that is not below the length of what is read is `Fault.out_of_bounds`. The
dense buffer `uncoded_data` holds exactly `uncoded_data.length` elements. -/

/-- Ways in which a call of the checked embedding can fail. -/
inductive Fault where
  | assert_failed
  | out_of_fuel
  | out_of_bounds
  deriving DecidableEq, Repr

/-- A checked read `v[i]`. -/
def readAt {α : Type} (v : List α) (i : Nat) : Except Fault α :=
  match v[i]? with
  | some x => .ok x
  | none => .error .out_of_bounds

/-- A checked `v.back()`. -/
def readBack {α : Type} (v : List α) : Except Fault α :=
  match v.getLast? with
  | some x => .ok x
  | none => .error .out_of_bounds

/-- A `while (cond) body` loop on fuel whose condition and body may fail. -/
def whileLoopC {σ : Type} (cond : σ → Except Fault Bool) (body : σ → Except Fault σ) :
    Nat → σ → Except Fault σ
  | 0, s =>
    match cond s with
    | .error e => .error e
    | .ok c => if c then .error .out_of_fuel else .ok s
  | fuel + 1, s =>
    match cond s with
    | .error e => .error e
    | .ok c =>
      if c then
        match body s with
        | .ok s' => whileLoopC cond body fuel s'
        | .error e => .error e
      else .ok s

/-- A `for` loop over the items of `l` whose body may fail. -/
def forLoopC {σ β : Type} (body : σ → β → Except Fault σ) : List β → σ → Except Fault σ
  | [], s => .ok s
  | x :: xs, s =>
    match body s x with
    | .ok s' => forLoopC body xs s'
    | .error e => .error e

/-- Lines 44-54 with checked reads; the state is the flag `is_zero`. Once the flag is
`false` control has left both loops (`goto done_check_zero`) and nothing more is read. -/
def is_zero_checked (uncoded_data : List Int) (cols blk_row blk_col start : Nat) :
    Except Fault Bool :=
  forLoopC
    (fun is_zero i =>
      forLoopC
        (fun is_zero j =>
          if is_zero then
            match readAt uncoded_data (start + (i * cols + j)) with
            | .error e => .error e
            | .ok v => .ok (v == 0)
          else .ok false)
        (List.range blk_col) is_zero)
    (List.range blk_row) true

/-- Lines 43-58 with checked reads. -/
def tobsr_scan_row_checked (uncoded_data : List Int) (cols blk_row blk_col b_row : Nat)
    (colidxs : List Nat) : Except Fault (List Nat) :=
  forLoopC
    (fun colidxs b_col =>
      match is_zero_checked uncoded_data cols blk_row blk_col
              (b_row * blk_row * cols + b_col * blk_col) with
      | .error e => .error e
      | .ok z => .ok (if !z then colidxs ++ [b_col] else colidxs))
    (List.range (cols / blk_col)) colidxs

/-- Lines 39-59 with checked reads, state `(rowptr, colidxs)`. -/
def tobsr_scan_checked (rows cols blk_row blk_col : Nat) (uncoded_data : List Int) :
    Except Fault (List Nat × List Nat) :=
  forLoopC
    (fun st b_row =>
      match tobsr_scan_row_checked uncoded_data cols blk_row blk_col b_row st.2 with
      | .error e => .error e
      | .ok c => .ok (st.1 ++ [st.2.length], c))
    (List.range (rows / blk_row)) ([], [])

/-- Lines 68-74 with checked reads of the dense buffer. -/
def tobsr_copy_block_checked (uncoded_data : List Int)
    (cols blk_row blk_col b_row b_col nnz_idx : Nat) (data : List Int) :
    Except Fault (List Int) :=
  forLoopC
    (fun data i =>
      forLoopC
        (fun data j =>
          match readAt uncoded_data (b_row * blk_row * cols + b_col * blk_col + (i * cols + j)) with
          | .error e => .error e
          | .ok v => .ok (data.set (nnz_idx * (blk_row * blk_col) + (i * blk_col + j)) v))
        (List.range blk_col) data)
    (List.range blk_row) data

/-- Lines 65-76 with checked reads of `rowptr`, `colidxs` and the dense buffer; state
`(data, nnz_idx)`. `rowptr` is not written in this pass, so the bound `rowptr[b_row + 1]`
of the inner loop is read once. -/
def tobsr_fill_checked (rows cols blk_row blk_col : Nat) (uncoded_data : List Int)
    (rowptr colidxs : List Nat) (st : List Int × Nat) : Except Fault (List Int × Nat) :=
  forLoopC
    (fun st b_row =>
      match readAt rowptr b_row with
      | .error e => .error e
      | .ok lo =>
        match readAt rowptr (b_row + 1) with
        | .error e => .error e
        | .ok hi =>
          forLoopC
            (fun st b_col_idx =>
              match readAt colidxs b_col_idx with
              | .error e => .error e
              | .ok b_col =>
                match tobsr_copy_block_checked uncoded_data cols blk_row blk_col b_row b_col
                        st.2 st.1 with
                | .error e => .error e
                | .ok data => .ok (data, st.2 + 1))
            (List.range' lo (hi - lo)) st)
    (List.range (rows / blk_row)) st

/-- Lines 37-78 with checked reads. -/
def tobsr_checked (rows cols blk_row blk_col : Nat) (uncoded_data : List Int) :
    Except Fault bsr_data_t :=
  match tobsr_scan_checked rows cols blk_row blk_col uncoded_data with
  | .error e => .error e
  | .ok scan =>
    let colidxs := scan.2
    let nnz := colidxs.length
    let rowptr := scan.1 ++ [nnz]
    let data := List.replicate (nnz * blk_row * blk_col) (0 : Int)
    match tobsr_fill_checked rows cols blk_row blk_col uncoded_data rowptr colidxs (data, 0) with
    | .error e => .error e
    | .ok filled =>
      .ok { block := (blk_row, blk_col), shape := (rows, cols), indptr := rowptr,
            indices := colidxs, data := filled.1, group := 1 }

/-- Lines 96-99 with checked reads; state `(colidxs, b_col_idx, b_cnt)`. The right
operand of `&&` reads `indptr[b_row + 1]` only when `b_cnt < group`. -/
def amx_copy_loop_checked (fuel group b_row : Nat) (indptr indices : List Nat)
    (st : List Nat × Nat × Nat) : Except Fault (List Nat × Nat × Nat) :=
  whileLoopC
    (fun st =>
      if st.2.2 < group then
        match readAt indptr (b_row + 1) with
        | .error e => .error e
        | .ok hi => .ok (decide (st.2.1 < hi))
      else .ok false)
    (fun st =>
      match readAt indices st.2.1 with
      | .error e => .error e
      | .ok v => .ok (st.1 ++ [v], st.2.1 + 1, st.2.2 + 1))
    fuel st

/-- Lines 101-103 with a checked `colidxs.back()`; state `(colidxs, b_cnt)`. -/
def amx_pad_loop_checked (fuel group : Nat) (st : List Nat × Nat) :
    Except Fault (List Nat × Nat) :=
  whileLoopC (fun st => .ok (decide (st.2 < group)))
    (fun st =>
      match readBack st.1 with
      | .error e => .error e
      | .ok v => .ok (st.1 ++ [v], st.2 + 1))
    fuel st

/-- Lines 94-104 with checked reads; state `(colidxs, b_col_idx)`. -/
def amx_row_loop_checked (fuel group b_row : Nat) (indptr indices : List Nat)
    (st : List Nat × Nat) : Except Fault (List Nat × Nat) :=
  whileLoopC
    (fun st =>
      match readAt indptr (b_row + 1) with
      | .error e => .error e
      | .ok hi => .ok (decide (st.2 < hi)))
    (fun st =>
      match amx_copy_loop_checked fuel group b_row indptr indices (st.1, st.2, 0) with
      | .error e => .error e
      | .ok s1 =>
        match amx_pad_loop_checked fuel group (s1.1, s1.2.2) with
        | .error e => .error e
        | .ok s2 => .ok (s2.1, s1.2.1))
    fuel st

/-- Lines 89-105 (Stage A) with checked reads: state `(colidxs, group_rowptr)`. -/
def amx_group_indices_checked (fuel group : Nat) (indptr indices : List Nat) :
    Except Fault (List Nat × List Nat) :=
  forLoopC
    (fun st b_row =>
      let group_rowptr := st.2.set b_row (st.1.length / group)
      match readAt indptr b_row with
      | .error e => .error e
      | .ok lo =>
        match amx_row_loop_checked fuel group b_row indptr indices (st.1, lo) with
        | .error e => .error e
        | .ok s => .ok (s.1, group_rowptr))
    (List.range (indptr.length - 1))
    ([], List.replicate indptr.length 0)

/-- Lines 115-120 with checked reads; state `(b_col_idx, b_cnt)`. The right operand of
`&&` reads `colidxs[b_col_idx]` and `colidxs[b_col_idx - 1]` only when `b_cnt < group`. -/
def amx_count_loop_checked (fuel group : Nat) (colidxs : List Nat) (st : Nat × Nat) :
    Except Fault (Nat × Nat) :=
  whileLoopC
    (fun st =>
      if st.2 < group then
        match readAt colidxs st.1 with
        | .error e => .error e
        | .ok x =>
          match readAt colidxs (st.1 - 1) with
          | .error e => .error e
          | .ok y => .ok (decide (x ≠ y))
      else .ok false)
    (fun st => .ok (st.1 + 1, st.2 + 1)) fuel st

/-- Lines 114-129 with checked reads; state `(new_data, data_ptr, nnz_idx)`. -/
def amx_compact_row_checked (fuel group blksize : Nat) (colidxs : List Nat)
    (bsr_data : List Int) (lo hi : Nat) (st : List Int × Nat × Nat) :
    Except Fault (List Int × Nat × Nat) :=
  forLoopC
    (fun st group_idx =>
      match amx_count_loop_checked fuel group colidxs (group_idx * group + 1, 1) with
      | .error e => .error e
      | .ok c =>
        let b_cnt := c.2
        let elem_num := b_cnt * blksize
        match forLoopC
                (fun new_data elem =>
                  match readAt bsr_data (st.2.2 * blksize + elem) with
                  | .error e => .error e
                  | .ok v => .ok (new_data.set (st.2.1 + elem) v))
                (List.range elem_num) st.1 with
        | .error e => .error e
        | .ok new_data =>
          let data_ptr := st.2.1 + elem_num
          let elem_num := (group - b_cnt) * blksize
          .ok (new_data, data_ptr + elem_num, st.2.2 + group))
    (List.range' lo (hi - lo)) st

/-- Lines 110-130 (Stage B) with checked reads; state `(new_data, data_ptr)`.
`group_rowptr` is not written in this stage, so the bound `group_rowptr[b_row + 1]` of
the inner loop is read once. -/
def amx_compact_checked (fuel group blksize : Nat) (indptr group_rowptr colidxs : List Nat)
    (bsr_data : List Int) (st : List Int × Nat) : Except Fault (List Int × Nat) :=
  forLoopC
    (fun st b_row =>
      match readAt indptr b_row with
      | .error e => .error e
      | .ok nnz_idx =>
        match readAt group_rowptr b_row with
        | .error e => .error e
        | .ok lo =>
          match readAt group_rowptr (b_row + 1) with
          | .error e => .error e
          | .ok hi =>
            match amx_compact_row_checked fuel group blksize colidxs bsr_data lo hi
                    (st.1, st.2, nnz_idx) with
            | .error e => .error e
            | .ok s => .ok (s.1, s.2.1))
    (List.range (indptr.length - 1)) st

/-- Lines 133-141 (Stage C) with checked reads of `new_data`; state
`(data, data_ptr, start_col)`. -/
def amx_reorder_checked (fuel group n : Nat) (new_data : List Int)
    (st : List Int × Nat × Nat) : Except Fault (List Int × Nat × Nat) :=
  whileLoopC (fun st => .ok (decide (st.2.2 < n)))
    (fun st =>
      match forLoopC
              (fun st' i =>
                forLoopC
                  (fun (st'' : List Int × Nat) j =>
                    match readAt new_data (j * 16 + i) with
                    | .error e => .error e
                    | .ok v => .ok (st''.1.set st''.2 v, st''.2 + 1))
                  (List.range' st.2.2 group) st')
              (List.range 16) (st.1, st.2.1) with
      | .error e => .error e
      | .ok r => .ok (r.1, r.2, st.2.2 + group))
    fuel st

/-- Lines 81-143 with checked reads. -/
def to_bsr_amx_checked (fuel sizeof_T group rows cols blk_row blk_col : Nat)
    (uncoded_data : List Int) : Except Fault bsr_data_t :=
  match tobsr_checked rows cols blk_row blk_col uncoded_data with
  | .error e => .error e
  | .ok bsr_data =>
    if group = 1 then .ok bsr_data
    else if group ≠ 64 / sizeof_T then .error .assert_failed
    else
      let nrowptr := bsr_data.indptr.length
      match amx_group_indices_checked fuel group bsr_data.indptr bsr_data.indices with
      | .error e => .error e
      | .ok a =>
        let colidxs := a.1
        let nnz_group := colidxs.length / group
        let group_rowptr := a.2.set (nrowptr - 1) nnz_group
        let blksize := blk_row * blk_col
        let new_data := List.replicate (colidxs.length * blksize) (0 : Int)
        match amx_compact_checked fuel group blksize bsr_data.indptr group_rowptr colidxs
                bsr_data.data (new_data, 0) with
        | .error e => .error e
        | .ok b =>
          let data := List.replicate (colidxs.length * blksize) (0 : Int)
          match amx_reorder_checked fuel group colidxs.length b.1 (data, 0, 0) with
          | .error e => .error e
          | .ok c =>
            .ok { block := (blk_row, blk_col), shape := (rows, cols), indptr := group_rowptr,
                  indices := colidxs, data := c.1, group := group }

/-! ## General list lemmas -/

theorem foldl_push_filter {α : Type} (p : α → Bool) (l : List α) (acc : List α) :
    l.foldl (fun acc c => if p c then acc ++ [c] else acc) acc = acc ++ l.filter p := by
  induction l generalizing acc with
  | nil => simp
  | cons x xs ih =>
    simp only [List.foldl_cons, List.filter_cons]
    rw [ih]
    by_cases h : p x <;> simp [h]

theorem flatMap_range_succ {α : Type} (f : Nat → List α) (n : Nat) :
    (List.range (n + 1)).flatMap f = (List.range n).flatMap f ++ f n := by
  rw [List.range_succ, List.flatMap_append, List.flatMap_singleton]

theorem flatMap_range_split {α : Type} (f : Nat → List α) (b n : Nat) (h : b < n) :
    ∃ rest, (List.range n).flatMap f = (List.range b).flatMap f ++ f b ++ rest := by
  induction n with
  | zero => omega
  | succ n ih =>
    rw [flatMap_range_succ]
    by_cases hb : b = n
    · subst hb; exact ⟨[], by simp⟩
    · obtain ⟨rest, hr⟩ := ih (by omega)
      exact ⟨rest ++ f n, by rw [hr]; simp⟩

theorem slice_append_mid {α : Type} (a m r : List α) :
    slice (a ++ m ++ r) a.length (a.length + m.length) = m := by
  simp [slice, List.append_assoc]

theorem map_getD_range' {α : Type} (l : List α) (d : α) (lo n : Nat) (h : lo + n ≤ l.length) :
    (List.range' lo n).map (fun k => l.getD k d) = (l.drop lo).take n := by
  induction n generalizing lo with
  | zero => simp
  | succ n ih =>
    have hlo : lo < l.length := by omega
    rw [List.range'_succ, List.map_cons, ih (lo + 1) (by omega)]
    rw [List.getD_eq_getElem l d hlo, List.drop_eq_getElem_cons hlo, List.take_succ_cons]

/-! ## First pass of `tobsr` -/

theorem tobsr_scan_row_eq (M : List Int) (cols br bc b : Nat) (acc : List Nat) :
    tobsr_scan_row M cols br bc b acc = acc ++ nzcols M cols br bc b := by
  unfold tobsr_scan_row nzcols
  exact foldl_push_filter _ _ _

theorem tobsr_scan_fold (M : List Int) (cols br bc n : Nat) :
    (List.range n).foldl
      (fun (st : List Nat × List Nat) b_row =>
        (st.1 ++ [st.2.length], tobsr_scan_row M cols br bc b_row st.2))
      ([], [])
    = ((List.range n).map (fun b => (colsUpTo M cols br bc b).length), colsUpTo M cols br bc n) := by
  induction n with
  | zero => simp [colsUpTo]
  | succ n ih =>
    rw [List.range_succ, List.foldl_append, ih]
    simp [tobsr_scan_row_eq, colsUpTo, flatMap_range_succ, List.range_succ]

theorem tobsr_scan_eq (rows cols br bc : Nat) (M : List Int) :
    tobsr_scan rows cols br bc M
      = ((List.range (rows / br)).map (fun b => (colsUpTo M cols br bc b).length),
         colsUpTo M cols br bc (rows / br)) :=
  tobsr_scan_fold M cols br bc (rows / br)

theorem tobsr_indices (rows cols br bc : Nat) (M : List Int) :
    (tobsr rows cols br bc M).indices = colsUpTo M cols br bc (rows / br) := by
  simp [tobsr, tobsr_scan_eq]

theorem tobsr_indptr (rows cols br bc : Nat) (M : List Int) :
    (tobsr rows cols br bc M).indptr
      = (List.range (rows / br + 1)).map (fun b => (colsUpTo M cols br bc b).length) := by
  simp [tobsr, tobsr_scan_eq, List.range_succ]

theorem tobsr_indptr_getD (rows cols br bc : Nat) (M : List Int) (b : Nat) (hb : b ≤ rows / br) :
    (tobsr rows cols br bc M).indptr.getD b 0 = (colsUpTo M cols br bc b).length := by
  rw [tobsr_indptr, List.getD_eq_getElem?_getD, List.getElem?_map,
    List.getElem?_range (by omega)]
  rfl

theorem colsUpTo_succ (M : List Int) (cols br bc n : Nat) :
    colsUpTo M cols br bc (n + 1) = colsUpTo M cols br bc n ++ nzcols M cols br bc n :=
  flatMap_range_succ _ _

theorem tobsr_slice (rows cols br bc : Nat) (M : List Int) (b : Nat) (hb : b < rows / br) :
    slice (tobsr rows cols br bc M).indices ((tobsr rows cols br bc M).indptr.getD b 0)
        ((tobsr rows cols br bc M).indptr.getD (b + 1) 0)
      = nzcols M cols br bc b := by
  rw [tobsr_indptr_getD _ _ _ _ _ _ (by omega), tobsr_indptr_getD _ _ _ _ _ _ (by omega),
    tobsr_indices, colsUpTo_succ, List.length_append]
  obtain ⟨rest, hr⟩ := flatMap_range_split (nzcols M cols br bc) b (rows / br) hb
  unfold colsUpTo
  rw [hr]
  exact slice_append_mid _ _ _

/-! ## Sequential writes into a zero-initialised vector -/

theorem set_fill {α : Type} (pre : List α) (r : Nat) (z x : α) :
    (pre ++ List.replicate (r + 1) z).set pre.length x
      = (pre ++ [x]) ++ List.replicate r z := by
  rw [List.set_append]
  simp [List.replicate_succ]

theorem set_fill_at {α : Type} (pre : List α) (r : Nat) (z x : α) (n : Nat)
    (hn : n = pre.length) :
    (pre ++ List.replicate (r + 1) z).set n x = (pre ++ [x]) ++ List.replicate r z := by
  rw [hn, set_fill]

theorem foldl_set_fill (v : Nat → Int) (pos : Nat → Nat) (n : Nat) (pre : List Int) (r : Nat)
    (hpos : ∀ t, t < n → pos t = pre.length + t) (h : n ≤ r) :
    (List.range n).foldl (fun d t => d.set (pos t) (v t)) (pre ++ List.replicate r 0)
      = (pre ++ (List.range n).map v) ++ List.replicate (r - n) 0 := by
  induction n with
  | zero => simp
  | succ n ih =>
    rw [List.range_succ, List.foldl_append, ih (fun t ht => hpos t (by omega)) (by omega)]
    have hr : r - n = (r - (n + 1)) + 1 := by omega
    simp only [List.foldl_cons, List.foldl_nil, List.map_append, List.map_cons, List.map_nil]
    rw [hr, hpos n (by omega)]
    have hl : pre.length + n = (pre ++ List.map v (List.range n)).length := by simp
    rw [hl, set_fill]
    simp

theorem length_flatMap_const {α β : Type} (f : α → List β) (k : Nat) (l : List α)
    (h : ∀ x, x ∈ l → (f x).length = k) : (l.flatMap f).length = l.length * k := by
  induction l with
  | nil => simp
  | cons x xs ih =>
    rw [List.flatMap_cons, List.length_append, ih (fun y hy => h y (by simp [hy])),
      h x (by simp), List.length_cons]
    ring

theorem length_blockvals (M : List Int) (cols br bc b c : Nat) :
    (blockvals M cols br bc b c).length = br * bc := by
  unfold blockvals
  rw [length_flatMap_const _ bc _ (by intro x _; simp)]
  simp

/-! ## Second pass of `tobsr` -/

theorem tobsr_copy_rows (M : List Int) (cols br bc b c nnz_idx m : Nat) (pre : List Int) (r : Nat)
    (hpre : pre.length = nnz_idx * (br * bc)) (h : m * bc ≤ r) :
    (List.range m).foldl
      (fun data i =>
        (List.range bc).foldl
          (fun data j =>
            data.set (nnz_idx * (br * bc) + (i * bc + j))
              (M.getD (b * br * cols + c * bc + (i * cols + j)) 0))
          data)
      (pre ++ List.replicate r 0)
      = (pre ++ (List.range m).flatMap (fun i =>
            (List.range bc).map fun j => M.getD (b * br * cols + c * bc + (i * cols + j)) 0))
          ++ List.replicate (r - m * bc) 0 := by
  induction m with
  | zero => simp
  | succ m ih =>
    have hm : m * bc + bc ≤ r := by
      have : (m + 1) * bc = m * bc + bc := by ring
      omega
    rw [List.range_succ, List.foldl_append, ih (by omega)]
    simp only [List.foldl_cons, List.foldl_nil]
    rw [foldl_set_fill _ _ bc _ (r - m * bc) _ (by omega)]
    · rw [List.flatMap_append, List.flatMap_singleton, List.append_assoc pre]
      congr 2
      have : (m + 1) * bc = m * bc + bc := by ring
      omega
    · intro t _
      rw [List.length_append, hpre, length_flatMap_const _ bc _ (by intro x _; simp),
        List.length_range]
      ring

theorem tobsr_copy_block_eq (M : List Int) (cols br bc b c nnz_idx : Nat) (pre : List Int)
    (r : Nat) (hpre : pre.length = nnz_idx * (br * bc)) (h : br * bc ≤ r) :
    tobsr_copy_block M cols br bc b c nnz_idx (pre ++ List.replicate r 0)
      = (pre ++ blockvals M cols br bc b c) ++ List.replicate (r - br * bc) 0 :=
  tobsr_copy_rows M cols br bc b c nnz_idx br pre r hpre h

theorem tobsr_fill_row (M : List Int) (cols br bc b : Nat) (cs : List Nat) :
    ∀ (pre : List Int) (r idx : Nat), pre.length = idx * (br * bc) → cs.length * (br * bc) ≤ r →
    cs.foldl
      (fun (st : List Int × Nat) c =>
        (tobsr_copy_block M cols br bc b c st.2 st.1, st.2 + 1))
      (pre ++ List.replicate r 0, idx)
      = ((pre ++ cs.flatMap (blockvals M cols br bc b))
            ++ List.replicate (r - cs.length * (br * bc)) 0, idx + cs.length) := by
  induction cs with
  | nil => intro pre r idx _ _; simp
  | cons c cs ih =>
    intro pre r idx hpre h
    have hlen : (c :: cs).length * (br * bc) = br * bc + cs.length * (br * bc) := by
      rw [List.length_cons]; ring
    rw [List.foldl_cons]
    simp only
    rw [tobsr_copy_block_eq M cols br bc b c idx pre r hpre (by omega),
      ih _ _ _ (by rw [List.length_append, hpre, length_blockvals]; ring) (by omega)]
    have e1 : r - br * bc - cs.length * (br * bc) = r - (c :: cs).length * (br * bc) := by
      rw [hlen]; omega
    rw [e1, List.flatMap_cons, List.append_assoc pre, List.length_cons]
    congr 1
    omega

theorem length_dataUpTo (M : List Int) (cols br bc n : Nat) :
    (dataUpTo M cols br bc n).length = (colsUpTo M cols br bc n).length * (br * bc) := by
  induction n with
  | zero => simp [dataUpTo, colsUpTo]
  | succ n ih =>
    unfold dataUpTo colsUpTo at *
    rw [flatMap_range_succ, flatMap_range_succ, List.length_append, List.length_append, ih,
      length_flatMap_const _ (br * bc) _ (fun x _ => length_blockvals M cols br bc n x)]
    ring

theorem length_flatMap_range_mono {α : Type} (f : Nat → List α) (a b : Nat) (h : a ≤ b) :
    ((List.range a).flatMap f).length ≤ ((List.range b).flatMap f).length := by
  induction b with
  | zero =>
    have : a = 0 := by omega
    subst this; exact Nat.le_refl _
  | succ b ih =>
    by_cases hab : a = b + 1
    · subst hab; exact Nat.le_refl _
    · rw [flatMap_range_succ, List.length_append]
      have := ih (by omega)
      omega

theorem length_colsUpTo_mono (M : List Int) (cols br bc a b : Nat) (h : a ≤ b) :
    (colsUpTo M cols br bc a).length ≤ (colsUpTo M cols br bc b).length :=
  length_flatMap_range_mono _ a b h

theorem tobsr_fill_fold (rows cols br bc : Nat) (M : List Int) (n : Nat) (hn : n ≤ rows / br) :
    (List.range n).foldl
      (fun (st : List Int × Nat) b_row =>
        (List.range' ((tobsr rows cols br bc M).indptr.getD b_row 0)
            ((tobsr rows cols br bc M).indptr.getD (b_row + 1) 0
              - (tobsr rows cols br bc M).indptr.getD b_row 0)).foldl
          (fun st b_col_idx =>
            (tobsr_copy_block M cols br bc b_row
              ((tobsr rows cols br bc M).indices.getD b_col_idx 0) st.2 st.1, st.2 + 1))
          st)
      (List.replicate ((colsUpTo M cols br bc (rows / br)).length * (br * bc)) 0, 0)
      = (dataUpTo M cols br bc n
          ++ List.replicate ((colsUpTo M cols br bc (rows / br)).length * (br * bc)
              - (dataUpTo M cols br bc n).length) 0,
         (colsUpTo M cols br bc n).length) := by
  induction n with
  | zero => simp [dataUpTo, colsUpTo]
  | succ n ih =>
    rw [List.range_succ, List.foldl_append, ih (by omega)]
    simp only [List.foldl_cons, List.foldl_nil]
    have hsl := tobsr_slice rows cols br bc M n (by omega)
    unfold slice at hsl
    have hlo := tobsr_indptr_getD rows cols br bc M n (by omega)
    have hhi := tobsr_indptr_getD rows cols br bc M (n + 1) (by omega)
    have hmono := length_colsUpTo_mono M cols br bc (n + 1) (rows / br) (by omega)
    have hsucc := colsUpTo_succ M cols br bc n
    have hlen1 : (colsUpTo M cols br bc (n + 1)).length
        = (colsUpTo M cols br bc n).length + (nzcols M cols br bc n).length := by
      rw [hsucc, List.length_append]
    have hfm := List.foldl_map (fun k => (tobsr rows cols br bc M).indices.getD k 0)
      (fun (st : List Int × Nat) c => (tobsr_copy_block M cols br bc n c st.2 st.1, st.2 + 1))
      (List.range' ((tobsr rows cols br bc M).indptr.getD n 0)
        ((tobsr rows cols br bc M).indptr.getD (n + 1) 0
          - (tobsr rows cols br bc M).indptr.getD n 0))
    rw [← hfm, map_getD_range' _ _ _ _ (by rw [tobsr_indices, hlo, hhi]; omega), hsl,
      tobsr_fill_row M cols br bc n _ _ _ _ (length_dataUpTo M cols br bc n)]
    · have hd : dataUpTo M cols br bc (n + 1)
          = dataUpTo M cols br bc n
            ++ (nzcols M cols br bc n).flatMap (blockvals M cols br bc n) :=
        flatMap_range_succ _ _
      rw [hd, List.length_append,
        length_flatMap_const _ (br * bc) _ (fun x _ => length_blockvals M cols br bc n x),
        hlen1, Nat.sub_sub]
    · rw [length_dataUpTo]
      have : (colsUpTo M cols br bc n).length * (br * bc)
          + (nzcols M cols br bc n).length * (br * bc)
          ≤ (colsUpTo M cols br bc (rows / br)).length * (br * bc) := by
        rw [← Nat.add_mul]
        exact Nat.mul_le_mul_right _ (by omega)
      omega

theorem tobsr_data (rows cols br bc : Nat) (M : List Int) :
    (tobsr rows cols br bc M).data = dataUpTo M cols br bc (rows / br) := by
  have h := tobsr_fill_fold rows cols br bc M (rows / br) (Nat.le_refl _)
  have hi := tobsr_indices rows cols br bc M
  show (tobsr_fill rows cols br bc M (tobsr rows cols br bc M).indptr
      (tobsr rows cols br bc M).indices
      (List.replicate ((tobsr rows cols br bc M).indices.length * br * bc) 0, 0)).1 = _
  unfold tobsr_fill
  have hl : (tobsr rows cols br bc M).indices.length
      = (colsUpTo M cols br bc (rows / br)).length := by rw [hi]
  rw [hl, Nat.mul_assoc, h, length_dataUpTo]
  simp

/-! ## Indexing into concatenations of equally sized chunks -/

theorem getD_append_left' {α : Type} (a b : List α) (d : α) (n : Nat) (h : n < a.length) :
    (a ++ b).getD n d = a.getD n d := by
  simp [List.getD_eq_getElem?_getD, List.getElem?_append_left h]

theorem getD_append_right' {α : Type} (a b : List α) (d : α) (n : Nat) :
    (a ++ b).getD (a.length + n) d = b.getD n d := by
  simp [List.getD_eq_getElem?_getD, List.getElem?_append_right]

theorem getD_flatMap_uniform {α β : Type} (f : α → List β) (sz : Nat) (x0 : α) (d : β)
    (l : List α) (hsz : ∀ x, (f x).length = sz) (t e : Nat) (ht : t < l.length) (he : e < sz) :
    (l.flatMap f).getD (t * sz + e) d = (f (l.getD t x0)).getD e d := by
  induction l generalizing t with
  | nil => simp at ht
  | cons x xs ih =>
    rw [List.flatMap_cons]
    cases t with
    | zero =>
      rw [Nat.zero_mul, Nat.zero_add, getD_append_left' _ _ _ _ (by rw [hsz]; exact he)]
      simp
    | succ t =>
      have e1 : (t + 1) * sz + e = (f x).length + (t * sz + e) := by rw [hsz]; ring
      rw [e1, getD_append_right', ih t (by simpa using ht)]
      simp

theorem getD_range (n t : Nat) (h : t < n) : (List.range n).getD t 0 = t := by
  simp [List.getD_eq_getElem?_getD, List.getElem?_range h]

theorem getD_map_range {β : Type} (g : Nat → β) (d : β) (n t : Nat) (h : t < n) :
    ((List.range n).map g).getD t d = g t := by
  simp [List.getD_eq_getElem?_getD, List.getElem?_range h]

theorem getD_flatMap_range {β : Type} (f : Nat → List β) (sz : Nat) (d : β) (n : Nat)
    (hsz : ∀ x, x < n → (f x).length = sz) (t e : Nat) (ht : t < n) (he : e < sz) :
    ((List.range n).flatMap f).getD (t * sz + e) d = (f t).getD e d := by
  obtain ⟨rest, hr⟩ := flatMap_range_split f t n ht
  have hlen : ((List.range t).flatMap f).length = t * sz := by
    rw [length_flatMap_const f sz _ (fun x hx => hsz x (by
      have := List.mem_range.1 hx; omega)), List.length_range]
  rw [hr, List.append_assoc, ← hlen, getD_append_right',
    getD_append_left' _ _ _ _ (by rw [hsz t ht]; exact he)]

theorem getD_blockvals (M : List Int) (cols br bc b c i j : Nat) (hi : i < br) (hj : j < bc) :
    (blockvals M cols br bc b c).getD (i * bc + j) 0
      = M.getD (b * br * cols + c * bc + (i * cols + j)) 0 := by
  unfold blockvals
  rw [getD_flatMap_uniform _ bc 0 0 _ (by intro x; simp) i j (by simpa using hi) hj,
    getD_range _ _ hi, getD_map_range _ _ _ _ hj]

theorem getD_slice {α : Type} (l : List α) (d : α) (lo hi t : Nat) (h : lo + t < hi) :
    (slice l lo hi).getD t d = l.getD (lo + t) d := by
  unfold slice
  simp only [List.getD_eq_getElem?_getD, List.getElem?_take, List.getElem?_drop]
  rw [if_pos (by omega)]

/-- Element `(i, j)` of the `t`-th stored block of block-row `b`. -/
theorem tobsr_data_getD (rows cols br bc : Nat) (M : List Int) (b t i j : Nat)
    (hb : b < rows / br) (ht : t < (nzcols M cols br bc b).length) (hi : i < br) (hj : j < bc) :
    (tobsr rows cols br bc M).data.getD
        (((colsUpTo M cols br bc b).length + t) * (br * bc) + (i * bc + j)) 0
      = M.getD (b * br * cols + (nzcols M cols br bc b).getD t 0 * bc + (i * cols + j)) 0 := by
  rw [tobsr_data]
  obtain ⟨rest, hr⟩ := flatMap_range_split
    (fun b => (nzcols M cols br bc b).flatMap (blockvals M cols br bc b)) b (rows / br) hb
  have hbs : i * bc + j < br * bc := by
    have : (i + 1) * bc ≤ br * bc := Nat.mul_le_mul_right _ hi
    have : (i + 1) * bc = i * bc + bc := by ring
    omega
  have hlen := length_dataUpTo M cols br bc b
  unfold dataUpTo at hlen ⊢
  rw [hr, List.append_assoc]
  have e1 : ((colsUpTo M cols br bc b).length + t) * (br * bc) + (i * bc + j)
      = ((List.range b).flatMap fun b =>
          (nzcols M cols br bc b).flatMap (blockvals M cols br bc b)).length
        + (t * (br * bc) + (i * bc + j)) := by
    rw [hlen]; ring
  rw [e1, getD_append_right', getD_append_left']
  · rw [getD_flatMap_uniform _ (br * bc) 0 0 _ (fun x => length_blockvals M cols br bc b x)
      t _ ht hbs, getD_blockvals _ _ _ _ _ _ _ _ hi hj]
  · rw [length_flatMap_const _ (br * bc) _ (fun x _ => length_blockvals M cols br bc b x)]
    have : (t + 1) * (br * bc) ≤ (nzcols M cols br bc b).length * (br * bc) :=
      Nat.mul_le_mul_right _ ht
    have : (t + 1) * (br * bc) = t * (br * bc) + br * bc := by ring
    omega

theorem tobsr_indices_getD (rows cols br bc : Nat) (M : List Int) (b t : Nat)
    (hb : b < rows / br) (ht : t < (nzcols M cols br bc b).length) :
    (tobsr rows cols br bc M).indices.getD ((colsUpTo M cols br bc b).length + t) 0
      = (nzcols M cols br bc b).getD t 0 := by
  have h := tobsr_slice rows cols br bc M b hb
  rw [tobsr_indptr_getD _ _ _ _ _ _ (by omega), tobsr_indptr_getD _ _ _ _ _ _ (by omega)] at h
  rw [← h, getD_slice]
  rw [colsUpTo_succ, List.length_append]
  omega

/-! ## The zero test and the non-zero block-columns of a block-row -/

theorem is_zero_iff (M : List Int) (cols br bc start : Nat) :
    is_zero M cols br bc start = true
      ↔ ∀ i j, i < br → j < bc → M.getD (start + (i * cols + j)) 0 = 0 := by
  unfold is_zero
  simp only [List.all_eq_true, List.mem_range, beq_iff_eq]
  constructor
  · intro h i j hi hj; exact h i hi j hj
  · intro h i hi j hj; exact h i j hi hj

theorem block_index (cols br bc b c i j : Nat) :
    b * br * cols + c * bc + (i * cols + j) = (b * br + i) * cols + (c * bc + j) := by ring

theorem mem_nzcols (M : List Int) (cols br bc b c : Nat) :
    c ∈ nzcols M cols br bc b
      ↔ c < cols / bc ∧ ∃ i j, i < br ∧ j < bc ∧ M.getD ((b * br + i) * cols + (c * bc + j)) 0 ≠ 0 := by
  unfold nzcols
  rw [List.mem_filter, List.mem_range]
  refine and_congr_right fun _ => ?_
  rw [Bool.not_eq_true', ← Bool.not_eq_true, is_zero_iff]
  simp only [block_index]
  constructor
  · intro h
    by_contra hc
    exact h fun i j hi hj => by
      by_contra hne
      exact hc ⟨i, j, hi, hj, hne⟩
  · rintro ⟨i, j, hi, hj, hne⟩ h
    exact hne (h i j hi hj)

theorem nzcols_pairwise (M : List Int) (cols br bc b : Nat) :
    (nzcols M cols br bc b).Pairwise (· < ·) :=
  List.Pairwise.filter _ (List.pairwise_lt_range _)

theorem nzcols_nodup (M : List Int) (cols br bc b : Nat) : (nzcols M cols br bc b).Nodup :=
  List.Nodup.filter _ (List.nodup_range _)

/-- Every index `k` of the slice of block-row `b` is `rowptr[b] + t` for a position `t`
of `nzcols b`. -/
theorem tobsr_slice_index (rows cols br bc : Nat) (M : List Int) (b k : Nat) (hb : b < rows / br)
    (hlo : (tobsr rows cols br bc M).indptr.getD b 0 ≤ k)
    (hhi : k < (tobsr rows cols br bc M).indptr.getD (b + 1) 0) :
    ∃ t, t < (nzcols M cols br bc b).length ∧ k = (colsUpTo M cols br bc b).length + t := by
  rw [tobsr_indptr_getD _ _ _ _ _ _ (by omega)] at hlo
  rw [tobsr_indptr_getD _ _ _ _ _ _ (by omega), colsUpTo_succ, List.length_append] at hhi
  exact ⟨k - (colsUpTo M cols br bc b).length, by omega, by omega⟩

theorem tobsr_payload (rows cols br bc : Nat) (M : List Int) (b k i j : Nat) (hb : b < rows / br)
    (hlo : (tobsr rows cols br bc M).indptr.getD b 0 ≤ k)
    (hhi : k < (tobsr rows cols br bc M).indptr.getD (b + 1) 0) (hi : i < br) (hj : j < bc) :
    (tobsr rows cols br bc M).data.getD (k * br * bc + i * bc + j) 0
      = M.getD ((b * br + i) * cols + ((tobsr rows cols br bc M).indices.getD k 0 * bc + j)) 0 := by
  obtain ⟨t, ht, rfl⟩ := tobsr_slice_index rows cols br bc M b k hb hlo hhi
  rw [tobsr_indices_getD _ _ _ _ _ _ _ hb ht, ← block_index,
    ← tobsr_data_getD rows cols br bc M b t i j hb ht hi hj]
  congr 1
  ring

theorem length_tobsr_data (rows cols br bc : Nat) (M : List Int) :
    (tobsr rows cols br bc M).data.length
      = (tobsr rows cols br bc M).indices.length * br * bc := by
  rw [tobsr_data, tobsr_indices, length_dataUpTo, Nat.mul_assoc]

/-! ## Pointer arrays -/

/-- C2: for every block-row `b` and block-column `c` of the block grid, `c` occurs
exactly once in the slice `colidxs[rowptr[b] .. rowptr[b+1])` returned by `tobsr` if
block `(b, c)` of `M` holds a nonzero element, and does not occur in it if the block is
entirely zero. -/
theorem tobsr_block_completeness (rows cols blk_row blk_col : Nat) (M : List Int) (b c : Nat)
    (hb : b < rows / blk_row) (hc : c < cols / blk_col) :
    ((∃ i j, i < blk_row ∧ j < blk_col
          ∧ M.getD ((b * blk_row + i) * cols + (c * blk_col + j)) 0 ≠ 0) →
        (slice (tobsr rows cols blk_row blk_col M).indices
          ((tobsr rows cols blk_row blk_col M).indptr.getD b 0)
          ((tobsr rows cols blk_row blk_col M).indptr.getD (b + 1) 0)).count c = 1)
    ∧ ((∀ i j, i < blk_row → j < blk_col →
          M.getD ((b * blk_row + i) * cols + (c * blk_col + j)) 0 = 0) →
        (slice (tobsr rows cols blk_row blk_col M).indices
          ((tobsr rows cols blk_row blk_col M).indptr.getD b 0)
          ((tobsr rows cols blk_row blk_col M).indptr.getD (b + 1) 0)).count c = 0) := by
  rw [tobsr_slice rows cols blk_row blk_col M b hb]
  constructor
  · intro h
    exact List.count_eq_one_of_mem (nzcols_nodup M cols blk_row blk_col b)
      ((mem_nzcols M cols blk_row blk_col b c).2 ⟨hc, h⟩)
  · intro h
    rw [List.count_eq_zero, mem_nzcols]
    rintro ⟨_, i, j, hi, hj, hne⟩
    exact hne (h i j hi hj)

theorem tobsr_block_completeness_witness :
    (slice (tobsr 4 4 2 2 [1, 0, 0, 2, 0, 3, 4, 0, 5, 6, 0, 0, 7, 8, 0, 0]).indices
        ((tobsr 4 4 2 2 [1, 0, 0, 2, 0, 3, 4, 0, 5, 6, 0, 0, 7, 8, 0, 0]).indptr.getD 0 0)
        ((tobsr 4 4 2 2 [1, 0, 0, 2, 0, 3, 4, 0, 5, 6, 0, 0, 7, 8, 0, 0]).indptr.getD 1 0)).count 1
      = 1 :=
  (tobsr_block_completeness 4 4 2 2 [1, 0, 0, 2, 0, 3, 4, 0, 5, 6, 0, 0, 7, 8, 0, 0] 0 1
    (by decide) (by decide)).1 ⟨0, 1, by decide, by decide, by decide⟩

/-- C5: within every block-row slice `colidxs[rowptr[b] .. rowptr[b+1])` returned by
`tobsr` the entries are strictly increasing and every entry is below `cols / blk_col`. -/
theorem tobsr_slice_strictly_increasing (rows cols blk_row blk_col : Nat) (M : List Int) (b : Nat)
    (hb : b < rows / blk_row) :
    (slice (tobsr rows cols blk_row blk_col M).indices
        ((tobsr rows cols blk_row blk_col M).indptr.getD b 0)
        ((tobsr rows cols blk_row blk_col M).indptr.getD (b + 1) 0)).Pairwise (· < ·)
    ∧ ∀ x, x ∈ slice (tobsr rows cols blk_row blk_col M).indices
          ((tobsr rows cols blk_row blk_col M).indptr.getD b 0)
          ((tobsr rows cols blk_row blk_col M).indptr.getD (b + 1) 0) →
        x < cols / blk_col := by
  rw [tobsr_slice rows cols blk_row blk_col M b hb]
  exact ⟨nzcols_pairwise M cols blk_row blk_col b,
    fun x hx => ((mem_nzcols M cols blk_row blk_col b x).1 hx).1⟩

theorem tobsr_slice_strictly_increasing_witness :
    (slice (tobsr 4 4 2 2 [1, 0, 0, 2, 0, 3, 4, 0, 5, 6, 0, 0, 7, 8, 0, 0]).indices
        ((tobsr 4 4 2 2 [1, 0, 0, 2, 0, 3, 4, 0, 5, 6, 0, 0, 7, 8, 0, 0]).indptr.getD 0 0)
        ((tobsr 4 4 2 2 [1, 0, 0, 2, 0, 3, 4, 0, 5, 6, 0, 0, 7, 8, 0, 0]).indptr.getD 1 0)).Pairwise
        (· < ·)
    ∧ 1 < 4 / 2 :=
  ⟨(tobsr_slice_strictly_increasing 4 4 2 2 [1, 0, 0, 2, 0, 3, 4, 0, 5, 6, 0, 0, 7, 8, 0, 0] 0
      (by decide)).1,
   (tobsr_slice_strictly_increasing 4 4 2 2 [1, 0, 0, 2, 0, 3, 4, 0, 5, 6, 0, 0, 7, 8, 0, 0] 0
      (by decide)).2 1 (by decide)⟩

theorem not_all_zero4 (a b c d : Int) (h : a ≠ 0 ∨ b ≠ 0 ∨ c ≠ 0 ∨ d ≠ 0) :
    (¬a = 0 ∨ ¬b = 0) ∨ ¬c = 0 ∨ ¬d = 0 := by
  rcases h with h | h | h | h
  · exact Or.inl (Or.inl h)
  · exact Or.inl (Or.inr h)
  · exact Or.inr (Or.inl h)
  · exact Or.inr (Or.inr h)

theorem tobsr_example_4x4 (a0 a1 a2 a3 a4 a5 a6 a7 a8 a9 a12 a13 : Int)
    (h00 : a0 ≠ 0 ∨ a1 ≠ 0 ∨ a4 ≠ 0 ∨ a5 ≠ 0) (h01 : a2 ≠ 0 ∨ a3 ≠ 0 ∨ a6 ≠ 0 ∨ a7 ≠ 0)
    (h10 : a8 ≠ 0 ∨ a9 ≠ 0 ∨ a12 ≠ 0 ∨ a13 ≠ 0) :
    (tobsr 4 4 2 2 [a0, a1, a2, a3, a4, a5, a6, a7, a8, a9, 0, 0, a12, a13, 0, 0]).indptr
        = [0, 2, 3]
    ∧ (tobsr 4 4 2 2 [a0, a1, a2, a3, a4, a5, a6, a7, a8, a9, 0, 0, a12, a13, 0, 0]).indices
        = [0, 1, 0]
    ∧ (tobsr 4 4 2 2 [a0, a1, a2, a3, a4, a5, a6, a7, a8, a9, 0, 0, a12, a13, 0, 0]).data
        = [a0, a1, a4, a5, a2, a3, a6, a7, a8, a9, a12, a13] := by
  have r1 : List.range 1 = [0] := rfl
  have r2 : List.range 2 = [0, 1] := rfl
  have r3 : List.range 3 = [0, 1, 2] := rfl
  have d42 : 4 / 2 = 2 := rfl
  have e0 := not_all_zero4 _ _ _ _ h00
  have e1 := not_all_zero4 _ _ _ _ h01
  have e2 := not_all_zero4 _ _ _ _ h10
  have n0 : nzcols [a0, a1, a2, a3, a4, a5, a6, a7, a8, a9, 0, 0, a12, a13, 0, 0] 4 2 2 0
      = [0, 1] := by
    simp [nzcols, is_zero, d42, r2, List.filter_cons, and_assoc, e0, e1]
  have n1 : nzcols [a0, a1, a2, a3, a4, a5, a6, a7, a8, a9, 0, 0, a12, a13, 0, 0] 4 2 2 1
      = [0] := by
    simp [nzcols, is_zero, d42, r2, List.filter_cons, and_assoc, e2]
  rw [tobsr_indptr, tobsr_indices, tobsr_data]
  refine ⟨?_, ?_, ?_⟩
  · simp [colsUpTo, d42, r1, r2, r3, n0, n1]
  · simp [colsUpTo, d42, r2, n0, n1]
  · simp [dataUpTo, d42, r2, n0, n1, blockvals]

/-- C6: the `data` of `tobsr` has length `colidxs.length * blk_row * blk_col`, and for
every block-row `b`, every `k` in `[rowptr[b], rowptr[b+1])` and every `i < blk_row`,
`j < blk_col`, `data[k*blk_row*blk_col + i*blk_col + j]`
is `M[(b*blk_row + i)*cols + colidxs[k]*blk_col + j]`. For a 4x4 matrix with block
shape (2,2) whose bottom-right block is zero and whose other three blocks are nonzero,
`rowptr = [0,2,3]`, `colidxs = [0,1,0]` and `data` lists the elements of those three
blocks in that order. -/
theorem tobsr_payload_layout (rows cols blk_row blk_col : Nat) (M : List Int) :
    (tobsr rows cols blk_row blk_col M).data.length
        = (tobsr rows cols blk_row blk_col M).indices.length * blk_row * blk_col
    ∧ (∀ b k i j, b < rows / blk_row →
        (tobsr rows cols blk_row blk_col M).indptr.getD b 0 ≤ k →
        k < (tobsr rows cols blk_row blk_col M).indptr.getD (b + 1) 0 →
        i < blk_row → j < blk_col →
        (tobsr rows cols blk_row blk_col M).data.getD (k * blk_row * blk_col + i * blk_col + j) 0
          = M.getD ((b * blk_row + i) * cols
              + (tobsr rows cols blk_row blk_col M).indices.getD k 0 * blk_col + j) 0)
    ∧ (∀ a0 a1 a2 a3 a4 a5 a6 a7 a8 a9 a10 a11 a12 a13 a14 a15 : Int,
        (a0 ≠ 0 ∨ a1 ≠ 0 ∨ a4 ≠ 0 ∨ a5 ≠ 0) →
        (a2 ≠ 0 ∨ a3 ≠ 0 ∨ a6 ≠ 0 ∨ a7 ≠ 0) →
        (a8 ≠ 0 ∨ a9 ≠ 0 ∨ a12 ≠ 0 ∨ a13 ≠ 0) →
        (a10 = 0 ∧ a11 = 0 ∧ a14 = 0 ∧ a15 = 0) →
        (tobsr 4 4 2 2
            [a0, a1, a2, a3, a4, a5, a6, a7, a8, a9, a10, a11, a12, a13, a14, a15]).indptr
          = [0, 2, 3]
        ∧ (tobsr 4 4 2 2
            [a0, a1, a2, a3, a4, a5, a6, a7, a8, a9, a10, a11, a12, a13, a14, a15]).indices
          = [0, 1, 0]
        ∧ (tobsr 4 4 2 2
            [a0, a1, a2, a3, a4, a5, a6, a7, a8, a9, a10, a11, a12, a13, a14, a15]).data
          = [a0, a1, a4, a5, a2, a3, a6, a7, a8, a9, a12, a13]) := by
  refine ⟨length_tobsr_data rows cols blk_row blk_col M, ?_, ?_⟩
  · intro b k i j hb hlo hhi hi hj
    rw [tobsr_payload rows cols blk_row blk_col M b k i j hb hlo hhi hi hj, Nat.add_assoc]
  · intro a0 a1 a2 a3 a4 a5 a6 a7 a8 a9 a10 a11 a12 a13 a14 a15 h00 h01 h10 h11
    obtain ⟨z10, z11, z14, z15⟩ := h11
    subst z10 z11 z14 z15
    exact tobsr_example_4x4 a0 a1 a2 a3 a4 a5 a6 a7 a8 a9 a12 a13 h00 h01 h10

theorem tobsr_payload_layout_witness :
    (tobsr 4 4 2 2 [1, 0, 0, 2, 0, 3, 4, 0, 5, 6, 0, 0, 7, 8, 0, 0]).data.getD
        (1 * 2 * 2 + 1 * 2 + 0) 0
      = ([1, 0, 0, 2, 0, 3, 4, 0, 5, 6, 0, 0, 7, 8, 0, 0] : List Int).getD
          ((0 * 2 + 1) * 4
            + (tobsr 4 4 2 2 [1, 0, 0, 2, 0, 3, 4, 0, 5, 6, 0, 0, 7, 8, 0, 0]).indices.getD 1 0 * 2
            + 0) 0
    ∧ ((tobsr 4 4 2 2 [1, 0, 0, 2, 0, 3, 4, 0, 5, 6, 0, 0, 7, 8, 0, 0]).indptr = [0, 2, 3]
      ∧ (tobsr 4 4 2 2 [1, 0, 0, 2, 0, 3, 4, 0, 5, 6, 0, 0, 7, 8, 0, 0]).indices = [0, 1, 0]
      ∧ (tobsr 4 4 2 2 [1, 0, 0, 2, 0, 3, 4, 0, 5, 6, 0, 0, 7, 8, 0, 0]).data
          = [1, 0, 0, 3, 0, 2, 4, 0, 5, 6, 7, 8]) :=
  ⟨(tobsr_payload_layout 4 4 2 2 [1, 0, 0, 2, 0, 3, 4, 0, 5, 6, 0, 0, 7, 8, 0, 0]).2.1 0 1 1 0
      (by decide) (by decide) (by decide) (by decide) (by decide),
   (tobsr_payload_layout 4 4 2 2 [1, 0, 0, 2, 0, 3, 4, 0, 5, 6, 0, 0, 7, 8, 0, 0]).2.2
      1 0 0 2 0 3 4 0 5 6 0 0 7 8 0 0
      (by decide) (by decide) (by decide) (by decide)⟩

/-! ## Round trip of `tobsr` -/

theorem foldl_inv {σ β : Type} (P : σ → Prop) (f : σ → β → σ) (l : List β) (s : σ)
    (h : ∀ s x, x ∈ l → P s → P (f s x)) (hs : P s) : P (l.foldl f s) := by
  induction l generalizing s with
  | nil => exact hs
  | cons y ys ih =>
    rw [List.foldl_cons]
    exact ih _ (fun s x hx => h s x (List.mem_cons_of_mem _ hx))
      (h s y (List.mem_cons_self _ _) hs)

theorem foldl_reach {σ β : Type} (P Q : σ → Prop) (f : σ → β → σ) (l : List β) (s : σ) (x0 : β)
    (hx0 : x0 ∈ l) (hP : ∀ s x, x ∈ l → P s → P (f s x))
    (hQ : ∀ s x, x ∈ l → P s → Q s → Q (f s x)) (hx : ∀ s, P s → Q (f s x0)) (hs : P s) :
    Q (l.foldl f s) := by
  induction l generalizing s with
  | nil => simp at hx0
  | cons y ys ih =>
    rw [List.foldl_cons]
    have hPy : P (f s y) := hP s y (List.mem_cons_self _ _) hs
    rcases List.mem_cons.1 hx0 with h | h
    · subst h
      have hQy : Q (f s x0) := hx s hs
      exact (foldl_inv (fun s => P s ∧ Q s) f ys (f s x0)
        (fun s x hxm hpq =>
          ⟨hP s x (List.mem_cons_of_mem _ hxm) hpq.1,
           hQ s x (List.mem_cons_of_mem _ hxm) hpq.1 hpq.2⟩)
        ⟨hPy, hQy⟩).2
    · exact ih _ h (fun s x hxm => hP s x (List.mem_cons_of_mem _ hxm))
        (fun s x hxm => hQ s x (List.mem_cons_of_mem _ hxm)) hPy

theorem getD_set_eq (d : List Int) (pos q : Nat) (v : Int) :
    (d.set pos v).getD q 0 = if pos = q ∧ pos < d.length then v else d.getD q 0 := by
  simp only [List.getD_eq_getElem?_getD, List.getElem?_set]
  by_cases h : pos = q
  · subst h
    by_cases h2 : pos < d.length
    · simp [h2]
    · simp [h2, List.getElem?_eq_none (Nat.le_of_not_lt h2)]
  · simp [h]

/-- Writing a value of `M` at its own position keeps `DenseInv`. -/
theorem denseInv_set (M : List Int) (n : Nat) (d : List Int) (pos : Nat) (v : Int)
    (hv : v = M.getD pos 0) (h : DenseInv M n d) : DenseInv M n (d.set pos v) := by
  refine ⟨by rw [List.length_set]; exact h.1, fun q => ?_⟩
  rw [getD_set_eq]
  split
  · rename_i hq
    right; rw [hv, hq.1]
  · exact h.2 q

theorem agree_set (M : List Int) (d : List Int) (pos p : Nat) (v : Int)
    (hv : v = M.getD pos 0) (h : d.getD p 0 = M.getD p 0) :
    (d.set pos v).getD p 0 = M.getD p 0 := by
  rw [getD_set_eq]
  split
  · rename_i hq
    rw [hv, hq.1]
  · exact h

theorem agree_set_self (M : List Int) (d : List Int) (p : Nat) (v : Int)
    (hv : v = M.getD p 0) (hp : p < d.length) : (d.set p v).getD p 0 = M.getD p 0 := by
  rw [getD_set_eq, if_pos ⟨rfl, hp⟩, hv]

theorem put_block_pres (R : List Int → Prop) (M : List Int) (cols br bc : Nat) (data : List Int)
    (r0 c0 k : Nat)
    (hR : ∀ d pos v, v = M.getD pos 0 → R d → R (d.set pos v))
    (hval : ∀ i j, i < br → j < bc →
      data.getD (k * br * bc + i * bc + j) 0 = M.getD ((r0 + i) * cols + (c0 + j)) 0)
    (d : List Int) (hd : R d) : R (dense_put_block cols br bc data r0 c0 k d) := by
  unfold dense_put_block
  refine foldl_inv R _ _ _ (fun d i hi hd => ?_) hd
  refine foldl_inv R _ _ _ (fun d j hj hd => ?_) hd
  exact hR d _ _ (hval i j (List.mem_range.1 hi) (List.mem_range.1 hj)) hd

theorem put_block_reach (M : List Int) (n cols br bc : Nat) (data : List Int) (r0 c0 k : Nat)
    (hval : ∀ i j, i < br → j < bc →
      data.getD (k * br * bc + i * bc + j) 0 = M.getD ((r0 + i) * cols + (c0 + j)) 0)
    (i0 j0 : Nat) (hi0 : i0 < br) (hj0 : j0 < bc) (hn : (r0 + i0) * cols + (c0 + j0) < n)
    (d : List Int) (hd : DenseInv M n d) :
    (dense_put_block cols br bc data r0 c0 k d).getD ((r0 + i0) * cols + (c0 + j0)) 0
      = M.getD ((r0 + i0) * cols + (c0 + j0)) 0 := by
  unfold dense_put_block
  refine foldl_reach (DenseInv M n)
    (fun d : List Int => d.getD ((r0 + i0) * cols + (c0 + j0)) 0 = M.getD ((r0 + i0) * cols + (c0 + j0)) 0)
    _ _ _ i0 (List.mem_range.2 hi0) (fun d i hi hd => ?_) (fun d i hi _ hq => ?_)
    (fun d hd => ?_) hd
  · refine foldl_inv (DenseInv M n) _ _ _ (fun d j hj hd => ?_) hd
    exact denseInv_set M n d _ _ (hval i j (List.mem_range.1 hi) (List.mem_range.1 hj)) hd
  · refine foldl_inv
      (fun d : List Int => d.getD ((r0 + i0) * cols + (c0 + j0)) 0
        = M.getD ((r0 + i0) * cols + (c0 + j0)) 0) _ _ _ (fun d j hj hq => ?_) hq
    exact agree_set M d _ _ _ (hval i j (List.mem_range.1 hi) (List.mem_range.1 hj)) hq
  · refine foldl_reach (DenseInv M n)
      (fun d : List Int => d.getD ((r0 + i0) * cols + (c0 + j0)) 0
        = M.getD ((r0 + i0) * cols + (c0 + j0)) 0)
      _ _ _ j0 (List.mem_range.2 hj0) (fun d j hj hd => ?_) (fun d j hj _ hq => ?_)
      (fun d hd => ?_) hd
    · exact denseInv_set M n d _ _ (hval i0 j hi0 (List.mem_range.1 hj)) hd
    · exact agree_set M d _ _ _ (hval i0 j hi0 (List.mem_range.1 hj)) hq
    · exact agree_set_self M d _ _ (hval i0 j0 hi0 hj0) (by rw [hd.1]; exact hn)

theorem tobsr_mem_slice_range (rows cols br bc : Nat) (M : List Int) (b k : Nat)
    (hk : k ∈ List.range' ((tobsr rows cols br bc M).indptr.getD b 0)
      ((tobsr rows cols br bc M).indptr.getD (b + 1) 0
        - (tobsr rows cols br bc M).indptr.getD b 0)) :
    (tobsr rows cols br bc M).indptr.getD b 0 ≤ k
      ∧ k < (tobsr rows cols br bc M).indptr.getD (b + 1) 0 := by
  rw [List.mem_range'_1] at hk
  omega

theorem denseInv_zero (M : List Int) (n : Nat) : DenseInv M n (List.replicate n 0) := by
  refine ⟨by simp, fun q => Or.inl ?_⟩
  rw [List.getD_eq_getElem?_getD, List.getElem?_replicate]
  split <;> rfl

theorem bsr_to_dense_inv (rows cols br bc : Nat) (M : List Int) :
    DenseInv M (rows * cols)
      (bsr_to_dense rows cols br bc (tobsr rows cols br bc M).indptr
        (tobsr rows cols br bc M).indices (tobsr rows cols br bc M).data) := by
  unfold bsr_to_dense
  refine foldl_inv (DenseInv M (rows * cols)) _ _ _ (fun d b hb hd => ?_) (denseInv_zero M _)
  refine foldl_inv (DenseInv M (rows * cols)) _ _ _ (fun d k hk hd => ?_) hd
  have hb' := List.mem_range.1 hb
  obtain ⟨hlo, hhi⟩ := tobsr_mem_slice_range rows cols br bc M b k hk
  exact put_block_pres (DenseInv M (rows * cols)) M cols br bc _ _ _ k
    (fun d pos v hv hd => denseInv_set M _ d pos v hv hd)
    (fun i j hi hj => tobsr_payload rows cols br bc M b k i j hb' hlo hhi hi hj) d hd

theorem cell_decompose (rows cols br bc p : Nat) (hr : rows % br = 0) (hc : cols % bc = 0)
    (hp : p < rows * cols) :
    ∃ b c i j, b < rows / br ∧ c < cols / bc ∧ i < br ∧ j < bc
      ∧ p = (b * br + i) * cols + (c * bc + j) := by
  have hcols : 0 < cols := by
    rcases Nat.eq_zero_or_pos cols with h | h
    · subst h; simp at hp
    · exact h
  have hrows : 0 < rows := by
    rcases Nat.eq_zero_or_pos rows with h | h
    · subst h; simp at hp
    · exact h
  have hbr : 0 < br := by
    rcases Nat.eq_zero_or_pos br with h | h
    · subst h; rw [Nat.mod_zero] at hr; omega
    · exact h
  have hbc : 0 < bc := by
    rcases Nat.eq_zero_or_pos bc with h | h
    · subst h; rw [Nat.mod_zero] at hc; omega
    · exact h
  have hrow : p / cols < rows := Nat.div_lt_of_lt_mul (by rw [Nat.mul_comm]; exact hp)
  have hcol : p % cols < cols := Nat.mod_lt _ hcols
  have erows : br * (rows / br) = rows := Nat.mul_div_cancel' (Nat.dvd_of_mod_eq_zero hr)
  have ecols : bc * (cols / bc) = cols := Nat.mul_div_cancel' (Nat.dvd_of_mod_eq_zero hc)
  refine ⟨p / cols / br, p % cols / bc, p / cols % br, p % cols % bc, ?_, ?_,
    Nat.mod_lt _ hbr, Nat.mod_lt _ hbc, ?_⟩
  · exact Nat.div_lt_of_lt_mul (by rw [erows]; exact hrow)
  · exact Nat.div_lt_of_lt_mul (by rw [ecols]; exact hcol)
  · have e1 : p / cols / br * br + p / cols % br = p / cols := Nat.div_add_mod' _ _
    have e2 : p % cols / bc * bc + p % cols % bc = p % cols := Nat.div_add_mod' _ _
    rw [e1, e2]
    exact (Nat.div_add_mod' _ _).symm

theorem bsr_to_dense_agree (rows cols br bc : Nat) (M : List Int) (hr : rows % br = 0)
    (hc : cols % bc = 0) (p : Nat) (hp : p < rows * cols) (hne : M.getD p 0 ≠ 0) :
    (bsr_to_dense rows cols br bc (tobsr rows cols br bc M).indptr
        (tobsr rows cols br bc M).indices (tobsr rows cols br bc M).data).getD p 0
      = M.getD p 0 := by
  obtain ⟨b, c, i, j, hb, hcc, hi, hj, rfl⟩ := cell_decompose rows cols br bc p hr hc hp
  have hmem : c ∈ nzcols M cols br bc b :=
    (mem_nzcols M cols br bc b c).2 ⟨hcc, i, j, hi, hj, hne⟩
  obtain ⟨t, ht, hget⟩ := List.mem_iff_getElem.1 hmem
  have hidx := tobsr_indices_getD rows cols br bc M b t hb ht
  rw [List.getD_eq_getElem _ _ ht, hget] at hidx
  have hlo := tobsr_indptr_getD rows cols br bc M b (by omega)
  have hhi := tobsr_indptr_getD rows cols br bc M (b + 1) (by omega)
  rw [colsUpTo_succ, List.length_append] at hhi
  have hval : ∀ b k, b < rows / br →
      k ∈ List.range' ((tobsr rows cols br bc M).indptr.getD b 0)
        ((tobsr rows cols br bc M).indptr.getD (b + 1) 0
          - (tobsr rows cols br bc M).indptr.getD b 0) →
      ∀ i j, i < br → j < bc →
        (tobsr rows cols br bc M).data.getD (k * br * bc + i * bc + j) 0
          = M.getD ((b * br + i) * cols
              + ((tobsr rows cols br bc M).indices.getD k 0 * bc + j)) 0 := by
    intro b k hb hk i j hi hj
    obtain ⟨h1, h2⟩ := tobsr_mem_slice_range rows cols br bc M b k hk
    exact tobsr_payload rows cols br bc M b k i j hb h1 h2 hi hj
  unfold bsr_to_dense
  refine foldl_reach (DenseInv M (rows * cols))
    (fun d : List Int => d.getD ((b * br + i) * cols + (c * bc + j)) 0
      = M.getD ((b * br + i) * cols + (c * bc + j)) 0)
    _ _ _ b (List.mem_range.2 hb) (fun d b' hb' hd => ?_) (fun d b' hb' _ hq => ?_)
    (fun d hd => ?_) (denseInv_zero M _)
  · refine foldl_inv (DenseInv M (rows * cols)) _ _ _ (fun d k hk hd => ?_) hd
    exact put_block_pres (DenseInv M (rows * cols)) M cols br bc _ _ _ k
      (fun d pos v hv hd => denseInv_set M _ d pos v hv hd)
      (hval b' k (List.mem_range.1 hb') hk) d hd
  · refine foldl_inv
      (fun d : List Int => d.getD ((b * br + i) * cols + (c * bc + j)) 0
        = M.getD ((b * br + i) * cols + (c * bc + j)) 0) _ _ _ (fun d k hk hq => ?_) hq
    exact put_block_pres _ M cols br bc _ _ _ k
      (fun d pos v hv hd => agree_set M d pos _ v hv hd)
      (hval b' k (List.mem_range.1 hb') hk) d hq
  · have hk : (colsUpTo M cols br bc b).length + t
        ∈ List.range' ((tobsr rows cols br bc M).indptr.getD b 0)
          ((tobsr rows cols br bc M).indptr.getD (b + 1) 0
            - (tobsr rows cols br bc M).indptr.getD b 0) := by
      rw [List.mem_range'_1, hlo, hhi]
      omega
    refine foldl_reach (DenseInv M (rows * cols))
      (fun d : List Int => d.getD ((b * br + i) * cols + (c * bc + j)) 0
        = M.getD ((b * br + i) * cols + (c * bc + j)) 0)
      _ _ _ _ hk (fun d k hk hd => ?_) (fun d k hk _ hq => ?_) (fun d hd => ?_) hd
    · exact put_block_pres (DenseInv M (rows * cols)) M cols br bc _ _ _ k
        (fun d pos v hv hd => denseInv_set M _ d pos v hv hd) (hval b k hb hk) d hd
    · exact put_block_pres _ M cols br bc _ _ _ k
        (fun d pos v hv hd => agree_set M d pos _ v hv hd) (hval b k hb hk) d hq
    · have hv := hval b _ hb hk
      simp only [hidx] at hv
      show (dense_put_block cols br bc (tobsr rows cols br bc M).data (b * br)
          ((tobsr rows cols br bc M).indices.getD ((colsUpTo M cols br bc b).length + t) 0 * bc)
          ((colsUpTo M cols br bc b).length + t) d).getD _ 0 = _
      rw [hidx]
      exact put_block_reach M (rows * cols) cols br bc (tobsr rows cols br bc M).data
        (b * br) (c * bc) ((colsUpTo M cols br bc b).length + t) hv i j hi hj hp d hd

/-- C1: for every `rows`, `cols`, `blk_row`, `blk_col` with `rows % blk_row = 0` and
`cols % blk_col = 0` and every row-major dense matrix `M` of `rows * cols` elements,
densifying `tobsr rows cols blk_row blk_col M` reproduces `M` exactly. -/
theorem tobsr_round_trip (rows cols blk_row blk_col : Nat) (M : List Int)
    (hlen : M.length = rows * cols) (hr : rows % blk_row = 0) (hc : cols % blk_col = 0) :
    bsr_to_dense rows cols blk_row blk_col (tobsr rows cols blk_row blk_col M).indptr
        (tobsr rows cols blk_row blk_col M).indices (tobsr rows cols blk_row blk_col M).data
      = M := by
  have hinv := bsr_to_dense_inv rows cols blk_row blk_col M
  apply List.ext_getElem?
  intro p
  by_cases hp : p < rows * cols
  · have hget : ∀ l : List Int, l.length = rows * cols → l[p]? = some (l.getD p 0) := by
      intro l hl
      rw [List.getD_eq_getElem?_getD, List.getElem?_eq_getElem (by omega)]
      rfl
    rw [hget _ hinv.1, hget _ hlen]
    congr 1
    by_cases hz : M.getD p 0 = 0
    · rcases hinv.2 p with h | h
      · rw [h, hz]
      · exact h
    · exact bsr_to_dense_agree rows cols blk_row blk_col M hr hc p hp hz
  · rw [List.getElem?_eq_none (by rw [hinv.1]; omega), List.getElem?_eq_none (by omega)]

theorem tobsr_round_trip_witness :
    bsr_to_dense 4 4 2 2 (tobsr 4 4 2 2 [1, 0, 0, 2, 0, 3, 4, 0, 5, 6, 0, 0, 7, 8, 0, 0]).indptr
        (tobsr 4 4 2 2 [1, 0, 0, 2, 0, 3, 4, 0, 5, 6, 0, 0, 7, 8, 0, 0]).indices
        (tobsr 4 4 2 2 [1, 0, 0, 2, 0, 3, 4, 0, 5, 6, 0, 0, 7, 8, 0, 0]).data
      = [1, 0, 0, 2, 0, 3, 4, 0, 5, 6, 0, 0, 7, 8, 0, 0] :=
  tobsr_round_trip 4 4 2 2 [1, 0, 0, 2, 0, 3, 4, 0, 5, 6, 0, 0, 7, 8, 0, 0]
    (by decide) (by decide) (by decide)

/-- C3 (evaluation at a failing input): on the 2x4 matrix whose only nonzero element is
at row 1, column 0, with block shape (2,1), `tobsc` returns a structure whose
densification is not the matrix. -/
theorem tobsc_round_trip_fails_non_square :
    tobsc 2 4 2 1 [0, 0, 0, 0, 1, 0, 0, 0]
        = .ok { block := (2, 1), shape := (2, 4), indptr := [0, 0, 0, 1, 1], indices := [0],
                data := [0, 0] }
    ∧ bsc_to_dense 2 4 2 1 [0, 0, 0, 1, 1] [0] [0, 0] = [0, 0, 0, 0, 0, 0, 0, 0]
    ∧ bsc_to_dense 2 4 2 1 [0, 0, 0, 1, 1] [0] [0, 0] ≠ [0, 0, 0, 0, 1, 0, 0, 0] := by
  refine ⟨rfl, by decide, by decide⟩

/-! ## Loops on fuel -/

theorem whileLoop_rule {σ : Type} (cond : σ → Bool) (body : σ → Except Err σ) (I : σ → Prop)
    (μ : σ → Nat)
    (hstep : ∀ s, I s → cond s = true → ∃ s', body s = .ok s' ∧ I s' ∧ μ s' < μ s) :
    ∀ (fuel : Nat) (s : σ), I s → μ s ≤ fuel →
      ∃ s', whileLoop cond body fuel s = .ok s' ∧ I s' ∧ cond s' = false := by
  intro fuel
  induction fuel with
  | zero =>
    intro s hI hμ
    cases hc : cond s with
    | false => exact ⟨s, by simp [whileLoop, hc], hI, hc⟩
    | true =>
      obtain ⟨s', _, _, hlt⟩ := hstep s hI hc
      omega
  | succ fuel ih =>
    intro s hI hμ
    cases hc : cond s with
    | false => exact ⟨s, by simp [whileLoop, hc], hI, hc⟩
    | true =>
      obtain ⟨s', hb, hI', hlt⟩ := hstep s hI hc
      obtain ⟨s'', h1, h2, h3⟩ := ih s' hI' (by omega)
      exact ⟨s'', by simp [whileLoop, hc, hb, h1], h2, h3⟩

theorem forLoop_append {σ β : Type} (body : σ → β → Except Err σ) (l1 l2 : List β) (s s' : σ)
    (h : forLoop body l1 s = .ok s') : forLoop body (l1 ++ l2) s = forLoop body l2 s' := by
  induction l1 generalizing s with
  | nil =>
    simp only [forLoop] at h
    cases h
    rfl
  | cons x xs ih =>
    simp only [List.cons_append, forLoop] at h ⊢
    cases hb : body s x with
    | error e => rw [hb] at h; cases h
    | ok s1 =>
      rw [hb] at h
      exact ih s1 h

theorem forLoop_single {σ β : Type} (body : σ → β → Except Err σ) (x : β) (s : σ) :
    forLoop body [x] s = body s x := by
  simp only [forLoop]
  cases body s x <;> rfl

/-! ## Stage A of `to_bsr_amx` -/

theorem seg_succ (indices : List Nat) (a n : Nat) :
    seg indices a (n + 1) = seg indices a n ++ [indices.getD (a + n) 0] := by
  unfold seg
  rw [List.range'_concat]
  simp

theorem seg_add (indices : List Nat) (a n m : Nat) :
    seg indices a (n + m) = seg indices a n ++ seg indices (a + n) m := by
  unfold seg
  rw [Nat.add_comm n m, ← List.range'_append a n m 1, List.map_append]
  simp

theorem length_seg (indices : List Nat) (a n : Nat) : (seg indices a n).length = n := by
  simp [seg]

theorem amx_copy_loop_eq (fuel g hi : Nat) (indices C0 : List Nat) (i0 : Nat) (hg : g ≤ fuel)
    (hlt : i0 ≤ hi) :
    amx_copy_loop fuel g hi indices (C0, i0, 0)
      = .ok (C0 ++ seg indices i0 (min g (hi - i0)), i0 + min g (hi - i0), min g (hi - i0)) := by
  obtain ⟨s', hs', ⟨m, hm1, hm2, rfl⟩, hex⟩ := whileLoop_rule
    (fun st : List Nat × Nat × Nat => decide (st.2.2 < g) && decide (st.2.1 < hi))
    (fun st => .ok (st.1 ++ [indices.getD st.2.1 0], st.2.1 + 1, st.2.2 + 1))
    (fun st => ∃ m, m ≤ g ∧ i0 + m ≤ hi ∧ st = (C0 ++ seg indices i0 m, i0 + m, m))
    (fun st => g - st.2.2)
    (by
      rintro s ⟨m, hm1, hm2, rfl⟩ hc
      simp only [Bool.and_eq_true, decide_eq_true_eq] at hc
      refine ⟨_, rfl, ⟨m + 1, by omega, by omega, ?_⟩, by simp only; omega⟩
      simp only [seg_succ, List.append_assoc, Nat.add_assoc])
    fuel (C0, i0, 0) ⟨0, by omega, by omega, by simp [seg]⟩ (by simp only; omega)
  unfold amx_copy_loop
  rw [hs']
  simp only [Bool.and_eq_false_iff, decide_eq_false_iff_not] at hex
  have : m = min g (hi - i0) := by omega
  rw [this]

theorem getLastD_append_replicate (C : List Nat) (q : Nat) :
    (C ++ List.replicate q (C.getLastD 0)).getLastD 0 = C.getLastD 0 := by
  cases q with
  | zero => simp
  | succ q => rw [List.replicate_succ', ← List.append_assoc, List.getLastD_concat]

theorem amx_pad_loop_eq (fuel g : Nat) (C : List Nat) (m : Nat) (hg : g ≤ fuel) (hm : m ≤ g) :
    amx_pad_loop fuel g (C, m)
      = .ok (C ++ List.replicate (g - m) (C.getLastD 0), g) := by
  obtain ⟨s', hs', ⟨q, hq, rfl⟩, hex⟩ := whileLoop_rule
    (fun st : List Nat × Nat => decide (st.2 < g))
    (fun st => .ok (st.1 ++ [st.1.getLastD 0], st.2 + 1))
    (fun st => ∃ q, m + q ≤ g ∧ st = (C ++ List.replicate q (C.getLastD 0), m + q))
    (fun st => g - st.2)
    (by
      rintro s ⟨q, hq, rfl⟩ hc
      simp only [decide_eq_true_eq] at hc
      refine ⟨_, rfl, ⟨q + 1, by omega, ?_⟩, by simp only; omega⟩
      rw [getLastD_append_replicate, List.replicate_succ', List.append_assoc]
      rfl)
    fuel (C, m) ⟨0, by omega, by simp⟩ (by simp only; omega)
  unfold amx_pad_loop
  rw [hs']
  simp only [decide_eq_false_iff_not] at hex
  have : q = g - m := by omega
  rw [this]
  congr 2
  omega

theorem getLastD_append_of_ne_nil {α : Type} (C sl : List α) (d : α) (h : sl ≠ []) :
    (C ++ sl).getLastD d = sl.getLastD d := by
  induction sl using List.reverseRecOn with
  | nil => exact absurd rfl h
  | append_singleton xs x _ => rw [← List.append_assoc, List.getLastD_concat, List.getLastD_concat]

theorem padRow_of_dvd (g : Nat) (sl : List Nat) (h : sl.length % g = 0) : padRow g sl = sl := by
  unfold padRow
  rw [h, Nat.sub_zero, Nat.mod_self]
  simp

theorem padRow_short (g : Nat) (a b : List Nat) (ha : a.length % g = 0) (hb1 : 0 < b.length)
    (hb2 : b.length < g) :
    padRow g (a ++ b) = a ++ b ++ List.replicate (g - b.length) (b.getLastD 0) := by
  unfold padRow
  have hmod : (a ++ b).length % g = b.length := by
    rw [List.length_append, Nat.add_mod, ha, Nat.zero_add, Nat.mod_mod, Nat.mod_eq_of_lt hb2]
  rw [hmod, Nat.mod_eq_of_lt (by omega),
    getLastD_append_of_ne_nil _ _ _ (List.ne_nil_of_length_pos hb1)]

theorem amx_row_loop_eq (fuel g hi : Nat) (indices C0 : List Nat) (lo : Nat) (hg1 : 1 ≤ g)
    (hgf : g ≤ fuel) (hnf : hi - lo ≤ fuel) (hlo : lo ≤ hi) :
    amx_row_loop fuel g hi indices (C0, lo)
      = .ok (C0 ++ padRow g (seg indices lo (hi - lo)), hi) := by
  obtain ⟨s', hs', hI, hex⟩ := whileLoop_rule
    (fun st : List Nat × Nat => decide (st.2 < hi))
    (fun st =>
      match amx_copy_loop fuel g hi indices (st.1, st.2, 0) with
      | .error e => .error e
      | .ok s1 =>
        match amx_pad_loop fuel g (s1.1, s1.2.2) with
        | .error e => .error e
        | .ok s2 => .ok (s2.1, s1.2.1))
    (fun st => (lo ≤ st.2 ∧ st.2 ≤ hi ∧ (st.2 - lo) % g = 0
        ∧ st.1 = C0 ++ seg indices lo (st.2 - lo))
      ∨ st = (C0 ++ padRow g (seg indices lo (hi - lo)), hi))
    (fun st => hi - st.2)
    (by
      rintro ⟨C, idx⟩ hI hc
      simp only [decide_eq_true_eq] at hc
      rcases hI with ⟨h1, h2, h3, h4⟩ | h
      · simp only at h1 h2 h3 h4 hc
        subst h4
        simp only
        rw [amx_copy_loop_eq fuel g hi indices _ idx hgf h2]
        simp only
        rw [amx_pad_loop_eq fuel g _ _ hgf (Nat.min_le_left _ _)]
        refine ⟨_, rfl, ?_, by simp only; omega⟩
        by_cases hfull : g ≤ hi - idx
        · left
          rw [Nat.min_eq_left hfull]
          refine ⟨by simp only; omega, by simp only; omega, ?_, ?_⟩
          · simp only
            have : idx + g - lo = (idx - lo) + g := by omega
            rw [this, Nat.add_mod_right]
            exact h3
          · simp only
            have : idx + g - lo = (idx - lo) + g := by omega
            rw [this, seg_add, Nat.sub_self]
            have : lo + (idx - lo) = idx := by omega
            rw [this]
            simp
        · right
          have hm : min g (hi - idx) = hi - idx := Nat.min_eq_right (by omega)
          rw [hm]
          have hsplit : seg indices lo (hi - lo)
              = seg indices lo (idx - lo) ++ seg indices idx (hi - idx) := by
            have : hi - lo = (idx - lo) + (hi - idx) := by omega
            rw [this, seg_add]
            have : lo + (idx - lo) = idx := by omega
            rw [this]
          have hpad := padRow_short g (seg indices lo (idx - lo)) (seg indices idx (hi - idx))
            (by rw [length_seg]; exact h3) (by rw [length_seg]; omega)
            (by rw [length_seg]; omega)
          rw [length_seg] at hpad
          rw [hsplit, hpad, ← List.append_assoc C0,
            getLastD_append_of_ne_nil _ (seg indices idx (hi - idx)) 0
              (List.ne_nil_of_length_pos (by rw [length_seg]; omega))]
          have : idx + (hi - idx) = hi := by omega
          rw [this]
          simp
      · cases h
        omega)
    fuel (C0, lo) (Or.inl ⟨Nat.le_refl _, hlo, by simp, by simp [seg]⟩) (by simp only; omega)
  unfold amx_row_loop
  rw [hs']
  simp only [decide_eq_false_iff_not] at hex
  rcases hI with ⟨h1, h2, h3, h4⟩ | h
  · have hidx : s'.2 = hi := by omega
    rw [hidx] at h3 h4
    rw [padRow_of_dvd g _ (by rw [length_seg]; exact h3)]
    congr 1
    exact Prod.ext h4 hidx
  · rw [h]

theorem gcols_succ (g : Nat) (indptr indices : List Nat) (n : Nat) :
    gcols g indptr indices (n + 1)
      = gcols g indptr indices n
        ++ padRow g (seg indices (indptr.getD n 0) (indptr.getD (n + 1) 0 - indptr.getD n 0)) :=
  flatMap_range_succ _ _

theorem amx_group_rows (fuel g : Nat) (indptr indices : List Nat) (L : Nat) (hg1 : 1 ≤ g)
    (hgf : g ≤ fuel)
    (hmono : ∀ b, b + 1 < indptr.length → indptr.getD b 0 ≤ indptr.getD (b + 1) 0)
    (hfuel : ∀ b, b + 1 < indptr.length → indptr.getD (b + 1) 0 - indptr.getD b 0 ≤ fuel)
    (n : Nat) (hn : n + 1 ≤ indptr.length) (hL : n ≤ L) :
    forLoop
      (fun (st : List Nat × List Nat) b_row =>
        let group_rowptr := st.2.set b_row (st.1.length / g)
        match amx_row_loop fuel g (indptr.getD (b_row + 1) 0) indices
                (st.1, indptr.getD b_row 0) with
        | .error e => .error e
        | .ok s => .ok (s.1, group_rowptr))
      (List.range n) ([], List.replicate L 0)
    = .ok (gcols g indptr indices n,
        (List.range n).map (fun b => (gcols g indptr indices b).length / g)
          ++ List.replicate (L - n) 0) := by
  induction n with
  | zero => simp [forLoop, gcols]
  | succ n ih =>
    rw [List.range_succ, forLoop_append _ _ _ _ _ (ih (by omega) (by omega)), forLoop_single]
    simp only
    rw [amx_row_loop_eq fuel g _ indices _ _ hg1 hgf (hfuel n (by omega)) (hmono n (by omega))]
    simp only
    rw [gcols_succ]
    congr 2
    have hr : L - n = (L - (n + 1)) + 1 := by omega
    rw [hr, set_fill_at _ _ _ _ n (by simp)]
    simp

theorem amx_group_indices_eq (fuel g : Nat) (indptr indices : List Nat) (hg1 : 1 ≤ g)
    (hgf : g ≤ fuel) (hne : 1 ≤ indptr.length)
    (hmono : ∀ b, b + 1 < indptr.length → indptr.getD b 0 ≤ indptr.getD (b + 1) 0)
    (hfuel : ∀ b, b + 1 < indptr.length → indptr.getD (b + 1) 0 - indptr.getD b 0 ≤ fuel) :
    amx_group_indices fuel g indptr indices
      = .ok (gcols g indptr indices (indptr.length - 1),
          (List.range (indptr.length - 1)).map (fun b => (gcols g indptr indices b).length / g)
            ++ [0]) := by
  unfold amx_group_indices
  rw [amx_group_rows fuel g indptr indices indptr.length hg1 hgf hmono hfuel
    (indptr.length - 1) (by omega) (by omega)]
  have : indptr.length - (indptr.length - 1) = 1 := by omega
  rw [this]
  rfl

/-! ## Stage B of `to_bsr_amx` -/

theorem amx_count_loop_eq (fuel g : Nat) (L : List Nat) (B c : Nat) (hgf : g ≤ fuel)
    (hc1 : 1 ≤ c) (hcg : c ≤ g)
    (hdiff : ∀ t, 1 ≤ t → t < c → L.getD (B + t) 0 ≠ L.getD (B + t - 1) 0)
    (hstop : c < g → L.getD (B + c) 0 = L.getD (B + c - 1) 0) :
    amx_count_loop fuel g L (B + 1, 1) = .ok (B + c, c) := by
  obtain ⟨s', hs', ⟨t, ht1, ht2, rfl⟩, hex⟩ := whileLoop_rule
    (fun st : Nat × Nat => decide (st.2 < g) && decide (L.getD st.1 0 ≠ L.getD (st.1 - 1) 0))
    (fun st => .ok (st.1 + 1, st.2 + 1))
    (fun st => ∃ t, 1 ≤ t ∧ t ≤ c ∧ st = (B + t, t))
    (fun st => g - st.2)
    (by
      rintro s ⟨t, ht1, ht2, rfl⟩ hc
      simp only [Bool.and_eq_true, decide_eq_true_eq] at hc
      have htc : t < c := by
        rcases Nat.lt_or_ge t c with h | h
        · exact h
        · have : t = c := by omega
          subst this
          exact absurd (hstop hc.1) hc.2
      exact ⟨_, rfl, ⟨t + 1, by omega, by omega, rfl⟩, by simp only; omega⟩)
    fuel (B + 1, 1) ⟨1, by omega, hc1, rfl⟩ (by simp only; omega)
  unfold amx_count_loop
  rw [hs']
  simp only [Bool.and_eq_false_iff, decide_eq_false_iff_not, ne_eq, not_not] at hex
  have : t = c := by
    rcases Nat.lt_or_ge t c with h | h
    · rcases hex with h1 | h1
      · omega
      · exact absurd h1 (hdiff t ht1 h)
    · omega
  rw [this]

theorem length_groupPayload (g bs : Nat) (bsr_data : List Int) (nnz_idx c : Nat) (hc : c ≤ g) :
    (groupPayload g bs bsr_data nnz_idx c).length = g * bs := by
  unfold groupPayload
  rw [List.length_append, List.length_map, List.length_range, List.length_replicate,
    ← Nat.add_mul]
  congr 1
  omega

theorem amx_compact_group (g bs : Nat) (bsr_data : List Int) (nnz_idx c : Nat) (hc : c ≤ g)
    (pre : List Int) (r : Nat) (hr : g * bs ≤ r) :
    (List.range (c * bs)).foldl
      (fun new_data elem =>
        new_data.set (pre.length + elem) (bsr_data.getD (nnz_idx * bs + elem) 0))
      (pre ++ List.replicate r 0)
    = (pre ++ groupPayload g bs bsr_data nnz_idx c) ++ List.replicate (r - g * bs) 0 := by
  have h1 : c * bs ≤ g * bs := Nat.mul_le_mul_right _ hc
  have h2 : c * bs + (g - c) * bs = g * bs := by
    rw [← Nat.add_mul]; congr 1; omega
  rw [foldl_set_fill _ _ _ _ _ (fun t _ => rfl) (by omega)]
  unfold groupPayload
  have h3 : r - c * bs = (g - c) * bs + (r - g * bs) := by omega
  rw [h3, List.replicate_add]
  simp only [List.append_assoc]

theorem amx_compact_row_eq (fuel g bs : Nat) (colidxs : List Nat) (bsr_data : List Int)
    (c : Nat → Nat) (glo ng : Nat)
    (hcount : ∀ k, k < ng →
      amx_count_loop fuel g colidxs ((glo + k) * g + 1, 1) = .ok ((glo + k) * g + c k, c k))
    (hcg : ∀ k, k < ng → c k ≤ g) (pre : List Int) (r lo : Nat) (hr : ng * (g * bs) ≤ r) :
    forLoop
      (fun (st : List Int × Nat × Nat) group_idx =>
        match amx_count_loop fuel g colidxs (group_idx * g + 1, 1) with
        | .error e => .error e
        | .ok c =>
          let b_cnt := c.2
          let elem_num := b_cnt * bs
          let new_data := (List.range elem_num).foldl
            (fun new_data elem =>
              new_data.set (st.2.1 + elem) (bsr_data.getD (st.2.2 * bs + elem) 0))
            st.1
          let data_ptr := st.2.1 + elem_num
          let elem_num := (g - b_cnt) * bs
          .ok (new_data, data_ptr + elem_num, st.2.2 + g))
      (List.range' glo ng) (pre ++ List.replicate r 0, pre.length, lo)
    = .ok ((pre ++ (List.range ng).flatMap
              (fun k => groupPayload g bs bsr_data (lo + k * g) (c k)))
            ++ List.replicate (r - ng * (g * bs)) 0,
          pre.length + ng * (g * bs), lo + ng * g) := by
  induction ng with
  | zero => simp [forLoop]
  | succ n ih =>
    have hsucc : (n + 1) * (g * bs) = n * (g * bs) + g * bs := by ring
    rw [List.range'_concat, forLoop_append _ _ _ _ _
      (ih (fun k hk => hcount k (by omega)) (fun k hk => hcg k (by omega)) (by omega)),
      forLoop_single]
    simp only [Nat.one_mul]
    rw [hcount n (by omega)]
    simp only
    have hlen : pre.length + n * (g * bs)
        = (pre ++ (List.range n).flatMap
            (fun k => groupPayload g bs bsr_data (lo + k * g) (c k))).length := by
      rw [List.length_append, length_flatMap_const _ (g * bs) _
        (fun k hk => length_groupPayload g bs bsr_data _ _ (hcg k (by
          have := List.mem_range.1 hk; omega))), List.length_range]
    have hcn := hcg n (by omega)
    have h2 : c n * bs + (g - c n) * bs = g * bs := by
      rw [← Nat.add_mul]; congr 1; omega
    rw [hlen, amx_compact_group g bs bsr_data _ _ hcn _ _ (by omega), ← hlen,
      flatMap_range_succ, List.append_assoc pre]
    have e1 : r - n * (g * bs) - g * bs = r - (n + 1) * (g * bs) := by omega
    have e2 : pre.length + n * (g * bs) + c n * bs + (g - c n) * bs
        = pre.length + (n + 1) * (g * bs) := by omega
    have e3 : lo + n * g + g = lo + (n + 1) * g := by ring
    rw [e1, e2, e3]

theorem length_compacted (g bs : Nat) (indptr grp : List Nat) (bsr_data : List Int)
    (c : Nat → Nat → Nat) (n : Nat) (hg0 : grp.getD 0 0 = 0)
    (hgmono : ∀ b, b < n → grp.getD b 0 ≤ grp.getD (b + 1) 0)
    (hcg : ∀ b, b < n → ∀ k, k < grp.getD (b + 1) 0 - grp.getD b 0 → c b k ≤ g) :
    (compacted g bs indptr grp bsr_data c n).length = grp.getD n 0 * (g * bs) := by
  induction n with
  | zero => rw [hg0]; simp [compacted]
  | succ n ih =>
    unfold compacted at ih ⊢
    rw [flatMap_range_succ, List.length_append,
      ih (fun b hb => hgmono b (by omega)) (fun b hb => hcg b (by omega)),
      length_flatMap_const _ (g * bs) _ (fun k hk =>
        length_groupPayload g bs bsr_data _ _ (hcg n (by omega) k (List.mem_range.1 hk))),
      List.length_range, ← Nat.add_mul]
    congr 1
    have := hgmono n (by omega)
    omega

theorem amx_compact_rows (fuel g bs : Nat) (indptr grp colidxs : List Nat) (bsr_data : List Int)
    (c : Nat → Nat → Nat) (T nb : Nat) (hg0 : grp.getD 0 0 = 0)
    (hgmono : ∀ b, b < nb → grp.getD b 0 ≤ grp.getD (b + 1) 0)
    (hcount : ∀ b, b < nb → ∀ k, k < grp.getD (b + 1) 0 - grp.getD b 0 →
      amx_count_loop fuel g colidxs ((grp.getD b 0 + k) * g + 1, 1)
        = .ok ((grp.getD b 0 + k) * g + c b k, c b k))
    (hcg : ∀ b, b < nb → ∀ k, k < grp.getD (b + 1) 0 - grp.getD b 0 → c b k ≤ g)
    (hT : grp.getD nb 0 * (g * bs) ≤ T) (n : Nat) (hn : n ≤ nb) :
    forLoop
      (fun (st : List Int × Nat) b_row =>
        match amx_compact_row fuel g bs colidxs bsr_data
                (grp.getD b_row 0) (grp.getD (b_row + 1) 0)
                (st.1, st.2, indptr.getD b_row 0) with
        | .error e => .error e
        | .ok s => .ok (s.1, s.2.1))
      (List.range n) (List.replicate T 0, 0)
    = .ok (compacted g bs indptr grp bsr_data c n
            ++ List.replicate (T - (compacted g bs indptr grp bsr_data c n).length) 0,
           (compacted g bs indptr grp bsr_data c n).length) := by
  induction n with
  | zero => simp [forLoop, compacted]
  | succ n ih =>
    have hlen : ∀ m, m ≤ nb →
        (compacted g bs indptr grp bsr_data c m).length = grp.getD m 0 * (g * bs) :=
      fun m hm => length_compacted g bs indptr grp bsr_data c m hg0
        (fun b hb => hgmono b (by omega)) (fun b hb => hcg b (by omega))
    have hmn := hgmono n (by omega)
    have hle : grp.getD (n + 1) 0 * (g * bs) ≤ T := by
      have h1 := hlen nb (Nat.le_refl _)
      have h2 := hlen (n + 1) (by omega)
      have h3 : (compacted g bs indptr grp bsr_data c (n + 1)).length
          ≤ (compacted g bs indptr grp bsr_data c nb).length :=
        length_flatMap_range_mono _ _ _ (by omega)
      omega
    have hsplit : grp.getD (n + 1) 0 * (g * bs)
        = grp.getD n 0 * (g * bs) + (grp.getD (n + 1) 0 - grp.getD n 0) * (g * bs) := by
      rw [← Nat.add_mul]; congr 1; omega
    rw [List.range_succ, forLoop_append _ _ _ _ _ (ih (by omega)), forLoop_single]
    simp only
    unfold amx_compact_row
    rw [amx_compact_row_eq fuel g bs colidxs bsr_data (c n) (grp.getD n 0)
      (grp.getD (n + 1) 0 - grp.getD n 0) (hcount n (by omega)) (hcg n (by omega)) _ _ _
      (by rw [hlen n (by omega)]; omega)]
    simp only
    have hc : compacted g bs indptr grp bsr_data c (n + 1)
        = compacted g bs indptr grp bsr_data c n
          ++ (List.range (grp.getD (n + 1) 0 - grp.getD n 0)).flatMap
              (fun k => groupPayload g bs bsr_data (indptr.getD n 0 + k * g) (c n k)) :=
      flatMap_range_succ _ _
    rw [← hc, hlen n (by omega), hlen (n + 1) (by omega), Nat.sub_sub, ← hsplit]

/-! ## Stage C of `to_bsr_amx` -/

theorem foldl_seq_write {β : Type} (v : β → Int) (l : List β) :
    ∀ (pre : List Int) (r p : Nat), p = pre.length → l.length ≤ r →
      l.foldl (fun (st : List Int × Nat) x => (st.1.set st.2 (v x), st.2 + 1))
        (pre ++ List.replicate r 0, p)
      = ((pre ++ l.map v) ++ List.replicate (r - l.length) 0, p + l.length) := by
  induction l with
  | nil => intro pre r p _ _; simp
  | cons x xs ih =>
    intro pre r p hp h
    rw [List.length_cons] at h
    have hr : r = (r - 1) + 1 := by omega
    rw [List.foldl_cons]
    simp only
    rw [hr, set_fill_at _ _ _ _ p hp, ih (pre ++ [v x]) (r - 1) (p + 1) (by simp [hp]) (by omega)]
    refine Prod.ext ?_ ?_
    · simp only [List.map_cons, List.length_cons, List.append_assoc, List.singleton_append]
      congr 3
      omega
    · simp only [List.length_cons]
      omega

theorem foldl_seq_write_nested {β γ : Type} (v : γ → β → Int) (l : γ → List β) (L : List γ) :
    ∀ (pre : List Int) (r p : Nat), p = pre.length →
      (L.flatMap fun i => (l i).map (v i)).length ≤ r →
      L.foldl
        (fun (st : List Int × Nat) i =>
          (l i).foldl (fun (st : List Int × Nat) x => (st.1.set st.2 (v i x), st.2 + 1)) st)
        (pre ++ List.replicate r 0, p)
      = ((pre ++ L.flatMap fun i => (l i).map (v i))
            ++ List.replicate (r - (L.flatMap fun i => (l i).map (v i)).length) 0,
         p + (L.flatMap fun i => (l i).map (v i)).length) := by
  induction L with
  | nil => intro pre r p _ _; simp
  | cons i is ih =>
    intro pre r p hp h
    rw [List.flatMap_cons, List.length_append, List.length_map] at h
    rw [List.foldl_cons, foldl_seq_write (v i) (l i) pre r p hp (by omega),
      ih _ _ _ (by simp [hp]) (by omega)]
    refine Prod.ext ?_ ?_
    · simp only [List.flatMap_cons, List.length_append, List.length_map, List.append_assoc,
        Nat.sub_sub]
    · simp only [List.flatMap_cons, List.length_append, List.length_map]
      omega

theorem length_amxTile (g : Nat) (nd : List Int) (sc : Nat) : (amxTile g nd sc).length = 16 * g := by
  unfold amxTile
  rw [length_flatMap_const _ g _ (by intro x _; simp)]
  simp

theorem amx_reorder_ok (fuel g n : Nat) (nd d0 : List Int) (hg1 : 1 ≤ g) (hdiv : n % g = 0)
    (hfuel : n / g ≤ fuel) : ∃ c, amx_reorder fuel g n nd (d0, 0, 0) = .ok c := by
  have hn : n / g * g = n := Nat.div_mul_cancel (Nat.dvd_of_mod_eq_zero hdiv)
  obtain ⟨s', hs', _, _⟩ := whileLoop_rule
    (fun st : List Int × Nat × Nat => decide (st.2.2 < n))
    (fun st =>
      let r := (List.range 16).foldl
        (fun st' i =>
          (List.range' st.2.2 g).foldl
            (fun (st'' : List Int × Nat) j =>
              (st''.1.set st''.2 (nd.getD (j * 16 + i) 0), st''.2 + 1))
            st')
        (st.1, st.2.1)
      .ok (r.1, r.2, st.2.2 + g))
    (fun st => ∃ G, G ≤ n / g ∧ st.2.2 = G * g)
    (fun st => n / g - st.2.2 / g)
    (by
      rintro ⟨d, p, sc⟩ ⟨G, hG, hsc⟩ hc
      simp only [decide_eq_true_eq] at hc hsc
      subst hsc
      have hlt : G < n / g := by
        rw [← hn] at hc
        exact Nat.lt_of_mul_lt_mul_right hc
      refine ⟨_, rfl, ⟨G + 1, hlt, by simp only; ring⟩, ?_⟩
      simp only
      have e1 : (G * g + g) / g = G + 1 := by
        rw [show G * g + g = (G + 1) * g by ring, Nat.mul_div_cancel _ (by omega)]
      rw [e1, Nat.mul_div_cancel _ (by omega)]
      omega)
    fuel (d0, 0, 0) ⟨0, Nat.zero_le _, by simp⟩ (by simp only [Nat.zero_div]; omega)
  exact ⟨s', hs'⟩

theorem amx_reorder_eq (fuel g n : Nat) (nd : List Int) (T : Nat) (hg1 : 1 ≤ g)
    (hdiv : n % g = 0) (hfuel : n / g ≤ fuel) (hT : n * 16 ≤ T) :
    amx_reorder fuel g n nd (List.replicate T 0, 0, 0)
      = .ok ((List.range (n / g)).flatMap (fun G => amxTile g nd (G * g))
              ++ List.replicate (T - n * 16) 0, n * 16, n) := by
  have hn : n / g * g = n := Nat.div_mul_cancel (Nat.dvd_of_mod_eq_zero hdiv)
  have hpre : ∀ G, ((List.range G).flatMap fun G => amxTile g nd (G * g)).length
      = G * (16 * g) := by
    intro G
    rw [length_flatMap_const _ (16 * g) _ (fun x _ => length_amxTile g nd _), List.length_range]
  obtain ⟨s', hs', ⟨G, hG, rfl⟩, hex⟩ := whileLoop_rule
    (fun st : List Int × Nat × Nat => decide (st.2.2 < n))
    (fun st =>
      let r := (List.range 16).foldl
        (fun st' i =>
          (List.range' st.2.2 g).foldl
            (fun (st'' : List Int × Nat) j =>
              (st''.1.set st''.2 (nd.getD (j * 16 + i) 0), st''.2 + 1))
            st')
        (st.1, st.2.1)
      .ok (r.1, r.2, st.2.2 + g))
    (fun st => ∃ G, G ≤ n / g ∧
      st = ((List.range G).flatMap (fun G => amxTile g nd (G * g))
              ++ List.replicate (T - G * (16 * g)) 0, G * (16 * g), G * g))
    (fun st => n / g - st.2.2 / g)
    (by
      rintro s ⟨G, hG, rfl⟩ hc
      simp only [decide_eq_true_eq] at hc
      have hlt : G < n / g := by
        rw [← hn] at hc
        exact Nat.lt_of_mul_lt_mul_right hc
      have hle : (G + 1) * (16 * g) ≤ T := by
        have h1 : (G + 1) * (16 * g) ≤ n / g * (16 * g) := Nat.mul_le_mul_right _ hlt
        have h2 : n / g * (16 * g) = n * 16 := by
          rw [show n / g * (16 * g) = (n / g * g) * 16 by ring, hn]
        omega
      have hexp : (G + 1) * (16 * g) = G * (16 * g) + 16 * g := by ring
      have hw := foldl_seq_write_nested (fun i j => nd.getD (j * 16 + i) 0)
        (fun _ => List.range' (G * g) g) (List.range 16)
        ((List.range G).flatMap fun G => amxTile g nd (G * g)) (T - G * (16 * g))
        (G * (16 * g)) (hpre G).symm
        (by
          have := length_amxTile g nd (G * g)
          unfold amxTile at this
          rw [this]; omega)
      have htile : ((List.range 16).flatMap fun i =>
          (List.range' (G * g) g).map fun j => nd.getD (j * 16 + i) 0) = amxTile g nd (G * g) :=
        rfl
      rw [htile, length_amxTile] at hw
      refine ⟨_, rfl, ⟨G + 1, hlt, ?_⟩, ?_⟩
      · simp only
        rw [hw, flatMap_range_succ, hexp, Nat.sub_sub]
        congr 2
        ring
      · simp only
        have e1 : (G * g + g) / g = G + 1 := by
          rw [show G * g + g = (G + 1) * g by ring, Nat.mul_div_cancel _ (by omega)]
        rw [e1, Nat.mul_div_cancel _ (by omega)]
        omega)
    fuel (List.replicate T 0, 0, 0) ⟨0, Nat.zero_le _, by simp⟩
    (by simp only [Nat.zero_div]; omega)
  unfold amx_reorder
  rw [hs']
  simp only [decide_eq_false_iff_not] at hex
  have hGn : G * g = n := by
    have : G * g ≤ n / g * g := Nat.mul_le_mul_right _ hG
    omega
  have hGq : G = n / g := by
    rw [← hGn, Nat.mul_div_cancel _ (by omega)]
  have e16 : G * (16 * g) = n * 16 := by
    rw [show G * (16 * g) = (G * g) * 16 by ring, hGn]
  rw [e16, hGn, hGq]

/-! ## Padded rows -/

theorem length_padRow (g : Nat) (sl : List Nat) :
    (padRow g sl).length = sl.length + (g - sl.length % g) % g := by
  simp [padRow]

theorem length_padRow_mod (g : Nat) (sl : List Nat) (hg1 : 1 ≤ g) :
    (padRow g sl).length % g = 0 := by
  rw [length_padRow]
  have hlt : sl.length % g < g := Nat.mod_lt _ (by omega)
  have hdm : g * (sl.length / g) + sl.length % g = sl.length := Nat.div_add_mod _ _
  rcases Nat.eq_zero_or_pos (sl.length % g) with h | h
  · rw [h, Nat.sub_zero, Nat.mod_self, Nat.add_zero]
    exact h
  · rw [Nat.mod_eq_of_lt (show g - sl.length % g < g by omega)]
    have : sl.length + (g - sl.length % g) = g * (sl.length / g + 1) := by
      rw [Nat.mul_add, Nat.mul_one]; omega
    rw [this, Nat.mul_mod_right]

theorem length_padRow_ge (g : Nat) (sl : List Nat) : sl.length ≤ (padRow g sl).length := by
  rw [length_padRow]; omega

theorem length_padRow_lt (g : Nat) (sl : List Nat) (hg1 : 1 ≤ g) :
    (padRow g sl).length < sl.length + g := by
  rw [length_padRow]
  have : (g - sl.length % g) % g < g := Nat.mod_lt _ (by omega)
  omega

theorem length_padRow_nil (g : Nat) : (padRow g []).length = 0 := by
  simp [padRow]

theorem div_mul_length_padRow (g : Nat) (sl : List Nat) (hg1 : 1 ≤ g) :
    (padRow g sl).length / g * g = (padRow g sl).length :=
  Nat.div_mul_cancel (Nat.dvd_of_mod_eq_zero (length_padRow_mod g sl hg1))

/-- A group index of a padded row starts at a genuine entry and lies inside the row. -/
theorem group_in_padRow (g : Nat) (sl : List Nat) (hg1 : 1 ≤ g) (k : Nat)
    (hk : k < (padRow g sl).length / g) :
    k * g < sl.length ∧ k * g + g ≤ (padRow g sl).length := by
  have h1 : (k + 1) * g ≤ (padRow g sl).length / g * g := Nat.mul_le_mul_right _ hk
  rw [div_mul_length_padRow g sl hg1] at h1
  have h2 := length_padRow_lt g sl hg1
  have h3 : (k + 1) * g = k * g + g := by ring
  omega

theorem length_padRow_div_le (g : Nat) (sl : List Nat) (hg1 : 1 ≤ g) :
    (padRow g sl).length / g ≤ sl.length := by
  by_contra hcon
  have hk : sl.length < (padRow g sl).length / g := by omega
  have h := (group_in_padRow g sl hg1 sl.length hk).1
  have : sl.length * 1 ≤ sl.length * g := Nat.mul_le_mul_left _ hg1
  omega

theorem getD_padRow_lt (g : Nat) (sl : List Nat) (u : Nat) (hu : u < sl.length) :
    (padRow g sl).getD u 0 = sl.getD u 0 := by
  unfold padRow
  exact getD_append_left' _ _ _ _ hu

theorem getLastD_eq_getD (sl : List Nat) (h : 0 < sl.length) :
    sl.getLastD 0 = sl.getD (sl.length - 1) 0 := by
  induction sl using List.reverseRecOn with
  | nil => simp at h
  | append_singleton xs x _ =>
    rw [List.getLastD_concat, List.length_append, List.length_singleton, Nat.add_sub_cancel]
    have := getD_append_right' xs [x] 0 0
    rw [Nat.add_zero] at this
    rw [this]
    rfl

theorem getD_padRow_ge (g : Nat) (sl : List Nat) (u : Nat) (h0 : 0 < sl.length)
    (hu1 : sl.length ≤ u) (hu2 : u < (padRow g sl).length) :
    (padRow g sl).getD u 0 = sl.getD (sl.length - 1) 0 := by
  rw [length_padRow] at hu2
  unfold padRow
  have : u = sl.length + (u - sl.length) := by omega
  rw [this, getD_append_right', List.getD_eq_getElem?_getD, List.getElem?_replicate,
    if_pos (by omega), getLastD_eq_getD sl h0]
  rfl

theorem pairwise_getD_ne (sl : List Nat) (h : sl.Pairwise (· < ·)) (u : Nat) (hu1 : 1 ≤ u)
    (hu2 : u < sl.length) : sl.getD u 0 ≠ sl.getD (u - 1) 0 := by
  have hu3 : u - 1 < sl.length := by omega
  have hlt : sl[u - 1] < sl[u] :=
    List.pairwise_iff_getElem.1 h (u - 1) u hu3 hu2 (by omega)
  rw [List.getD_eq_getElem _ _ hu2, List.getD_eq_getElem _ _ hu3]
  omega

/-! ## Stage A on the output of `tobsr` -/

theorem flatMap_range_congr {α : Type} (f h : Nat → List α) (n : Nat)
    (hfh : ∀ b, b < n → f b = h b) : (List.range n).flatMap f = (List.range n).flatMap h := by
  induction n with
  | zero => rfl
  | succ n ih =>
    rw [flatMap_range_succ, flatMap_range_succ, ih (fun b hb => hfh b (by omega)),
      hfh n (by omega)]

theorem tobsr_seg (rows cols br bc : Nat) (M : List Int) (b : Nat) (hb : b < rows / br) :
    seg (tobsr rows cols br bc M).indices ((tobsr rows cols br bc M).indptr.getD b 0)
        ((tobsr rows cols br bc M).indptr.getD (b + 1) 0
          - (tobsr rows cols br bc M).indptr.getD b 0)
      = nzcols M cols br bc b := by
  have hsl := tobsr_slice rows cols br bc M b hb
  unfold slice at hsl
  have hlo := tobsr_indptr_getD rows cols br bc M b (by omega)
  have hhi := tobsr_indptr_getD rows cols br bc M (b + 1) (by omega)
  have hmono := length_colsUpTo_mono M cols br bc (b + 1) (rows / br) (by omega)
  have hsucc := colsUpTo_succ M cols br bc b
  have hlen1 : (colsUpTo M cols br bc (b + 1)).length
      = (colsUpTo M cols br bc b).length + (nzcols M cols br bc b).length := by
    rw [hsucc, List.length_append]
  unfold seg
  rw [map_getD_range' _ _ _ _ (by rw [tobsr_indices, hlo, hhi]; omega), hsl]

theorem tobsr_gcols (g rows cols br bc : Nat) (M : List Int) (n : Nat) (hn : n ≤ rows / br) :
    gcols g (tobsr rows cols br bc M).indptr (tobsr rows cols br bc M).indices n
      = gcolsUpTo g M cols br bc n := by
  unfold gcols gcolsUpTo
  exact flatMap_range_congr _ _ n (fun b hb => by
    rw [tobsr_seg rows cols br bc M b (by omega)])

theorem gcolsUpTo_succ (g : Nat) (M : List Int) (cols br bc n : Nat) :
    gcolsUpTo g M cols br bc (n + 1)
      = gcolsUpTo g M cols br bc n ++ padRow g (nzcols M cols br bc n) :=
  flatMap_range_succ _ _

theorem length_gcolsUpTo_mod (g : Nat) (M : List Int) (cols br bc n : Nat) (hg1 : 1 ≤ g) :
    (gcolsUpTo g M cols br bc n).length % g = 0 := by
  induction n with
  | zero => simp [gcolsUpTo]
  | succ n ih =>
    rw [gcolsUpTo_succ, List.length_append, Nat.add_mod, ih, length_padRow_mod g _ hg1]
    simp

theorem div_mul_length_gcolsUpTo (g : Nat) (M : List Int) (cols br bc n : Nat) (hg1 : 1 ≤ g) :
    (gcolsUpTo g M cols br bc n).length / g * g = (gcolsUpTo g M cols br bc n).length :=
  Nat.div_mul_cancel (Nat.dvd_of_mod_eq_zero (length_gcolsUpTo_mod g M cols br bc n hg1))

theorem groups_succ (g : Nat) (M : List Int) (cols br bc n : Nat) (hg1 : 1 ≤ g) :
    (gcolsUpTo g M cols br bc (n + 1)).length / g
      = (gcolsUpTo g M cols br bc n).length / g
        + (padRow g (nzcols M cols br bc n)).length / g := by
  rw [gcolsUpTo_succ, List.length_append]
  have h1 := div_mul_length_gcolsUpTo g M cols br bc n hg1
  have h2 := div_mul_length_padRow g (nzcols M cols br bc n) hg1
  conv_lhs => rw [← h1, ← h2, ← Nat.add_mul]
  exact Nat.mul_div_cancel _ (by omega)

theorem length_nzcols_le (M : List Int) (cols br bc b : Nat) :
    (nzcols M cols br bc b).length ≤ cols := by
  unfold nzcols
  have h1 := List.length_filter_le
    (fun c => !(is_zero M cols br bc (b * br * cols + c * bc))) (List.range (cols / bc))
  rw [List.length_range] at h1
  exact Nat.le_trans h1 (Nat.div_le_self _ _)

theorem groups_le (g : Nat) (M : List Int) (cols br bc n : Nat) (hg1 : 1 ≤ g) :
    (gcolsUpTo g M cols br bc n).length / g ≤ n * cols := by
  induction n with
  | zero => simp [gcolsUpTo]
  | succ n ih =>
    rw [groups_succ g M cols br bc n hg1]
    have h1 := length_padRow_div_le g (nzcols M cols br bc n) hg1
    have h2 := length_nzcols_le M cols br bc n
    have h3 : (n + 1) * cols = n * cols + cols := by ring
    omega

theorem groupPtr_getD (g : Nat) (M : List Int) (cols br bc n b : Nat) (hb : b ≤ n) :
    (groupPtr g M cols br bc n).getD b 0 = (gcolsUpTo g M cols br bc b).length / g := by
  unfold groupPtr
  rw [List.getD_eq_getElem?_getD, List.getElem?_map, List.getElem?_range (by omega)]
  rfl

theorem groupPtr_diff (g : Nat) (M : List Int) (cols br bc n b : Nat) (hb : b < n)
    (hg1 : 1 ≤ g) :
    (groupPtr g M cols br bc n).getD (b + 1) 0 - (groupPtr g M cols br bc n).getD b 0
      = (padRow g (nzcols M cols br bc b)).length / g := by
  rw [groupPtr_getD _ _ _ _ _ _ _ (by omega), groupPtr_getD _ _ _ _ _ _ _ (by omega),
    groups_succ g M cols br bc b hg1, Nat.add_sub_cancel_left]

theorem getD_gcolsUpTo (g : Nat) (M : List Int) (cols br bc n b u : Nat) (hb : b < n)
    (hu : u < (padRow g (nzcols M cols br bc b)).length) :
    (gcolsUpTo g M cols br bc n).getD ((gcolsUpTo g M cols br bc b).length + u) 0
      = (padRow g (nzcols M cols br bc b)).getD u 0 := by
  obtain ⟨rest, hr⟩ := flatMap_range_split
    (fun b => padRow g (nzcols M cols br bc b)) b n hb
  unfold gcolsUpTo
  rw [hr, List.append_assoc, getD_append_right', getD_append_left' _ _ _ _ hu]

theorem realCount_pos (g : Nat) (M : List Int) (cols br bc b k : Nat) (hg1 : 1 ≤ g)
    (hk : k < (padRow g (nzcols M cols br bc b)).length / g) :
    1 ≤ realCount g M cols br bc b k ∧ realCount g M cols br bc b k ≤ g
      ∧ k * g + realCount g M cols br bc b k ≤ (nzcols M cols br bc b).length := by
  have h := group_in_padRow g (nzcols M cols br bc b) hg1 k hk
  unfold realCount
  omega

theorem tobsr_count (fuel g rows cols br bc : Nat) (M : List Int) (hg1 : 1 ≤ g) (hgf : g ≤ fuel)
    (b : Nat) (hb : b < rows / br) (k : Nat)
    (hk : k < (padRow g (nzcols M cols br bc b)).length / g) :
    amx_count_loop fuel g (gcolsUpTo g M cols br bc (rows / br))
        (((gcolsUpTo g M cols br bc b).length / g + k) * g + 1, 1)
      = .ok (((gcolsUpTo g M cols br bc b).length / g + k) * g + realCount g M cols br bc b k,
          realCount g M cols br bc b k) := by
  obtain ⟨hc1, hc2, hc3⟩ := realCount_pos g M cols br bc b k hg1 hk
  obtain ⟨hg_lt, hg_le⟩ := group_in_padRow g (nzcols M cols br bc b) hg1 k hk
  have hB : ((gcolsUpTo g M cols br bc b).length / g + k) * g
      = (gcolsUpTo g M cols br bc b).length + k * g := by
    rw [Nat.add_mul, div_mul_length_gcolsUpTo g M cols br bc b hg1]
  have hget : ∀ u, u < (padRow g (nzcols M cols br bc b)).length →
      (gcolsUpTo g M cols br bc (rows / br)).getD ((gcolsUpTo g M cols br bc b).length + u) 0
        = (padRow g (nzcols M cols br bc b)).getD u 0 :=
    fun u hu => getD_gcolsUpTo g M cols br bc (rows / br) b u hb hu
  have hpge := length_padRow_ge g (nzcols M cols br bc b)
  refine amx_count_loop_eq fuel g _ _ _ hgf hc1 hc2 ?_ ?_
  · intro t ht1 ht2
    have e1 : ((gcolsUpTo g M cols br bc b).length / g + k) * g + t
        = (gcolsUpTo g M cols br bc b).length + (k * g + t) := by rw [hB]; omega
    have e2 : ((gcolsUpTo g M cols br bc b).length / g + k) * g + t - 1
        = (gcolsUpTo g M cols br bc b).length + (k * g + t - 1) := by rw [hB]; omega
    rw [e2, e1, hget _ (by omega), hget _ (by omega), getD_padRow_lt _ _ _ (by omega),
      getD_padRow_lt _ _ _ (by omega)]
    exact pairwise_getD_ne _ (nzcols_pairwise M cols br bc b) (k * g + t) (by omega) (by omega)
  · intro hlt
    have hceq : k * g + realCount g M cols br bc b k = (nzcols M cols br bc b).length := by
      unfold realCount at hlt ⊢
      omega
    have e1 : ((gcolsUpTo g M cols br bc b).length / g + k) * g + realCount g M cols br bc b k
        = (gcolsUpTo g M cols br bc b).length + (nzcols M cols br bc b).length := by
      rw [hB]; omega
    have e2 : ((gcolsUpTo g M cols br bc b).length / g + k) * g + realCount g M cols br bc b k - 1
        = (gcolsUpTo g M cols br bc b).length + ((nzcols M cols br bc b).length - 1) := by
      rw [hB]; omega
    rw [e2, e1, hget _ (by omega), hget _ (by omega),
      getD_padRow_ge g _ _ (by omega) (Nat.le_refl _) (by omega),
      getD_padRow_lt _ _ _ (by omega)]

/-! ## Closed form of `to_bsr_amx` -/

theorem tobsr_indptr_length (rows cols br bc : Nat) (M : List Int) :
    (tobsr rows cols br bc M).indptr.length = rows / br + 1 := by
  rw [tobsr_indptr]; simp

theorem tobsr_group_indices (fuel g rows cols br bc : Nat) (M : List Int) (hg1 : 1 ≤ g)
    (hgf : g ≤ fuel) (hcf : cols ≤ fuel) :
    amx_group_indices fuel g (tobsr rows cols br bc M).indptr (tobsr rows cols br bc M).indices
      = .ok (gcolsUpTo g M cols br bc (rows / br),
          (List.range (rows / br)).map (fun b => (gcolsUpTo g M cols br bc b).length / g)
            ++ [0]) := by
  have hlen := tobsr_indptr_length rows cols br bc M
  have hdiff : ∀ b, b + 1 < (tobsr rows cols br bc M).indptr.length →
      (tobsr rows cols br bc M).indptr.getD (b + 1) 0
        = (tobsr rows cols br bc M).indptr.getD b 0 + (nzcols M cols br bc b).length := by
    intro b hb
    rw [hlen] at hb
    have hb1 : b + 1 ≤ rows / br := Nat.le_of_lt_succ hb
    rw [tobsr_indptr_getD rows cols br bc M (b + 1) hb1,
      tobsr_indptr_getD rows cols br bc M b (Nat.le_of_succ_le hb1),
      colsUpTo_succ, List.length_append]
  rw [amx_group_indices_eq fuel g _ _ hg1 hgf (by rw [hlen]; exact Nat.le_add_left _ _)
    (fun b hb => by rw [hdiff b hb]; exact Nat.le_add_right _ _)
    (fun b hb => by
      rw [hdiff b hb, Nat.add_sub_cancel_left]
      exact Nat.le_trans (length_nzcols_le M cols br bc b) hcf)]
  have e : (tobsr rows cols br bc M).indptr.length - 1 = rows / br := by
    rw [hlen, Nat.add_sub_cancel]
  rw [e, tobsr_gcols g rows cols br bc M _ (Nat.le_refl _)]
  congr 3
  apply List.map_congr_left
  intro b hb
  rw [tobsr_gcols g rows cols br bc M b (Nat.le_of_lt (List.mem_range.1 hb))]

theorem groupPtr_set (g : Nat) (M : List Int) (cols br bc n : Nat) :
    ((List.range n).map (fun b => (gcolsUpTo g M cols br bc b).length / g) ++ [0]).set n
        ((gcolsUpTo g M cols br bc n).length / g)
      = groupPtr g M cols br bc n := by
  have := set_fill_at ((List.range n).map (fun b => (gcolsUpTo g M cols br bc b).length / g))
    0 0 ((gcolsUpTo g M cols br bc n).length / g) n (by simp)
  simp only [List.replicate_succ, List.replicate_zero, List.append_nil] at this
  rw [this]
  unfold groupPtr
  rw [List.range_succ, List.map_append]
  rfl

theorem tobsr_compact (fuel g rows cols br bc : Nat) (M : List Int) (hg1 : 1 ≤ g)
    (hgf : g ≤ fuel) :
    amx_compact fuel g (br * bc) (tobsr rows cols br bc M).indptr
        (groupPtr g M cols br bc (rows / br)) (gcolsUpTo g M cols br bc (rows / br))
        (tobsr rows cols br bc M).data
        (List.replicate ((gcolsUpTo g M cols br bc (rows / br)).length * (br * bc)) 0, 0)
      = .ok (compacted g (br * bc) (tobsr rows cols br bc M).indptr
              (groupPtr g M cols br bc (rows / br)) (tobsr rows cols br bc M).data
              (realCount g M cols br bc) (rows / br),
            (gcolsUpTo g M cols br bc (rows / br)).length * (br * bc)) := by
  have hg0 : (groupPtr g M cols br bc (rows / br)).getD 0 0 = 0 := by
    rw [groupPtr_getD _ _ _ _ _ _ _ (Nat.zero_le _)]
    simp [gcolsUpTo]
  have hgmono : ∀ b, b < rows / br → (groupPtr g M cols br bc (rows / br)).getD b 0
      ≤ (groupPtr g M cols br bc (rows / br)).getD (b + 1) 0 := by
    intro b hb
    rw [groupPtr_getD _ _ _ _ _ _ _ (by omega), groupPtr_getD _ _ _ _ _ _ _ (by omega),
      groups_succ g M cols br bc b hg1]
    exact Nat.le_add_right _ _
  have hcount : ∀ b, b < rows / br → ∀ k,
      k < (groupPtr g M cols br bc (rows / br)).getD (b + 1) 0
          - (groupPtr g M cols br bc (rows / br)).getD b 0 →
      amx_count_loop fuel g (gcolsUpTo g M cols br bc (rows / br))
          (((groupPtr g M cols br bc (rows / br)).getD b 0 + k) * g + 1, 1)
        = .ok (((groupPtr g M cols br bc (rows / br)).getD b 0 + k) * g
                + realCount g M cols br bc b k, realCount g M cols br bc b k) := by
    intro b hb k hk
    rw [groupPtr_diff g M cols br bc _ b hb hg1] at hk
    rw [groupPtr_getD _ _ _ _ _ _ _ (by omega)]
    exact tobsr_count fuel g rows cols br bc M hg1 hgf b hb k hk
  have hcg : ∀ b, b < rows / br → ∀ k,
      k < (groupPtr g M cols br bc (rows / br)).getD (b + 1) 0
          - (groupPtr g M cols br bc (rows / br)).getD b 0 →
      realCount g M cols br bc b k ≤ g := by
    intro b hb k hk
    rw [groupPtr_diff g M cols br bc _ b hb hg1] at hk
    exact (realCount_pos g M cols br bc b k hg1 hk).2.1
  have hlast : (groupPtr g M cols br bc (rows / br)).getD (rows / br) 0 * (g * (br * bc))
      = (gcolsUpTo g M cols br bc (rows / br)).length * (br * bc) := by
    rw [groupPtr_getD _ _ _ _ _ _ _ (Nat.le_refl _), ← Nat.mul_assoc,
      div_mul_length_gcolsUpTo g M cols br bc _ hg1]
  have h := amx_compact_rows fuel g (br * bc) (tobsr rows cols br bc M).indptr
    (groupPtr g M cols br bc (rows / br)) (gcolsUpTo g M cols br bc (rows / br))
    (tobsr rows cols br bc M).data (realCount g M cols br bc)
    ((gcolsUpTo g M cols br bc (rows / br)).length * (br * bc)) (rows / br) hg0 hgmono hcount hcg
    (by rw [hlast]) (rows / br) (Nat.le_refl _)
  have hlen := length_compacted g (br * bc) (tobsr rows cols br bc M).indptr
    (groupPtr g M cols br bc (rows / br)) (tobsr rows cols br bc M).data
    (realCount g M cols br bc) (rows / br) hg0 hgmono hcg
  rw [hlast] at hlen
  rw [hlen, Nat.sub_self] at h
  simp only [List.replicate_zero, List.append_nil] at h
  unfold amx_compact
  have e : (tobsr rows cols br bc M).indptr.length - 1 = rows / br := by
    rw [tobsr_indptr_length, Nat.add_sub_cancel]
  rw [e]
  exact h

theorem to_bsr_amx_eq (fuel sizeof_T g rows cols br bc : Nat) (M : List Int) (hg2 : 2 ≤ g)
    (hacc : g = 64 / sizeof_T) (hfuel : g + cols + rows * cols ≤ fuel) :
    ∃ c, amx_reorder fuel g (gcolsUpTo g M cols br bc (rows / br)).length
          (compacted g (br * bc) (tobsr rows cols br bc M).indptr
            (groupPtr g M cols br bc (rows / br)) (tobsr rows cols br bc M).data
            (realCount g M cols br bc) (rows / br))
          (List.replicate ((gcolsUpTo g M cols br bc (rows / br)).length * (br * bc)) 0, 0, 0)
        = .ok c
      ∧ to_bsr_amx fuel sizeof_T g rows cols br bc M
        = .ok { block := (br, bc), shape := (rows, cols),
                indptr := groupPtr g M cols br bc (rows / br),
                indices := gcolsUpTo g M cols br bc (rows / br), data := c.1, group := g } := by
  have hg1 : 1 ≤ g := by omega
  have hgroups : (gcolsUpTo g M cols br bc (rows / br)).length / g ≤ fuel := by
    have h1 := groups_le g M cols br bc (rows / br) hg1
    have h2 : rows / br * cols ≤ rows * cols := Nat.mul_le_mul_right _ (Nat.div_le_self _ _)
    have h3 : rows * cols ≤ fuel := by omega
    exact Nat.le_trans h1 (Nat.le_trans h2 h3)
  obtain ⟨c, hc⟩ := amx_reorder_ok fuel g (gcolsUpTo g M cols br bc (rows / br)).length
    (compacted g (br * bc) (tobsr rows cols br bc M).indptr
      (groupPtr g M cols br bc (rows / br)) (tobsr rows cols br bc M).data
      (realCount g M cols br bc) (rows / br))
    (List.replicate ((gcolsUpTo g M cols br bc (rows / br)).length * (br * bc)) 0) hg1
    (length_gcolsUpTo_mod g M cols br bc _ hg1) hgroups
  refine ⟨c, hc, ?_⟩
  unfold to_bsr_amx
  simp only
  rw [if_neg (by omega), if_neg (by simp [hacc]),
    tobsr_group_indices fuel g rows cols br bc M hg1 (by omega) (by omega)]
  simp only
  have e : (tobsr rows cols br bc M).indptr.length - 1 = rows / br := by
    rw [tobsr_indptr_length, Nat.add_sub_cancel]
  rw [e, groupPtr_set, tobsr_compact fuel g rows cols br bc M hg1 (by omega)]
  simp only
  rw [hc]

/-! ## Claims on Stage A -/

theorem gcolsUpTo_slice (g : Nat) (M : List Int) (cols br bc n b : Nat) (hb : b < n)
    (hg1 : 1 ≤ g) :
    slice (gcolsUpTo g M cols br bc n) ((groupPtr g M cols br bc n).getD b 0 * g)
        ((groupPtr g M cols br bc n).getD (b + 1) 0 * g)
      = padRow g (nzcols M cols br bc b) := by
  rw [groupPtr_getD _ _ _ _ _ _ _ (by omega), groupPtr_getD _ _ _ _ _ _ _ (by omega),
    div_mul_length_gcolsUpTo g M cols br bc _ hg1, div_mul_length_gcolsUpTo g M cols br bc _ hg1,
    gcolsUpTo_succ, List.length_append]
  obtain ⟨rest, hr⟩ := flatMap_range_split
    (fun b => padRow g (nzcols M cols br bc b)) b n hb
  unfold gcolsUpTo
  rw [hr]
  exact slice_append_mid _ _ _

theorem padRow_padding (g : Nat) (sl : List Nat) (t : Nat) (h1 : sl.length ≤ t)
    (h2 : t < (padRow g sl).length) : (padRow g sl).getD t 0 = (padRow g sl).getD (t - 1) 0 := by
  have h0 : 0 < sl.length := by
    rcases Nat.eq_zero_or_pos sl.length with h | h
    · have : sl = [] := List.length_eq_zero.1 h
      subst this
      rw [length_padRow_nil] at h2
      omega
    · exact h
  rw [getD_padRow_ge g sl t h0 h1 h2]
  rcases Nat.lt_or_ge (t - 1) sl.length with h | h
  · have : t - 1 = sl.length - 1 := by omega
    rw [getD_padRow_lt g sl _ h, this]
  · rw [getD_padRow_ge g sl _ h0 h (by omega)]

/-- C7: for every block shape of at least 16 elements (Stage C moves 16 elements per
block, so the code overruns `data` and `new_data` on smaller blocks), every group size
`g ≥ 2` accepted by `to_bsr_amx` (`g = 64 / sizeof(T)`) and
enough fuel, `to_bsr_amx` returns a structure in which, for every block-row `b`, the slice
`colidxs[group_rowptr[b]*g .. group_rowptr[b+1]*g)` is the ungrouped `tobsr` slice of that
block-row followed by copies of its last entry up to the next multiple of `g`; the slice
length is a multiple of `g`, an empty slice stays empty, the genuine entries are strictly
increasing and every padding entry equals its predecessor. Stage A turns the row slice
`[2,5,9]` with `g = 4` into `[2,5,9,9]`. -/
theorem to_bsr_amx_group_padding (fuel sizeof_T g rows cols blk_row blk_col : Nat)
    (M : List Int) (_hblk : 16 ≤ blk_row * blk_col) (hg2 : 2 ≤ g) (hacc : g = 64 / sizeof_T)
    (hfuel : g + cols + rows * cols ≤ fuel) :
    (∃ r, to_bsr_amx fuel sizeof_T g rows cols blk_row blk_col M = .ok r
      ∧ ∀ b sl gs, b < rows / blk_row →
        sl = slice (tobsr rows cols blk_row blk_col M).indices
              ((tobsr rows cols blk_row blk_col M).indptr.getD b 0)
              ((tobsr rows cols blk_row blk_col M).indptr.getD (b + 1) 0) →
        gs = slice r.indices (r.indptr.getD b 0 * g) (r.indptr.getD (b + 1) 0 * g) →
        gs = sl ++ List.replicate ((g - sl.length % g) % g) (sl.getLastD 0)
        ∧ gs.length % g = 0
        ∧ (sl = [] → gs = [])
        ∧ sl.Pairwise (· < ·)
        ∧ ∀ t, sl.length ≤ t → t < gs.length → gs.getD t 0 = gs.getD (t - 1) 0)
    ∧ amx_group_indices 4 4 [0, 3] [2, 5, 9] = .ok ([2, 5, 9, 9], [0, 0]) := by
  refine ⟨?_, rfl⟩
  obtain ⟨c, _, hr⟩ := to_bsr_amx_eq fuel sizeof_T g rows cols blk_row blk_col M hg2 hacc hfuel
  refine ⟨_, hr, ?_⟩
  intro b sl gs hb hsl hgs
  simp only at hgs
  rw [gcolsUpTo_slice g M cols blk_row blk_col _ b hb (by omega)] at hgs
  rw [tobsr_slice rows cols blk_row blk_col M b hb] at hsl
  subst hsl hgs
  refine ⟨rfl, length_padRow_mod g _ (by omega), ?_, nzcols_pairwise M cols blk_row blk_col b,
    fun t h1 h2 => padRow_padding g _ t h1 h2⟩
  intro h
  rw [h]
  simp [padRow]

theorem to_bsr_amx_group_padding_witness :
    (∃ r, to_bsr_amx 64 32 2 16 2 16 1 example_16x2 = .ok r
      ∧ (slice r.indices (r.indptr.getD 0 0 * 2) (r.indptr.getD (0 + 1) 0 * 2)
          = slice (tobsr 16 2 16 1 example_16x2).indices
                ((tobsr 16 2 16 1 example_16x2).indptr.getD 0 0)
                ((tobsr 16 2 16 1 example_16x2).indptr.getD (0 + 1) 0)
            ++ List.replicate
                ((2 - (slice (tobsr 16 2 16 1 example_16x2).indices
                    ((tobsr 16 2 16 1 example_16x2).indptr.getD 0 0)
                    ((tobsr 16 2 16 1 example_16x2).indptr.getD (0 + 1) 0)).length % 2) % 2)
                ((slice (tobsr 16 2 16 1 example_16x2).indices
                    ((tobsr 16 2 16 1 example_16x2).indptr.getD 0 0)
                    ((tobsr 16 2 16 1 example_16x2).indptr.getD (0 + 1) 0)).getLastD 0)
        ∧ (slice r.indices (r.indptr.getD 0 0 * 2) (r.indptr.getD (0 + 1) 0 * 2)).length % 2
            = 0))
    ∧ amx_group_indices 4 4 [0, 3] [2, 5, 9] = .ok ([2, 5, 9, 9], [0, 0]) :=
  match to_bsr_amx_group_padding 64 32 2 16 2 16 1 example_16x2 (by decide) (by decide)
      (by decide) (by decide) with
  | ⟨⟨r, hr, h⟩, h2⟩ =>
    ⟨⟨r, hr, (h 0 _ _ (by decide) rfl rfl).1, (h 0 _ _ (by decide) rfl rfl).2.1⟩, h2⟩

/-! ## Stage C as a permutation of each run -/

theorem map_range_mul {α : Type} (f : Nat → α) (a b : Nat) :
    (List.range (a * b)).map f
      = (List.range a).flatMap fun x => (List.range b).map fun y => f (x * b + y) := by
  induction a with
  | zero => simp
  | succ a ih =>
    rw [flatMap_range_succ, ← ih, show (a + 1) * b = a * b + b by ring, List.range_add,
      List.map_append, List.map_map]
    rfl

theorem flatMap_range_mul {α : Type} (f : Nat → List α) (a b : Nat) :
    (List.range (a * b)).flatMap f
      = (List.range a).flatMap fun x => (List.range b).flatMap fun y => f (x * b + y) := by
  induction a with
  | zero => simp
  | succ a ih =>
    rw [flatMap_range_succ, ← ih, show (a + 1) * b = a * b + b by ring, List.range_add,
      List.flatMap_append, List.flatMap_map]

theorem eq_map_getD_range (l : List Int) : l = (List.range l.length).map fun p => l.getD p 0 := by
  apply List.ext_getElem?
  intro p
  rw [List.getElem?_map]
  by_cases hp : p < l.length
  · rw [List.getElem?_range hp, List.getElem?_eq_getElem hp]
    simp [List.getD_eq_getElem?_getD, List.getElem?_eq_getElem hp]
  · rw [List.getElem?_eq_none (by omega), List.getElem?_eq_none (by simp; omega)]
    rfl

theorem getD_map_range' {β : Type} (f : Nat → β) (d : β) (a n t : Nat) (h : t < n) :
    ((List.range' a n).map f).getD t d = f (a + t) := by
  rw [List.getD_eq_getElem?_getD, List.getElem?_map, List.getElem?_range' _ _ h]
  simp

theorem getD_amxTile (g : Nat) (nd : List Int) (sc i s : Nat) (hi : i < 16) (hs : s < g) :
    (amxTile g nd sc).getD (i * g + s) 0 = nd.getD ((sc + s) * 16 + i) 0 := by
  unfold amxTile
  rw [getD_flatMap_uniform _ g 0 0 _ (by intro x; simp) i s (by simpa using hi) hs,
    getD_range _ _ hi, getD_map_range' _ _ _ _ _ hs]

theorem getD_tiles (g m : Nat) (nd : List Int) (G i s : Nat) (hG : G < m) (hi : i < 16)
    (hs : s < g) :
    ((List.range m).flatMap fun G => amxTile g nd (G * g)).getD (G * g * 16 + i * g + s) 0
      = nd.getD ((G * g + s) * 16 + i) 0 := by
  have hlt : i * g + s < 16 * g := by
    have : (i + 1) * g ≤ 16 * g := Nat.mul_le_mul_right _ hi
    have : (i + 1) * g = i * g + g := by ring
    omega
  have e : G * g * 16 + i * g + s = G * (16 * g) + (i * g + s) := by ring
  rw [e, getD_flatMap_uniform _ (16 * g) 0 0 _ (fun x => length_amxTile g nd _) G _
    (by simpa using hG) hlt, getD_range _ _ hG, getD_amxTile g nd _ i s hi hs]

theorem amx_gather_tiles (g n : Nat) (nd : List Int) (hdiv : n % g = 0)
    (hlen : nd.length = n * 16) :
    amx_gather g n ((List.range (n / g)).flatMap fun G => amxTile g nd (G * g)) = nd := by
  have hn : n / g * g = n := Nat.div_mul_cancel (Nat.dvd_of_mod_eq_zero hdiv)
  have h1 : amx_gather g n ((List.range (n / g)).flatMap fun G => amxTile g nd (G * g))
      = (List.range (n / g)).flatMap fun G =>
          (List.range g).flatMap fun s =>
            (List.range 16).map fun i => nd.getD ((G * g + s) * 16 + i) 0 := by
    unfold amx_gather
    apply flatMap_range_congr
    intro G hG
    apply flatMap_range_congr
    intro s hs
    apply List.map_congr_left
    intro i hi
    exact getD_tiles g (n / g) nd G i s hG (List.mem_range.1 hi) hs
  rw [h1]
  conv_rhs => rw [eq_map_getD_range nd, hlen, ← hn, map_range_mul, flatMap_range_mul]

/-- C9: for block shape (16, 1) and every group size `g ≥ 1`, Stage C run on `n` blocks
(`n` a multiple of `g`) returns a buffer in which, for every run `G`, slot `s < g` and
`i < 16`, output position `G*g*16 + i*g + s` holds the element at position
`(G*g + s)*16 + i` of the compacted buffer; within a run the map `(s, i) ↦ i*g + s` is
one-to-one and onto the `g*16` offsets of the run; and the gather
`out[(G*g + s)*16 + i] := data[G*g*16 + i*g + s]` restores the compacted buffer, for
every buffer of `n * 16` elements. -/
theorem amx_reorder_invertible (fuel g n : Nat) (new_data : List Int) (hg : 1 ≤ g)
    (hdiv : n % g = 0) (hfuel : n / g ≤ fuel) (hlen : new_data.length = n * 16) :
    (∃ c, amx_reorder fuel g n new_data (List.replicate (n * 16) 0, 0, 0) = .ok c
      ∧ (∀ G s i, G < n / g → s < g → i < 16 →
          c.1.getD (G * g * 16 + i * g + s) 0 = new_data.getD ((G * g + s) * 16 + i) 0)
      ∧ amx_gather g n c.1 = new_data)
    ∧ (∀ s i s' i', s < g → i < 16 → s' < g → i' < 16 →
        i * g + s = i' * g + s' → s = s' ∧ i = i')
    ∧ (∀ s i, s < g → i < 16 → i * g + s < g * 16)
    ∧ (∀ q, q < g * 16 → ∃ s i, s < g ∧ i < 16 ∧ q = i * g + s) := by
  refine ⟨?_, ?_, ?_, ?_⟩
  · refine ⟨_, amx_reorder_eq fuel g n new_data (n * 16) hg hdiv hfuel (Nat.le_refl _), ?_, ?_⟩
    · intro G s i hG hs hi
      simp only [Nat.sub_self, List.replicate_zero, List.append_nil]
      exact getD_tiles g (n / g) new_data G i s hG hi hs
    · simp only [Nat.sub_self, List.replicate_zero, List.append_nil]
      exact amx_gather_tiles g n new_data hdiv hlen
  · intro s i s' i' hs _ hs' _ h
    have h1 : (i * g + s) / g = i := by
      rw [Nat.add_comm, Nat.add_mul_div_right _ _ (by omega), Nat.div_eq_of_lt hs, Nat.zero_add]
    have h2 : (i' * g + s') / g = i' := by
      rw [Nat.add_comm, Nat.add_mul_div_right _ _ (by omega), Nat.div_eq_of_lt hs', Nat.zero_add]
    have hi : i = i' := by rw [← h1, ← h2, h]
    subst hi
    exact ⟨by omega, rfl⟩
  · intro s i hs hi
    have : (i + 1) * g ≤ 16 * g := Nat.mul_le_mul_right _ hi
    have : (i + 1) * g = i * g + g := by ring
    have : g * 16 = 16 * g := Nat.mul_comm _ _
    omega
  · intro q hq
    refine ⟨q % g, q / g, Nat.mod_lt _ (by omega), ?_, (Nat.div_add_mod' q g).symm⟩
    exact Nat.div_lt_of_lt_mul hq

theorem amx_reorder_invertible_witness :
    (∃ c, amx_reorder 1 2 2 ((List.range 32).map fun k => (k : Int))
          (List.replicate (2 * 16) 0, 0, 0) = .ok c
      ∧ c.1.getD (0 * 2 * 16 + 3 * 2 + 1) 0
          = ((List.range 32).map fun k => (k : Int)).getD ((0 * 2 + 1) * 16 + 3) 0
      ∧ amx_gather 2 2 c.1 = (List.range 32).map fun k => (k : Int))
    ∧ 3 * 2 + 1 < 2 * 16
    ∧ ∃ s i, s < 2 ∧ i < 16 ∧ 7 = i * 2 + s :=
  match amx_reorder_invertible 1 2 2 ((List.range 32).map fun k => (k : Int))
      (by decide) (by decide) (by decide) (by decide) with
  | ⟨⟨c, hc, h1, h2⟩, _, h4, h5⟩ =>
    ⟨⟨c, hc, h1 0 1 3 (by decide) (by decide) (by decide), h2⟩,
      h4 1 3 (by decide) (by decide), h5 7 (by decide)⟩

/-! ## Cells of the compacted buffer -/

theorem getD_groupPayload (g bs : Nat) (bsr_data : List Int) (nnz_idx c e : Nat) :
    (groupPayload g bs bsr_data nnz_idx c).getD e 0
      = if e < c * bs then bsr_data.getD (nnz_idx * bs + e) 0 else 0 := by
  unfold groupPayload
  by_cases h : e < c * bs
  · rw [if_pos h, getD_append_left' _ _ _ _ (by simpa using h), getD_map_range _ _ _ _ h]
  · rw [if_neg h]
    have e1 : e = ((List.range (c * bs)).map
        fun e => bsr_data.getD (nnz_idx * bs + e) 0).length + (e - c * bs) := by
      simp; omega
    rw [e1, getD_append_right', List.getD_eq_getElem?_getD, List.getElem?_replicate]
    split <;> rfl

theorem getD_compacted (g bs : Nat) (indptr grp : List Nat) (bsr_data : List Int)
    (c : Nat → Nat → Nat) (n : Nat) (hg0 : grp.getD 0 0 = 0)
    (hgmono : ∀ b, b < n → grp.getD b 0 ≤ grp.getD (b + 1) 0)
    (hcg : ∀ b, b < n → ∀ k, k < grp.getD (b + 1) 0 - grp.getD b 0 → c b k ≤ g)
    (b k e : Nat) (hb : b < n) (hk : k < grp.getD (b + 1) 0 - grp.getD b 0) (he : e < g * bs) :
    (compacted g bs indptr grp bsr_data c n).getD ((grp.getD b 0 + k) * (g * bs) + e) 0
      = (groupPayload g bs bsr_data (indptr.getD b 0 + k * g) (c b k)).getD e 0 := by
  obtain ⟨rest, hr⟩ := flatMap_range_split
    (fun b => (List.range (grp.getD (b + 1) 0 - grp.getD b 0)).flatMap fun k =>
      groupPayload g bs bsr_data (indptr.getD b 0 + k * g) (c b k)) b n hb
  have hlen := length_compacted g bs indptr grp bsr_data c b hg0
    (fun b' hb' => hgmono b' (by omega)) (fun b' hb' => hcg b' (by omega))
  unfold compacted at hlen ⊢
  have hrow : ((List.range (grp.getD (b + 1) 0 - grp.getD b 0)).flatMap fun k =>
      groupPayload g bs bsr_data (indptr.getD b 0 + k * g) (c b k)).length
      = (grp.getD (b + 1) 0 - grp.getD b 0) * (g * bs) := by
    rw [length_flatMap_const _ (g * bs) _ (fun k hk' =>
      length_groupPayload g bs bsr_data _ _ (hcg b hb k (List.mem_range.1 hk'))),
      List.length_range]
  have hin : k * (g * bs) + e
      < ((List.range (grp.getD (b + 1) 0 - grp.getD b 0)).flatMap fun k =>
          groupPayload g bs bsr_data (indptr.getD b 0 + k * g) (c b k)).length := by
    rw [hrow]
    have h1 : (k + 1) * (g * bs) ≤ (grp.getD (b + 1) 0 - grp.getD b 0) * (g * bs) :=
      Nat.mul_le_mul_right _ hk
    have h2 : (k + 1) * (g * bs) = k * (g * bs) + g * bs := by ring
    omega
  have e1 : (grp.getD b 0 + k) * (g * bs) + e
      = ((List.range b).flatMap fun b =>
          (List.range (grp.getD (b + 1) 0 - grp.getD b 0)).flatMap fun k =>
            groupPayload g bs bsr_data (indptr.getD b 0 + k * g) (c b k)).length
        + (k * (g * bs) + e) := by
    rw [hlen]; ring
  rw [hr, List.append_assoc, e1, getD_append_right', getD_append_left' _ _ _ _ hin]
  have hmid := getD_flatMap_range
    (fun k => groupPayload g bs bsr_data (indptr.getD b 0 + k * g) (c b k)) (g * bs) 0
    (grp.getD (b + 1) 0 - grp.getD b 0)
    (fun k hk' => length_groupPayload g bs bsr_data _ _ (hcg b hb k hk')) k e hk he
  exact hmid

theorem groupPtr_zero (g : Nat) (M : List Int) (cols br bc n : Nat) :
    (groupPtr g M cols br bc n).getD 0 0 = 0 := by
  rw [groupPtr_getD _ _ _ _ _ _ _ (Nat.zero_le _)]
  simp [gcolsUpTo]

theorem groupPtr_mono (g : Nat) (M : List Int) (cols br bc n : Nat) (hg1 : 1 ≤ g) (b : Nat)
    (hb : b < n) :
    (groupPtr g M cols br bc n).getD b 0 ≤ (groupPtr g M cols br bc n).getD (b + 1) 0 := by
  rw [groupPtr_getD _ _ _ _ _ _ _ (by omega), groupPtr_getD _ _ _ _ _ _ _ (by omega),
    groups_succ g M cols br bc b hg1]
  exact Nat.le_add_right _ _

theorem realCount_le (g : Nat) (M : List Int) (cols br bc b k : Nat) :
    realCount g M cols br bc b k ≤ g := Nat.min_le_left _ _

theorem compacted_cell (g rows cols : Nat) (M : List Int) (hg1 : 1 ≤ g) (b k s i : Nat)
    (hb : b < rows / 16) (hk : k < (padRow g (nzcols M cols 16 1 b)).length / g) (hs : s < g)
    (hi : i < 16) :
    (compacted g 16 (tobsr rows cols 16 1 M).indptr (groupPtr g M cols 16 1 (rows / 16))
        (tobsr rows cols 16 1 M).data (realCount g M cols 16 1) (rows / 16)).getD
        ((((gcolsUpTo g M cols 16 1 b).length / g + k) * g + s) * 16 + i) 0
      = if k * g + s < (nzcols M cols 16 1 b).length
        then M.getD ((b * 16 + i) * cols + (nzcols M cols 16 1 b).getD (k * g + s) 0) 0
        else 0 := by
  have hgp := groupPtr_getD g M cols 16 1 (rows / 16) b (Nat.le_of_lt hb)
  have hdiff := groupPtr_diff g M cols 16 1 (rows / 16) b hb hg1
  have hlt : s * 16 + i < g * 16 := by
    have h1 : (s + 1) * 16 ≤ g * 16 := Nat.mul_le_mul_right _ hs
    omega
  have e1 : (((gcolsUpTo g M cols 16 1 b).length / g + k) * g + s) * 16 + i
      = ((groupPtr g M cols 16 1 (rows / 16)).getD b 0 + k) * (g * 16) + (s * 16 + i) := by
    rw [hgp]; ring
  rw [e1, getD_compacted g 16 _ _ _ _ (rows / 16) (groupPtr_zero g M cols 16 1 _)
    (fun b' hb' => groupPtr_mono g M cols 16 1 _ hg1 b' hb')
    (fun b' _ k' _ => realCount_le g M cols 16 1 b' k') b k _ hb (by rw [hdiff]; exact hk) hlt,
    getD_groupPayload]
  have hcnt : (s * 16 + i < realCount g M cols 16 1 b k * 16)
      ↔ k * g + s < (nzcols M cols 16 1 b).length := by
    unfold realCount
    constructor
    · intro h
      have : s < min g ((nzcols M cols 16 1 b).length - k * g) := by omega
      omega
    · intro h
      have : s < min g ((nzcols M cols 16 1 b).length - k * g) := by omega
      omega
  by_cases hgen : k * g + s < (nzcols M cols 16 1 b).length
  · rw [if_pos (hcnt.2 hgen), if_pos hgen, tobsr_indptr_getD _ _ _ _ _ _ (Nat.le_of_lt hb)]
    have h := tobsr_data_getD rows cols 16 1 M b (k * g + s) i 0 hb hgen hi (by omega)
    have e2 : ((colsUpTo M cols 16 1 b).length + k * g) * 16 + (s * 16 + i)
        = ((colsUpTo M cols 16 1 b).length + (k * g + s)) * (16 * 1) + (i * 1 + 0) := by ring
    have e3 : b * 16 * cols + (nzcols M cols 16 1 b).getD (k * g + s) 0 * 1 + (i * cols + 0)
        = (b * 16 + i) * cols + (nzcols M cols 16 1 b).getD (k * g + s) 0 := by ring
    rw [e2, h, e3]
  · rw [if_neg (fun h => hgen (hcnt.1 h)), if_neg hgen]

theorem to_bsr_amx_16 (fuel sizeof_T g rows cols : Nat) (M : List Int) (hg2 : 2 ≤ g)
    (hacc : g = 64 / sizeof_T) (hfuel : g + cols + rows * cols ≤ fuel) :
    to_bsr_amx fuel sizeof_T g rows cols 16 1 M
      = .ok { block := (16, 1), shape := (rows, cols),
              indptr := groupPtr g M cols 16 1 (rows / 16),
              indices := gcolsUpTo g M cols 16 1 (rows / 16),
              data := (List.range ((gcolsUpTo g M cols 16 1 (rows / 16)).length / g)).flatMap
                fun G => amxTile g
                  (compacted g 16 (tobsr rows cols 16 1 M).indptr
                    (groupPtr g M cols 16 1 (rows / 16)) (tobsr rows cols 16 1 M).data
                    (realCount g M cols 16 1) (rows / 16)) (G * g),
              group := g } := by
  have hg1 : 1 ≤ g := by omega
  obtain ⟨c, hc, hr⟩ := to_bsr_amx_eq fuel sizeof_T g rows cols 16 1 M hg2 hacc hfuel
  have hgroups : (gcolsUpTo g M cols 16 1 (rows / 16)).length / g ≤ fuel := by
    have h1 := groups_le g M cols 16 1 (rows / 16) hg1
    have h2 : rows / 16 * cols ≤ rows * cols := Nat.mul_le_mul_right _ (Nat.div_le_self _ _)
    have h3 : rows * cols ≤ fuel := by omega
    exact Nat.le_trans h1 (Nat.le_trans h2 h3)
  have h := amx_reorder_eq fuel g (gcolsUpTo g M cols 16 1 (rows / 16)).length
    (compacted g 16 (tobsr rows cols 16 1 M).indptr (groupPtr g M cols 16 1 (rows / 16))
      (tobsr rows cols 16 1 M).data (realCount g M cols 16 1) (rows / 16))
    ((gcolsUpTo g M cols 16 1 (rows / 16)).length * 16) hg1
    (length_gcolsUpTo_mod g M cols 16 1 _ hg1) hgroups (Nat.le_refl _)
  rw [show (16 : Nat) * 1 = 16 from rfl] at hc
  rw [h] at hc
  have hc1 : c.1 = (List.range ((gcolsUpTo g M cols 16 1 (rows / 16)).length / g)).flatMap
      fun G => amxTile g
        (compacted g 16 (tobsr rows cols 16 1 M).indptr
          (groupPtr g M cols 16 1 (rows / 16)) (tobsr rows cols 16 1 M).data
          (realCount g M cols 16 1) (rows / 16)) (G * g) := by
    cases hc
    simp
  rw [hr, hc1]

/-! ## Claim on the grouped payload -/

theorem groups_mono (g : Nat) (M : List Int) (cols br bc a b : Nat) (h : a ≤ b) :
    (gcolsUpTo g M cols br bc a).length / g ≤ (gcolsUpTo g M cols br bc b).length / g :=
  Nat.div_le_div_right (length_flatMap_range_mono _ a b h)

theorem tobsr_indptr_diff (rows cols br bc : Nat) (M : List Int) (b : Nat) (hb : b < rows / br) :
    (tobsr rows cols br bc M).indptr.getD (b + 1) 0 - (tobsr rows cols br bc M).indptr.getD b 0
      = (nzcols M cols br bc b).length := by
  rw [tobsr_indptr_getD _ _ _ _ _ _ hb, tobsr_indptr_getD _ _ _ _ _ _ (Nat.le_of_lt hb),
    colsUpTo_succ, List.length_append, Nat.add_sub_cancel_left]

theorem length_tiles (g m : Nat) (nd : List Int) :
    ((List.range m).flatMap fun G => amxTile g nd (G * g)).length = m * (16 * g) := by
  rw [length_flatMap_const _ (16 * g) _ (fun x _ => length_amxTile g nd _), List.length_range]

/-- C8: for block shape (16, 1), every accepted group size `g ≥ 2` and enough fuel,
`to_bsr_amx` returns a structure whose `data` has length `colidxs.length * 16` and in
which, for every block-row `b`, every group `G` in `[group_rowptr[b], group_rowptr[b+1])`,
every slot `s < g` and every `i < 16`, `data[G*g*16 + i*g + s]` is
`M[(b*16 + i)*cols + colidxs[G*g + s]]` when slot `s` is a genuine entry of the group
(its rank `(G - group_rowptr[b])*g + s` in the row is below the number of nonzero blocks
of the row) and `0` when it is a padding entry. -/
theorem to_bsr_amx_tile_payload (fuel sizeof_T g rows cols : Nat) (M : List Int) (hg2 : 2 ≤ g)
    (hacc : g = 64 / sizeof_T) (hfuel : g + cols + rows * cols ≤ fuel) :
    ∃ r, to_bsr_amx fuel sizeof_T g rows cols 16 1 M = .ok r
      ∧ r.data.length = r.indices.length * 16
      ∧ ∀ b G s i, b < rows / 16 → r.indptr.getD b 0 ≤ G → G < r.indptr.getD (b + 1) 0 →
          s < g → i < 16 →
          ((G - r.indptr.getD b 0) * g + s
              < (tobsr rows cols 16 1 M).indptr.getD (b + 1) 0
                - (tobsr rows cols 16 1 M).indptr.getD b 0 →
            r.data.getD (G * g * 16 + i * g + s) 0
              = M.getD ((b * 16 + i) * cols + r.indices.getD (G * g + s) 0) 0)
          ∧ ((tobsr rows cols 16 1 M).indptr.getD (b + 1) 0
                - (tobsr rows cols 16 1 M).indptr.getD b 0
              ≤ (G - r.indptr.getD b 0) * g + s →
            r.data.getD (G * g * 16 + i * g + s) 0 = 0) := by
  have hg1 : 1 ≤ g := by omega
  refine ⟨_, to_bsr_amx_16 fuel sizeof_T g rows cols M hg2 hacc hfuel, ?_, ?_⟩
  · simp only
    rw [length_tiles, ← Nat.mul_assoc, Nat.mul_right_comm,
      div_mul_length_gcolsUpTo g M cols 16 1 _ hg1]
  · intro b G s i hb hlo hhi hs hi
    simp only at hlo hhi ⊢
    rw [groupPtr_getD _ _ _ _ _ _ _ (Nat.le_of_lt hb)] at hlo
    rw [groupPtr_getD _ _ _ _ _ _ _ hb] at hhi
    rw [groupPtr_getD _ _ _ _ _ _ _ (Nat.le_of_lt hb), tobsr_indptr_diff rows cols 16 1 M b hb]
    have hGm : G < (gcolsUpTo g M cols 16 1 (rows / 16)).length / g :=
      Nat.lt_of_lt_of_le hhi (groups_mono g M cols 16 1 _ _ hb)
    obtain ⟨k, rfl⟩ : ∃ k, G = (gcolsUpTo g M cols 16 1 b).length / g + k :=
      ⟨G - (gcolsUpTo g M cols 16 1 b).length / g, by omega⟩
    have hk : k < (padRow g (nzcols M cols 16 1 b)).length / g := by
      rw [groups_succ g M cols 16 1 b hg1] at hhi
      omega
    rw [Nat.add_sub_cancel_left, getD_tiles g _ _ _ i s hGm hi hs,
      compacted_cell g rows cols M hg1 b k s i hb hk hs hi]
    constructor
    · intro hgen
      rw [if_pos hgen]
      have e1 : ((gcolsUpTo g M cols 16 1 b).length / g + k) * g + s
          = (gcolsUpTo g M cols 16 1 b).length + (k * g + s) := by
        rw [Nat.add_mul, div_mul_length_gcolsUpTo g M cols 16 1 b hg1, Nat.add_assoc]
      have hpge := length_padRow_ge g (nzcols M cols 16 1 b)
      rw [e1, getD_gcolsUpTo g M cols 16 1 _ b _ hb (by omega), getD_padRow_lt _ _ _ hgen]
    · intro hpad
      rw [if_neg (by omega)]

theorem to_bsr_amx_tile_payload_witness :
    ∃ r, to_bsr_amx 64 32 2 16 2 16 1 example_16x2 = .ok r
      ∧ r.data.getD (0 * 2 * 16 + 15 * 2 + 0) 0
          = example_16x2.getD ((0 * 16 + 15) * 2 + r.indices.getD (0 * 2 + 0) 0) 0
      ∧ r.data.getD (0 * 2 * 16 + 15 * 2 + 1) 0 = 0 := by
  obtain ⟨r, hr, _, h⟩ := to_bsr_amx_tile_payload 64 32 2 16 2 example_16x2
    (by decide) (by decide) (by decide)
  have hev : to_bsr_amx 64 32 2 16 2 16 1 example_16x2
      = .ok { block := (16, 1), shape := (16, 2), indptr := [0, 1], indices := [0, 0],
              data := [1, 0, 0, 0, 0, 0, 0, 0, 0, 0, 0, 0, 0, 0, 0, 0,
                       0, 0, 0, 0, 0, 0, 0, 0, 0, 0, 0, 0, 0, 0, 7, 0],
              group := 2 } := by
    rfl
  rw [hev] at hr
  cases hr
  exact ⟨_, hev,
    (h 0 0 0 15 (by decide) (by decide) (by decide) (by decide) (by decide)).1 (by decide),
    (h 0 0 1 15 (by decide) (by decide) (by decide) (by decide) (by decide)).2 (by decide)⟩


/-! ## The grouped payload row by row -/

theorem flatMap_regroup {α : Type} (F : Nat → List α) (off cnt : Nat → Nat) (h0 : off 0 = 0)
    (hs : ∀ b, off (b + 1) = off b + cnt b) (n : Nat) :
    (List.range (off n)).flatMap F
      = (List.range n).flatMap fun b => (List.range (cnt b)).flatMap fun k => F (off b + k) := by
  induction n with
  | zero => rw [h0]; rfl
  | succ n ih =>
    rw [flatMap_range_succ, ← ih, hs n, List.range_add, List.flatMap_append, List.flatMap_map]

theorem amxTile_compacted (g rows cols : Nat) (M : List Int) (hg1 : 1 ≤ g) (b k : Nat)
    (hb : b < rows / 16) (hk : k < (padRow g (nzcols M cols 16 1 b)).length / g) :
    amxTile g
        (compacted g 16 (tobsr rows cols 16 1 M).indptr (groupPtr g M cols 16 1 (rows / 16))
          (tobsr rows cols 16 1 M).data (realCount g M cols 16 1) (rows / 16))
        (((gcolsUpTo g M cols 16 1 b).length / g + k) * g)
      = amxTileOf g M cols b k := by
  unfold amxTile amxTileOf
  apply flatMap_range_congr
  intro i hi
  rw [List.range'_eq_map_range, List.map_map]
  apply List.map_congr_left
  intro s hs
  exact compacted_cell g rows cols M hg1 b k s i hb hk (List.mem_range.1 hs) hi

theorem amx_data_rows (g rows cols : Nat) (M : List Int) (hg1 : 1 ≤ g) :
    ((List.range ((gcolsUpTo g M cols 16 1 (rows / 16)).length / g)).flatMap
        fun G => amxTile g
          (compacted g 16 (tobsr rows cols 16 1 M).indptr
            (groupPtr g M cols 16 1 (rows / 16)) (tobsr rows cols 16 1 M).data
            (realCount g M cols 16 1) (rows / 16)) (G * g))
      = (List.range (rows / 16)).flatMap (amxRow g M cols) := by
  rw [flatMap_regroup _ (fun b => (gcolsUpTo g M cols 16 1 b).length / g)
    (fun b => (padRow g (nzcols M cols 16 1 b)).length / g) (by simp [gcolsUpTo])
    (fun b => groups_succ g M cols 16 1 b hg1) (rows / 16)]
  apply flatMap_range_congr
  intro b hb
  unfold amxRow
  apply flatMap_range_congr
  intro k hk
  exact amxTile_compacted g rows cols M hg1 b k hb hk

theorem flatMap_eq_range {α β : Type} (f : α → List β) (x0 : α) (l : List α) :
    l.flatMap f = (List.range l.length).flatMap fun k => f (l.getD k x0) := by
  induction l using List.reverseRecOn with
  | nil => rfl
  | append_singleton xs x ih =>
    rw [List.flatMap_append, List.flatMap_singleton, List.length_append, List.length_singleton,
      flatMap_range_succ, ih]
    congr 1
    · apply flatMap_range_congr
      intro k hk
      rw [getD_append_left' _ _ _ _ hk]
    · have := getD_append_right' xs [x] x0 0
      rw [Nat.add_zero] at this
      rw [this]
      rfl

theorem padRow_one (sl : List Nat) : padRow 1 sl = sl :=
  padRow_of_dvd 1 sl (Nat.mod_one _)

theorem blockvals_eq_tile (M : List Int) (cols b k : Nat)
    (hk : k < (nzcols M cols 16 1 b).length) :
    blockvals M cols 16 1 b ((nzcols M cols 16 1 b).getD k 0) = amxTileOf 1 M cols b k := by
  unfold blockvals amxTileOf
  apply flatMap_range_congr
  intro i _
  apply List.map_congr_left
  intro s hs
  have hs0 : s = 0 := by
    have := List.mem_range.1 hs
    omega
  subst hs0
  rw [if_pos (by omega)]
  congr 1
  ring_nf

theorem dataUpTo_rows (M : List Int) (cols n : Nat) :
    dataUpTo M cols 16 1 n = (List.range n).flatMap (amxRow 1 M cols) := by
  unfold dataUpTo
  apply flatMap_range_congr
  intro b _
  unfold amxRow
  rw [padRow_one, Nat.div_one, flatMap_eq_range _ 0]
  apply flatMap_range_congr
  intro k hk
  exact blockvals_eq_tile M cols b k hk

theorem gcolsUpTo_one (M : List Int) (cols br bc n : Nat) :
    gcolsUpTo 1 M cols br bc n = colsUpTo M cols br bc n := by
  unfold gcolsUpTo colsUpTo
  apply flatMap_range_congr
  intro b _
  exact padRow_one _

theorem groupPtr_one (M : List Int) (cols br bc n : Nat) :
    groupPtr 1 M cols br bc n
      = (List.range (n + 1)).map fun b => (colsUpTo M cols br bc b).length := by
  unfold groupPtr
  apply List.map_congr_left
  intro b _
  rw [gcolsUpTo_one, Nat.div_one]

/-- Closed form of `to_bsr_amx` for block shape (16, 1) and every accepted group size. -/
theorem to_bsr_amx_rows (fuel sizeof_T g rows cols : Nat) (M : List Int) (hg1 : 1 ≤ g)
    (hacc : g = 1 ∨ g = 64 / sizeof_T) (hfuel : g + cols + rows * cols ≤ fuel) :
    to_bsr_amx fuel sizeof_T g rows cols 16 1 M
      = .ok { block := (16, 1), shape := (rows, cols),
              indptr := groupPtr g M cols 16 1 (rows / 16),
              indices := gcolsUpTo g M cols 16 1 (rows / 16),
              data := (List.range (rows / 16)).flatMap (amxRow g M cols),
              group := g } := by
  by_cases h1 : g = 1
  · subst h1
    unfold to_bsr_amx
    simp only
    rw [if_pos True.intro, gcolsUpTo_one, groupPtr_one, ← dataUpTo_rows, ← tobsr_data,
      ← tobsr_indptr, ← tobsr_indices]
    rfl
  · have hacc' : g = 64 / sizeof_T := by
      rcases hacc with h | h
      · exact absurd h h1
      · exact h
    rw [to_bsr_amx_16 fuel sizeof_T g rows cols M (by omega) hacc' hfuel,
      amx_data_rows g rows cols M hg1]

/-! ## Sub-views of the dense buffer -/

theorem getD_drop (M : List Int) (n j : Nat) : (M.drop n).getD j 0 = M.getD (n + j) 0 := by
  simp [List.getD_eq_getElem?_getD, List.getElem?_drop]

theorem is_zero_drop (M : List Int) (cols a l c : Nat) :
    is_zero (M.drop (a * 16 * cols)) cols 16 1 (l * 16 * cols + c * 1)
      = is_zero M cols 16 1 ((a + l) * 16 * cols + c * 1) := by
  rw [Bool.eq_iff_iff, is_zero_iff, is_zero_iff]
  have e : ∀ i j : Nat, a * 16 * cols + (l * 16 * cols + c * 1 + (i * cols + j))
      = (a + l) * 16 * cols + c * 1 + (i * cols + j) := by
    intro i j; ring
  constructor
  · intro h i j hi hj
    rw [← e, ← getD_drop]
    exact h i j hi hj
  · intro h i j hi hj
    rw [getD_drop, e]
    exact h i j hi hj

theorem nzcols_drop (M : List Int) (cols a l : Nat) :
    nzcols (M.drop (a * 16 * cols)) cols 16 1 l = nzcols M cols 16 1 (a + l) := by
  unfold nzcols
  apply List.filter_congr
  intro c _
  rw [is_zero_drop]

theorem amxTileOf_drop (g : Nat) (M : List Int) (cols a l k : Nat) :
    amxTileOf g (M.drop (a * 16 * cols)) cols l k = amxTileOf g M cols (a + l) k := by
  unfold amxTileOf
  rw [nzcols_drop]
  apply flatMap_range_congr
  intro i _
  apply List.map_congr_left
  intro s _
  rw [getD_drop]
  congr 2
  ring

theorem amxRow_drop (g : Nat) (M : List Int) (cols a l : Nat) :
    amxRow g (M.drop (a * 16 * cols)) cols l = amxRow g M cols (a + l) := by
  unfold amxRow
  rw [nzcols_drop]
  apply flatMap_range_congr
  intro k _
  exact amxTileOf_drop g M cols a l k

theorem flatMap_range_add {α : Type} (f : Nat → List α) (a n : Nat) :
    (List.range (a + n)).flatMap f
      = (List.range a).flatMap f ++ (List.range n).flatMap fun l => f (a + l) := by
  rw [List.range_add, List.flatMap_append, List.flatMap_map]

theorem gcolsUpTo_drop (g : Nat) (M : List Int) (cols a n : Nat) :
    gcolsUpTo g (M.drop (a * 16 * cols)) cols 16 1 n
      = (List.range n).flatMap fun l => padRow g (nzcols M cols 16 1 (a + l)) := by
  unfold gcolsUpTo
  apply flatMap_range_congr
  intro l _
  rw [nzcols_drop]

theorem gcolsUpTo_add (g : Nat) (M : List Int) (cols a n : Nat) :
    gcolsUpTo g M cols 16 1 (a + n)
      = gcolsUpTo g M cols 16 1 a ++ gcolsUpTo g (M.drop (a * 16 * cols)) cols 16 1 n := by
  rw [gcolsUpTo_drop]
  exact flatMap_range_add _ a n

theorem groups_add (g : Nat) (M : List Int) (cols a n : Nat) (hg1 : 1 ≤ g) :
    (gcolsUpTo g M cols 16 1 (a + n)).length / g
      = (gcolsUpTo g (M.drop (a * 16 * cols)) cols 16 1 n).length / g
        + (gcolsUpTo g M cols 16 1 a).length / g := by
  rw [gcolsUpTo_add, List.length_append,
    Nat.add_div_of_dvd_right (Nat.dvd_of_mod_eq_zero (length_gcolsUpTo_mod g M cols 16 1 a hg1)),
    Nat.add_comm]

/-! ## `reorder_to_bsr_amx` chunk by chunk -/

theorem forLoop_collect {α β : Type} (body : List α → β → Except Err (List α)) (u : β → α)
    (l : List β) (h : ∀ acc x, x ∈ l → body acc x = .ok (acc ++ [u x])) (acc : List α) :
    forLoop body l acc = .ok (acc ++ l.map u) := by
  induction l generalizing acc with
  | nil => simp [forLoop]
  | cons x xs ih =>
    simp only [forLoop]
    rw [h acc x (List.mem_cons_self _ _)]
    simp only
    rw [ih (fun acc y hy => h acc y (List.mem_cons_of_mem _ hy))]
    simp

theorem reorder_to_bsr_amx_eq (fuel sizeof_T g rows cols micro_rows : Nat) (M : List Int)
    (hg1 : 1 ≤ g) (hacc : g = 1 ∨ g = 64 / sizeof_T) (hmr : micro_rows % 16 = 0)
    (hr : rows % micro_rows = 0) (hfuel : g + cols + rows * cols ≤ fuel) :
    reorder_to_bsr_amx fuel sizeof_T g rows cols micro_rows M
      = .ok ((List.range (rows / micro_rows)).map fun i =>
          amxChunk g rows cols (micro_rows / 16) M (i * (micro_rows / 16))) := by
  have hmr16 : micro_rows / 16 * 16 = micro_rows :=
    Nat.div_mul_cancel (Nat.dvd_of_mod_eq_zero hmr)
  have hchunk : ∀ i, i ∈ List.range (rows / micro_rows) →
      to_bsr_amx fuel sizeof_T g micro_rows cols 16 1 (M.drop (i * micro_rows * cols))
        = .ok { block := (16, 1), shape := (micro_rows, cols),
                indptr := groupPtr g (M.drop (i * (micro_rows / 16) * 16 * cols)) cols 16 1
                  (micro_rows / 16),
                indices := gcolsUpTo g (M.drop (i * (micro_rows / 16) * 16 * cols)) cols 16 1
                  (micro_rows / 16),
                data := (List.range (micro_rows / 16)).flatMap
                  (amxRow g (M.drop (i * (micro_rows / 16) * 16 * cols)) cols),
                group := g } := by
    intro i hi
    have hq : 0 < rows / micro_rows := by
      have := List.mem_range.1 hi
      omega
    have hle : micro_rows ≤ rows := by
      by_contra hcon
      rw [Nat.div_eq_of_lt (by omega)] at hq
      omega
    have hmul : micro_rows * cols ≤ rows * cols := Nat.mul_le_mul_right _ hle
    have hoff : i * (micro_rows / 16) * 16 * cols = i * micro_rows * cols := by
      rw [Nat.mul_assoc i, hmr16]
    rw [hoff]
    exact to_bsr_amx_rows fuel sizeof_T g micro_rows cols _ hg1 hacc (by omega)
  unfold reorder_to_bsr_amx
  simp only
  rw [if_neg (by simp [hr])]
  have h := forLoop_collect
    (fun (sparse_data : List bsr_data_t) i =>
      match to_bsr_amx fuel sizeof_T g micro_rows cols 16 1
          (M.drop (i * micro_rows * cols)) with
      | .error e => .error e
      | .ok bsr_data =>
        .ok (sparse_data ++
          [{ block := (16, 1), shape := (rows, cols), indptr := bsr_data.indptr,
             indices := bsr_data.indices, data := bsr_data.data, group := g }]))
    (fun i => amxChunk g rows cols (micro_rows / 16) M (i * (micro_rows / 16)))
    (List.range (rows / micro_rows))
    (fun acc i hi => by
      simp only
      rw [hchunk i hi]
      rfl) []
  rw [List.nil_append] at h
  exact h

/-! ## Claim on partition independence -/

theorem chunks_indices (g rows cols p : Nat) (M : List Int) (q : Nat) :
    ((List.range q).map fun i => amxChunk g rows cols p M (i * p)).flatMap (fun c => c.indices)
      = gcolsUpTo g M cols 16 1 (q * p) := by
  rw [List.flatMap_map]
  unfold gcolsUpTo
  rw [flatMap_range_mul]
  apply flatMap_range_congr
  intro i _
  show gcolsUpTo g (M.drop (i * p * 16 * cols)) cols 16 1 p = _
  rw [gcolsUpTo_drop]

theorem chunks_data (g rows cols p : Nat) (M : List Int) (q : Nat) :
    ((List.range q).map fun i => amxChunk g rows cols p M (i * p)).flatMap (fun c => c.data)
      = (List.range (q * p)).flatMap (amxRow g M cols) := by
  rw [List.flatMap_map, flatMap_range_mul]
  apply flatMap_range_congr
  intro i _
  show (List.range p).flatMap (amxRow g (M.drop (i * p * 16 * cols)) cols) = _
  apply flatMap_range_congr
  intro l _
  exact amxRow_drop g M cols (i * p) l

theorem chunks_groups (g rows cols p : Nat) (M : List Int) (hg1 : 1 ≤ g) (i : Nat) :
    (((List.range i).map fun j => amxChunk g rows cols p M (j * p)).map
        fun c => c.indices.length / g).sum
      = (gcolsUpTo g M cols 16 1 (i * p)).length / g := by
  induction i with
  | zero => simp [gcolsUpTo]
  | succ i ih =>
    rw [List.range_succ, List.map_append, List.map_append, List.sum_append, ih,
      show (i + 1) * p = i * p + p by ring, groups_add g M cols (i * p) p hg1]
    simp [amxChunk, Nat.add_comm]

/-- C10: for `micro_rows % 16 = 0`, `rows % micro_rows = 0`, every accepted group size
(`g = 1`, or `g = 64 / sizeof(T)`) and enough fuel, `reorder_to_bsr_amx` returns
`rows / micro_rows` structures whose column indices, concatenated in chunk order, are the
column indices of the single call `to_bsr_amx rows cols 16 1 M`, whose data concatenated
are its data, and the single call's row pointer at block-row `i*(micro_rows/16) + l`
is chunk `i`'s row pointer at `l` plus the number of groups of chunks `0 .. i-1`. -/
theorem partition_independence (fuel sizeof_T g rows cols micro_rows : Nat) (M : List Int)
    (hg1 : 1 ≤ g) (hacc : g = 1 ∨ g = 64 / sizeof_T) (hmr : micro_rows % 16 = 0)
    (hr : rows % micro_rows = 0) (hfuel : g + cols + rows * cols ≤ fuel) :
    ∃ chunks whole,
      reorder_to_bsr_amx fuel sizeof_T g rows cols micro_rows M = .ok chunks
      ∧ to_bsr_amx fuel sizeof_T g rows cols 16 1 M = .ok whole
      ∧ chunks.length = rows / micro_rows
      ∧ chunks.flatMap (fun c => c.indices) = whole.indices
      ∧ chunks.flatMap (fun c => c.data) = whole.data
      ∧ ∀ i l c, chunks[i]? = some c → l ≤ micro_rows / 16 →
          whole.indptr.getD (i * (micro_rows / 16) + l) 0
            = c.indptr.getD l 0
              + ((chunks.take i).map fun c' => c'.indices.length / g).sum := by
  have hrows : rows / 16 = rows / micro_rows * (micro_rows / 16) := by
    have h1 : rows / micro_rows * micro_rows = rows :=
      Nat.div_mul_cancel (Nat.dvd_of_mod_eq_zero hr)
    have h2 : micro_rows / 16 * 16 = micro_rows :=
      Nat.div_mul_cancel (Nat.dvd_of_mod_eq_zero hmr)
    have h3 : rows = rows / micro_rows * (micro_rows / 16) * 16 := by
      rw [Nat.mul_assoc, h2, h1]
    conv_lhs => rw [h3]
    exact Nat.mul_div_cancel _ (by decide)
  refine ⟨_, _,
    reorder_to_bsr_amx_eq fuel sizeof_T g rows cols micro_rows M hg1 hacc hmr hr hfuel,
    to_bsr_amx_rows fuel sizeof_T g rows cols M hg1 hacc hfuel, by simp, ?_, ?_, ?_⟩
  · simp only
    rw [hrows]
    exact chunks_indices g rows cols _ M _
  · simp only
    rw [hrows]
    exact chunks_data g rows cols _ M _
  · intro i l c hc hl
    simp only
    rw [List.getElem?_map] at hc
    have hi : i < rows / micro_rows := by
      by_contra hcon
      rw [List.getElem?_eq_none (by simp; omega)] at hc
      simp at hc
    rw [List.getElem?_range hi] at hc
    simp only [Option.map_some', Option.some.injEq] at hc
    subst hc
    have hle : i * (micro_rows / 16) + l ≤ rows / micro_rows * (micro_rows / 16) := by
      have h1 : (i + 1) * (micro_rows / 16) ≤ rows / micro_rows * (micro_rows / 16) :=
        Nat.mul_le_mul_right _ hi
      have h2 : (i + 1) * (micro_rows / 16) = i * (micro_rows / 16) + micro_rows / 16 := by ring
      omega
    have htake : List.take i
        ((List.range (rows / micro_rows)).map fun i =>
          amxChunk g rows cols (micro_rows / 16) M (i * (micro_rows / 16)))
        = (List.range i).map fun i =>
          amxChunk g rows cols (micro_rows / 16) M (i * (micro_rows / 16)) := by
      rw [← List.map_take, List.take_range, Nat.min_eq_left (Nat.le_of_lt hi)]
    rw [htake, chunks_groups g rows cols _ M hg1 i, hrows,
      groupPtr_getD _ _ _ _ _ _ _ hle]
    show _ = (groupPtr g (M.drop (i * (micro_rows / 16) * 16 * cols)) cols 16 1
      (micro_rows / 16)).getD l 0 + _
    rw [groupPtr_getD _ _ _ _ _ _ _ hl]
    exact groups_add g M cols _ l hg1

theorem partition_independence_witness :
    ∃ chunks whole c,
      reorder_to_bsr_amx 200 32 2 32 2 16 (example_16x2 ++ example_16x2) = .ok chunks
      ∧ to_bsr_amx 200 32 2 32 2 16 1 (example_16x2 ++ example_16x2) = .ok whole
      ∧ chunks.flatMap (fun c => c.indices) = whole.indices
      ∧ chunks.flatMap (fun c => c.data) = whole.data
      ∧ chunks[1]? = some c
      ∧ whole.indptr.getD (1 * (16 / 16) + 1) 0
          = c.indptr.getD 1 0 + ((chunks.take 1).map fun c' => c'.indices.length / 2).sum := by
  obtain ⟨chunks, whole, h1, h2, _, h4, h5, h6⟩ :=
    partition_independence 200 32 2 32 2 16 (example_16x2 ++ example_16x2)
      (by decide) (Or.inr (by decide)) (by decide) (by decide) (by decide)
  have hev : reorder_to_bsr_amx 200 32 2 32 2 16 (example_16x2 ++ example_16x2)
      = .ok [{ block := (16, 1), shape := (32, 2), indptr := [0, 1], indices := [0, 0],
               data := [1, 0, 0, 0, 0, 0, 0, 0, 0, 0, 0, 0, 0, 0, 0, 0,
                        0, 0, 0, 0, 0, 0, 0, 0, 0, 0, 0, 0, 0, 0, 7, 0],
               group := 2 },
             { block := (16, 1), shape := (32, 2), indptr := [0, 1], indices := [0, 0],
               data := [1, 0, 0, 0, 0, 0, 0, 0, 0, 0, 0, 0, 0, 0, 0, 0,
                        0, 0, 0, 0, 0, 0, 0, 0, 0, 0, 0, 0, 0, 0, 7, 0],
               group := 2 }] := by
    rfl
  rw [hev] at h1
  cases h1
  exact ⟨_, whole, _, hev, h2, h4, h5, rfl, h6 1 1 _ rfl (by decide)⟩

/-! ## Preconditions -/

/-- C12 (evaluation at a failing input): on a 3x2 matrix with block shape (2,1), where
`rows % blk_row = 1`, `tobsr` returns a structure for the first block-row only and drops
the third row, while `tobsc` stops at its assertion on the same input. -/
theorem tobsr_rounds_down_non_dividing_shape :
    tobsr 3 2 2 1 [1, 2, 3, 4, 5, 6]
        = { block := (2, 1), shape := (3, 2), indptr := [0, 2], indices := [0, 1],
            data := [1, 3, 2, 4], group := 1 }
    ∧ tobsc 3 2 2 1 [1, 2, 3, 4, 5, 6] = .error .assert_failed :=
  ⟨by decide, rfl⟩

theorem reorder_to_bsr_amx_ok (fuel sizeof_T g rows cols micro_rows : Nat) (M : List Int)
    (hg1 : 1 ≤ g) (hacc : g = 1 ∨ g = 64 / sizeof_T) (hr : rows % micro_rows = 0)
    (hfuel : g + cols + rows * cols ≤ fuel) :
    reorder_to_bsr_amx fuel sizeof_T g rows cols micro_rows M
      = .ok ((List.range (rows / micro_rows)).map (amxChunkOf g rows cols micro_rows M)) := by
  have hchunk : ∀ i, i ∈ List.range (rows / micro_rows) →
      to_bsr_amx fuel sizeof_T g micro_rows cols 16 1 (M.drop (i * micro_rows * cols))
        = .ok { block := (16, 1), shape := (micro_rows, cols),
                indptr := groupPtr g (M.drop (i * micro_rows * cols)) cols 16 1
                  (micro_rows / 16),
                indices := gcolsUpTo g (M.drop (i * micro_rows * cols)) cols 16 1
                  (micro_rows / 16),
                data := (List.range (micro_rows / 16)).flatMap
                  (amxRow g (M.drop (i * micro_rows * cols)) cols),
                group := g } := by
    intro i hi
    have hq : 0 < rows / micro_rows := by
      have := List.mem_range.1 hi
      omega
    have hle : micro_rows ≤ rows := by
      by_contra hcon
      rw [Nat.div_eq_of_lt (by omega)] at hq
      omega
    have hmul : micro_rows * cols ≤ rows * cols := Nat.mul_le_mul_right _ hle
    exact to_bsr_amx_rows fuel sizeof_T g micro_rows cols _ hg1 hacc (by omega)
  unfold reorder_to_bsr_amx
  simp only
  rw [if_neg (by simp [hr])]
  have h := forLoop_collect
    (fun (sparse_data : List bsr_data_t) i =>
      match to_bsr_amx fuel sizeof_T g micro_rows cols 16 1
          (M.drop (i * micro_rows * cols)) with
      | .error e => .error e
      | .ok bsr_data =>
        .ok (sparse_data ++
          [{ block := (16, 1), shape := (rows, cols), indptr := bsr_data.indptr,
             indices := bsr_data.indices, data := bsr_data.data, group := g }]))
    (amxChunkOf g rows cols micro_rows M)
    (List.range (rows / micro_rows))
    (fun acc i hi => by
      simp only
      rw [hchunk i hi]
      rfl) []
  rw [List.nil_append] at h
  exact h

/-- C13: when `rows % micro_rows ≠ 0`, `reorder_to_bsr_amx` stops at its assertion, whatever
the fuel, the group and the buffer, and returns no collection; when
`rows % micro_rows = 0` (group accepted, enough fuel) it returns a collection, so the
assertion does not fire. -/
theorem reorder_micro_row_precondition (fuel sizeof_T g rows cols micro_rows : Nat)
    (M : List Int) :
    (rows % micro_rows ≠ 0 →
      reorder_to_bsr_amx fuel sizeof_T g rows cols micro_rows M = .error .assert_failed)
    ∧ (rows % micro_rows = 0 → 1 ≤ g → (g = 1 ∨ g = 64 / sizeof_T) →
        g + cols + rows * cols ≤ fuel →
        ∃ chunks, reorder_to_bsr_amx fuel sizeof_T g rows cols micro_rows M = .ok chunks) := by
  constructor
  · intro h
    unfold reorder_to_bsr_amx
    simp only
    rw [if_pos h]
  · intro hr hg1 hacc hfuel
    exact ⟨_, reorder_to_bsr_amx_ok fuel sizeof_T g rows cols micro_rows M hg1 hacc hr hfuel⟩

theorem reorder_micro_row_precondition_witness :
    reorder_to_bsr_amx 0 32 2 33 2 16 [] = .error .assert_failed
    ∧ ∃ chunks, reorder_to_bsr_amx 200 32 2 32 2 16 (example_16x2 ++ example_16x2)
        = .ok chunks :=
  ⟨(reorder_micro_row_precondition 0 32 2 33 2 16 []).1 (by decide),
   (reorder_micro_row_precondition 200 32 2 32 2 16 (example_16x2 ++ example_16x2)).2
     (by decide) (by decide) (Or.inr (by decide)) (by decide)⟩

/-! ## Degenerate inputs of `tobsr` -/

theorem getD_zero_of_all_zero (M : List Int) (h : ∀ x, x ∈ M → x = 0) (p : Nat) :
    M.getD p 0 = 0 := by
  by_cases hp : p < M.length
  · rw [List.getD_eq_getElem _ _ hp]
    exact h _ (List.getElem_mem _)
  · exact List.getD_eq_default _ _ (by omega)

theorem nzcols_all_zero (M : List Int) (h : ∀ x, x ∈ M → x = 0) (cols br bc b : Nat) :
    nzcols M cols br bc b = [] := by
  unfold nzcols
  rw [List.filter_eq_nil_iff]
  intro c _
  rw [Bool.not_eq_true, Bool.not_eq_false', is_zero_iff]
  intro i j _ _
  exact getD_zero_of_all_zero M h _

theorem nzcols_all_nonzero (M : List Int) (cols br bc b : Nat)
    (h : ∀ c, c < cols / bc →
      ∃ i j, i < br ∧ j < bc ∧ M.getD ((b * br + i) * cols + (c * bc + j)) 0 ≠ 0) :
    nzcols M cols br bc b = List.range (cols / bc) := by
  unfold nzcols
  rw [List.filter_eq_self]
  intro c hc
  have hmem := (mem_nzcols M cols br bc b c).2 ⟨List.mem_range.1 hc, h c (List.mem_range.1 hc)⟩
  unfold nzcols at hmem
  exact (List.mem_filter.1 hmem).2

/-- C14: `tobsr` returns on an all-zero matrix a structure whose `rowptr` consists of
`rows / blk_row + 1` zeros and whose `colidxs` and `data` are empty; on a matrix in which
every block holds a nonzero element, `rowptr[b] = b * (cols / blk_col)` for every `b` and
every block-row slice of `colidxs` is `[0, 1, ..., cols / blk_col - 1]`. -/
theorem tobsr_degenerate_inputs (rows cols blk_row blk_col : Nat) (M : List Int) :
    ((∀ x, x ∈ M → x = 0) →
      (tobsr rows cols blk_row blk_col M).indptr = List.replicate (rows / blk_row + 1) 0
      ∧ (tobsr rows cols blk_row blk_col M).indices = []
      ∧ (tobsr rows cols blk_row blk_col M).data = [])
    ∧ ((∀ b c, b < rows / blk_row → c < cols / blk_col →
          ∃ i j, i < blk_row ∧ j < blk_col
            ∧ M.getD ((b * blk_row + i) * cols + (c * blk_col + j)) 0 ≠ 0) →
      (∀ b, b ≤ rows / blk_row →
        (tobsr rows cols blk_row blk_col M).indptr.getD b 0 = b * (cols / blk_col))
      ∧ ∀ b, b < rows / blk_row →
        slice (tobsr rows cols blk_row blk_col M).indices
            ((tobsr rows cols blk_row blk_col M).indptr.getD b 0)
            ((tobsr rows cols blk_row blk_col M).indptr.getD (b + 1) 0)
          = List.range (cols / blk_col)) := by
  constructor
  · intro h
    have hcols : ∀ n, colsUpTo M cols blk_row blk_col n = [] := by
      intro n
      unfold colsUpTo
      induction n with
      | zero => rfl
      | succ n ih => rw [flatMap_range_succ, ih, nzcols_all_zero M h, List.append_nil]
    have hdata : ∀ n, dataUpTo M cols blk_row blk_col n = [] := by
      intro n
      unfold dataUpTo
      induction n with
      | zero => rfl
      | succ n ih =>
        rw [flatMap_range_succ, ih, nzcols_all_zero M h]
        rfl
    refine ⟨?_, ?_, ?_⟩
    · rw [tobsr_indptr]
      apply List.ext_getElem?
      intro p
      rw [List.getElem?_map, List.getElem?_replicate]
      by_cases hp : p < rows / blk_row + 1
      · rw [List.getElem?_range hp, if_pos hp, Option.map_some', hcols]
        rfl
      · rw [List.getElem?_eq_none (by simp; omega), if_neg hp]
        rfl
    · rw [tobsr_indices, hcols]
    · rw [tobsr_data, hdata]
  · intro h
    have hlen : ∀ b, b ≤ rows / blk_row →
        (colsUpTo M cols blk_row blk_col b).length = b * (cols / blk_col) := by
      intro b hb
      unfold colsUpTo
      rw [length_flatMap_const _ (cols / blk_col) _ (fun x hx => by
        have hx' := List.mem_range.1 hx
        rw [nzcols_all_nonzero M cols blk_row blk_col x
          (fun c hc => h x c (Nat.lt_of_lt_of_le hx' hb) hc), List.length_range]),
        List.length_range]
    constructor
    · intro b hb
      rw [tobsr_indptr_getD _ _ _ _ _ _ hb, hlen b hb]
    · intro b hb
      rw [tobsr_slice rows cols blk_row blk_col M b hb]
      exact nzcols_all_nonzero M cols blk_row blk_col b (fun c hc => h b c hb hc)

theorem tobsr_degenerate_inputs_witness :
    ((tobsr 4 4 2 2 (List.replicate 16 0)).indptr = List.replicate (4 / 2 + 1) 0
      ∧ (tobsr 4 4 2 2 (List.replicate 16 0)).indices = []
      ∧ (tobsr 4 4 2 2 (List.replicate 16 0)).data = [])
    ∧ (tobsr 2 2 1 1 [1, 2, 3, 4]).indptr.getD 2 0 = 2 * (2 / 1)
    ∧ slice (tobsr 2 2 1 1 [1, 2, 3, 4]).indices
          ((tobsr 2 2 1 1 [1, 2, 3, 4]).indptr.getD 1 0)
          ((tobsr 2 2 1 1 [1, 2, 3, 4]).indptr.getD (1 + 1) 0)
        = List.range (2 / 1) := by
  have hfull : ∀ b c, b < 2 / 1 → c < 2 / 1 →
      ∃ i j, i < 1 ∧ j < 1
        ∧ ([1, 2, 3, 4] : List Int).getD ((b * 1 + i) * 2 + (c * 1 + j)) 0 ≠ 0 := by
    intro b c hb hc
    have hb2 : b < 2 := hb
    have hc2 : c < 2 := hc
    refine ⟨0, 0, by decide, by decide, ?_⟩
    interval_cases b <;> interval_cases c <;> decide
  exact ⟨(tobsr_degenerate_inputs 4 4 2 2 (List.replicate 16 0)).1 (by decide),
    ((tobsr_degenerate_inputs 2 2 1 1 [1, 2, 3, 4]).2 hfull).1 2 (by decide),
    ((tobsr_degenerate_inputs 2 2 1 1 [1, 2, 3, 4]).2 hfull).2 1 (by decide)⟩

/-! ## Group row pointer and real-count recovery -/

theorem padRow_groups (g : Nat) (sl : List Nat) (hg1 : 1 ≤ g) :
    (padRow g sl).length / g = (sl.length + g - 1) / g := by
  have h1 := div_mul_length_padRow g sl hg1
  have h2 := length_padRow_ge g sl
  have h3 := length_padRow_lt g sl hg1
  symm
  apply Nat.div_eq_of_lt_le
  · rw [h1]; omega
  · rw [Nat.add_mul, Nat.one_mul, h1]; omega

theorem groupPtr_length (g : Nat) (M : List Int) (cols br bc n : Nat) :
    (groupPtr g M cols br bc n).length = n + 1 := by
  simp [groupPtr]

theorem groupPtr_head (g : Nat) (M : List Int) (cols br bc n : Nat) :
    (groupPtr g M cols br bc n).head? = some 0 := by
  unfold groupPtr
  rw [List.range_succ_eq_map]
  simp [gcolsUpTo]

theorem groupPtr_sorted (g : Nat) (M : List Int) (cols br bc n : Nat) :
    (groupPtr g M cols br bc n).Pairwise (· ≤ ·) := by
  unfold groupPtr
  rw [List.pairwise_map]
  exact (List.pairwise_lt_range _).imp fun h => groups_mono g M cols br bc _ _ (Nat.le_of_lt h)

theorem groupPtr_last (g : Nat) (M : List Int) (cols br bc n : Nat) :
    (groupPtr g M cols br bc n).getLast? = some ((gcolsUpTo g M cols br bc n).length / g) := by
  unfold groupPtr
  rw [List.range_succ, List.map_append]
  simp

/-- C17: for every block shape of at least 16 elements (Stage C moves 16 elements per
block, so the code overruns `data` and `new_data` on smaller blocks), every accepted group
size `g ≥ 2` and enough fuel, the row pointer returned by `to_bsr_amx` has the length of `tobsr`'s `rowptr`, starts at 0, is non-decreasing, grows
at block-row `b` by `ceil((rowptr[b+1] - rowptr[b]) / g)` (by 0 for a block-row without
nonzero block), and ends with `colidxs.length / g` of the grouped column indices. -/
theorem to_bsr_amx_group_rowptr (fuel sizeof_T g rows cols blk_row blk_col : Nat)
    (M : List Int) (_hblk : 16 ≤ blk_row * blk_col) (hg2 : 2 ≤ g) (hacc : g = 64 / sizeof_T)
    (hfuel : g + cols + rows * cols ≤ fuel) :
    ∃ r, to_bsr_amx fuel sizeof_T g rows cols blk_row blk_col M = .ok r
      ∧ r.indptr.length = (tobsr rows cols blk_row blk_col M).indptr.length
      ∧ r.indptr.head? = some 0
      ∧ r.indptr.Pairwise (· ≤ ·)
      ∧ (∀ b, b < rows / blk_row →
          r.indptr.getD (b + 1) 0 - r.indptr.getD b 0
            = ((tobsr rows cols blk_row blk_col M).indptr.getD (b + 1) 0
                - (tobsr rows cols blk_row blk_col M).indptr.getD b 0 + g - 1) / g)
      ∧ (∀ b, b < rows / blk_row →
          (tobsr rows cols blk_row blk_col M).indptr.getD (b + 1) 0
              = (tobsr rows cols blk_row blk_col M).indptr.getD b 0 →
          r.indptr.getD (b + 1) 0 = r.indptr.getD b 0)
      ∧ r.indptr.getLast? = some (r.indices.length / g) := by
  have hg1 : 1 ≤ g := by omega
  obtain ⟨c, _, hr⟩ := to_bsr_amx_eq fuel sizeof_T g rows cols blk_row blk_col M hg2 hacc hfuel
  have hdiff : ∀ b, b < rows / blk_row →
      (groupPtr g M cols blk_row blk_col (rows / blk_row)).getD (b + 1) 0
        - (groupPtr g M cols blk_row blk_col (rows / blk_row)).getD b 0
      = ((tobsr rows cols blk_row blk_col M).indptr.getD (b + 1) 0
          - (tobsr rows cols blk_row blk_col M).indptr.getD b 0 + g - 1) / g := by
    intro b hb
    rw [groupPtr_diff g M cols blk_row blk_col _ b hb hg1,
      tobsr_indptr_diff rows cols blk_row blk_col M b hb, padRow_groups g _ hg1]
  refine ⟨_, hr, ?_, groupPtr_head _ _ _ _ _ _, groupPtr_sorted _ _ _ _ _ _, hdiff, ?_,
    groupPtr_last _ _ _ _ _ _⟩
  · simp only
    rw [groupPtr_length, tobsr_indptr_length]
  · intro b hb heq
    simp only
    have h1 := hdiff b hb
    have h2 := groupPtr_mono g M cols blk_row blk_col (rows / blk_row) hg1 b hb
    rw [heq, Nat.sub_self, Nat.zero_add, Nat.div_eq_of_lt (show g - 1 < g by omega)] at h1
    omega

theorem to_bsr_amx_group_rowptr_witness :
    ∃ r, to_bsr_amx 64 32 2 16 2 16 1 example_16x2 = .ok r
      ∧ r.indptr.length = (tobsr 16 2 16 1 example_16x2).indptr.length
      ∧ r.indptr.head? = some 0
      ∧ r.indptr.Pairwise (· ≤ ·)
      ∧ r.indptr.getD (0 + 1) 0 - r.indptr.getD 0 0
          = ((tobsr 16 2 16 1 example_16x2).indptr.getD (0 + 1) 0
              - (tobsr 16 2 16 1 example_16x2).indptr.getD 0 0 + 2 - 1) / 2
      ∧ r.indptr.getLast? = some (r.indices.length / 2) :=
  match to_bsr_amx_group_rowptr 64 32 2 16 2 16 1 example_16x2 (by decide) (by decide)
      (by decide) (by decide) with
  | ⟨r, hr, h1, h2, h3, h4, _, h6⟩ => ⟨r, hr, h1, h2, h3, h4 0 (by decide), h6⟩

/-- C16: for every block shape of at least 16 elements (Stage C moves 16 elements per
block, so the code overruns `data` and `new_data` on smaller blocks), every accepted group
size `g ≥ 2` and enough fuel, in the structure returned
by `to_bsr_amx`, for every block-row `b` with `n` genuine column indices and every group
`k < ceil(n / g)` of that row, the scan of Stage B started at the group's second slot
stops with `b_cnt = min g (n - k * g)`. On the grouped slice `[2,5,9,9]` with `g = 4`
the scan returns 3. -/
theorem to_bsr_amx_real_count (fuel sizeof_T g rows cols blk_row blk_col : Nat)
    (M : List Int) (_hblk : 16 ≤ blk_row * blk_col) (hg2 : 2 ≤ g) (hacc : g = 64 / sizeof_T)
    (hfuel : g + cols + rows * cols ≤ fuel) :
    (∃ r, to_bsr_amx fuel sizeof_T g rows cols blk_row blk_col M = .ok r
      ∧ ∀ b k n, b < rows / blk_row →
          n = (tobsr rows cols blk_row blk_col M).indptr.getD (b + 1) 0
              - (tobsr rows cols blk_row blk_col M).indptr.getD b 0 →
          k < (n + g - 1) / g →
          amx_count_loop fuel g r.indices ((r.indptr.getD b 0 + k) * g + 1, 1)
            = .ok ((r.indptr.getD b 0 + k) * g + min g (n - k * g), min g (n - k * g)))
    ∧ amx_count_loop 4 4 [2, 5, 9, 9] (0 * 4 + 1, 1) = .ok (3, 3) := by
  have hg1 : 1 ≤ g := by omega
  refine ⟨?_, rfl⟩
  obtain ⟨c, _, hr⟩ := to_bsr_amx_eq fuel sizeof_T g rows cols blk_row blk_col M hg2 hacc hfuel
  refine ⟨_, hr, ?_⟩
  intro b k n hb hn hk
  simp only
  rw [tobsr_indptr_diff rows cols blk_row blk_col M b hb] at hn
  subst hn
  rw [← padRow_groups g _ hg1] at hk
  rw [groupPtr_getD _ _ _ _ _ _ _ (Nat.le_of_lt hb)]
  exact tobsr_count fuel g rows cols blk_row blk_col M hg1 (by omega) b hb k hk

theorem to_bsr_amx_real_count_witness :
    (∃ r, to_bsr_amx 64 32 2 16 2 16 1 example_16x2 = .ok r
      ∧ amx_count_loop 64 2 r.indices ((r.indptr.getD 0 0 + 0) * 2 + 1, 1)
          = .ok ((r.indptr.getD 0 0 + 0) * 2 + min 2 (1 - 0 * 2), min 2 (1 - 0 * 2)))
    ∧ amx_count_loop 4 4 [2, 5, 9, 9] (0 * 4 + 1, 1) = .ok (3, 3) :=
  match to_bsr_amx_real_count 64 32 2 16 2 16 1 example_16x2 (by decide) (by decide)
      (by decide) (by decide) with
  | ⟨⟨r, hr, h⟩, h2⟩ => ⟨⟨r, hr, h 0 0 1 (by decide) (by decide) (by decide)⟩, h2⟩

/-! ## Reads of the dense buffer stay inside the matrix -/

theorem dense_index_lt (rows cols br bc b c i j : Nat) (hb : b < rows / br) (hc : c < cols / bc)
    (hi : i < br) (hj : j < bc) : b * br * cols + c * bc + (i * cols + j) < rows * cols := by
  have h1 : (b + 1) * br ≤ rows / br * br := Nat.mul_le_mul_right _ hb
  have h2 : rows / br * br ≤ rows := Nat.div_mul_le_self _ _
  have h3 : (c + 1) * bc ≤ cols / bc * bc := Nat.mul_le_mul_right _ hc
  have h4 : cols / bc * bc ≤ cols := Nat.div_mul_le_self _ _
  have h5 : (b + 1) * br = b * br + br := by ring
  have h6 : (c + 1) * bc = c * bc + bc := by ring
  have hrow : b * br + i + 1 ≤ rows := by omega
  have hcol : c * bc + j + 1 ≤ cols := by omega
  have h7 : (b * br + i + 1) * cols ≤ rows * cols := Nat.mul_le_mul_right _ hrow
  have h8 : (b * br + i + 1) * cols = b * br * cols + i * cols + cols := by ring
  omega

theorem getD_take (M : List Int) (n p : Nat) (hp : p < n) :
    (M.take n).getD p 0 = M.getD p 0 := by
  simp [List.getD_eq_getElem?_getD, List.getElem?_take, hp]

theorem is_zero_take (M : List Int) (n rows cols br bc b c : Nat) (hn : rows * cols ≤ n)
    (hb : b < rows / br) (hc : c < cols / bc) :
    is_zero (M.take n) cols br bc (b * br * cols + c * bc)
      = is_zero M cols br bc (b * br * cols + c * bc) := by
  rw [Bool.eq_iff_iff, is_zero_iff, is_zero_iff]
  constructor
  · intro h i j hi hj
    rw [← getD_take M n _ (Nat.lt_of_lt_of_le (dense_index_lt rows cols br bc b c i j hb hc hi hj) hn)]
    exact h i j hi hj
  · intro h i j hi hj
    rw [getD_take M n _ (Nat.lt_of_lt_of_le (dense_index_lt rows cols br bc b c i j hb hc hi hj) hn)]
    exact h i j hi hj

theorem nzcols_take (M : List Int) (n rows cols br bc b : Nat) (hn : rows * cols ≤ n)
    (hb : b < rows / br) : nzcols (M.take n) cols br bc b = nzcols M cols br bc b := by
  unfold nzcols
  apply List.filter_congr
  intro c hc
  rw [is_zero_take M n rows cols br bc b c hn hb (List.mem_range.1 hc)]

theorem getD_nzcols_lt (M : List Int) (cols br bc b t : Nat)
    (ht : t < (nzcols M cols br bc b).length) : (nzcols M cols br bc b).getD t 0 < cols / bc := by
  rw [List.getD_eq_getElem _ _ ht]
  exact ((mem_nzcols M cols br bc b _).1 (List.getElem_mem _)).1

theorem amxTileOf_take (g : Nat) (M : List Int) (n rows cols b k : Nat) (hn : rows * cols ≤ n)
    (hb : b < rows / 16) :
    amxTileOf g (M.take n) cols b k = amxTileOf g M cols b k := by
  unfold amxTileOf
  rw [nzcols_take M n rows cols 16 1 b hn hb]
  apply flatMap_range_congr
  intro i hi
  apply List.map_congr_left
  intro s _
  by_cases hgen : k * g + s < (nzcols M cols 16 1 b).length
  · rw [if_pos hgen, if_pos hgen]
    have hlt := getD_nzcols_lt M cols 16 1 b (k * g + s) hgen
    have hidx := dense_index_lt rows cols 16 1 b ((nzcols M cols 16 1 b).getD (k * g + s) 0) i 0
      hb hlt hi (by omega)
    have e : (b * 16 + i) * cols + (nzcols M cols 16 1 b).getD (k * g + s) 0
        = b * 16 * cols + (nzcols M cols 16 1 b).getD (k * g + s) 0 * 1 + (i * cols + 0) := by
      ring
    rw [getD_take M n _ (by rw [e]; omega)]
  · rw [if_neg hgen, if_neg hgen]

theorem amxRow_take (g : Nat) (M : List Int) (n rows cols b : Nat) (hn : rows * cols ≤ n)
    (hb : b < rows / 16) : amxRow g (M.take n) cols b = amxRow g M cols b := by
  unfold amxRow
  rw [nzcols_take M n rows cols 16 1 b hn hb]
  apply flatMap_range_congr
  intro k _
  exact amxTileOf_take g M n rows cols b k hn hb

theorem gcolsUpTo_take (g : Nat) (M : List Int) (n rows cols br bc m : Nat) (hn : rows * cols ≤ n)
    (hm : m ≤ rows / br) :
    gcolsUpTo g (M.take n) cols br bc m = gcolsUpTo g M cols br bc m := by
  unfold gcolsUpTo
  apply flatMap_range_congr
  intro b hb
  rw [nzcols_take M n rows cols br bc b hn (by omega)]

theorem groupPtr_take (g : Nat) (M : List Int) (n rows cols br bc : Nat) (hn : rows * cols ≤ n) :
    groupPtr g (M.take n) cols br bc (rows / br) = groupPtr g M cols br bc (rows / br) := by
  unfold groupPtr
  apply List.map_congr_left
  intro b hb
  rw [gcolsUpTo_take g M n rows cols br bc b hn (Nat.le_of_lt_succ (List.mem_range.1 hb))]

/-- The call `to_bsr_amx rows cols 16 1` only depends on the first `rows * cols` elements
of the buffer. -/
theorem to_bsr_amx_take (fuel sizeof_T g rows cols : Nat) (M : List Int) (hg1 : 1 ≤ g)
    (hacc : g = 1 ∨ g = 64 / sizeof_T) (hfuel : g + cols + rows * cols ≤ fuel) :
    to_bsr_amx fuel sizeof_T g rows cols 16 1 (M.take (rows * cols))
      = to_bsr_amx fuel sizeof_T g rows cols 16 1 M := by
  rw [to_bsr_amx_rows fuel sizeof_T g rows cols _ hg1 hacc hfuel,
    to_bsr_amx_rows fuel sizeof_T g rows cols _ hg1 hacc hfuel,
    groupPtr_take g M _ rows cols 16 1 (Nat.le_refl _),
    gcolsUpTo_take g M _ rows cols 16 1 _ (Nat.le_refl _) (Nat.le_refl _),
    flatMap_range_congr _ _ _ (fun b hb => amxRow_take g M _ rows cols b (Nat.le_refl _) hb)]

/-! ## Output of the partitioner -/

/-- C11: for `rows % micro_rows = 0`, an accepted group (`g = 1` or `g = 64 / sizeof(T)`)
and enough fuel, `reorder_to_bsr_amx` returns exactly `rows / micro_rows` structures, and
the `i`-th one has block shape (16, 1), group tag `g`, and the row pointer, column indices
and data of `to_bsr_amx micro_rows cols 16 1 M'`, where `M'` is the sub-view made of rows
`i * micro_rows .. (i + 1) * micro_rows - 1` of `M`. -/
theorem reorder_to_bsr_amx_output (fuel sizeof_T g rows cols micro_rows : Nat) (M : List Int)
    (hg1 : 1 ≤ g) (hacc : g = 1 ∨ g = 64 / sizeof_T) (hr : rows % micro_rows = 0)
    (hfuel : g + cols + rows * cols ≤ fuel) :
    ∃ chunks, reorder_to_bsr_amx fuel sizeof_T g rows cols micro_rows M = .ok chunks
      ∧ chunks.length = rows / micro_rows
      ∧ ∀ i, i < rows / micro_rows →
          ∃ c r, chunks[i]? = some c
            ∧ to_bsr_amx fuel sizeof_T g micro_rows cols 16 1
                ((M.drop (i * micro_rows * cols)).take (micro_rows * cols)) = .ok r
            ∧ c.block = (16, 1) ∧ c.group = g
            ∧ c.indptr = r.indptr ∧ c.indices = r.indices ∧ c.data = r.data := by
  refine ⟨_, reorder_to_bsr_amx_ok fuel sizeof_T g rows cols micro_rows M hg1 hacc hr hfuel,
    by simp, ?_⟩
  intro i hi
  have hle : micro_rows ≤ rows := by
    by_contra hcon
    rw [Nat.div_eq_of_lt (by omega)] at hi
    omega
  have hmul : micro_rows * cols ≤ rows * cols := Nat.mul_le_mul_right _ hle
  have hf : g + cols + micro_rows * cols ≤ fuel := by omega
  refine ⟨amxChunkOf g rows cols micro_rows M i,
    { amxChunkOf g rows cols micro_rows M i with shape := (micro_rows, cols) },
    ?_, ?_, rfl, rfl, rfl, rfl, rfl⟩
  · rw [List.getElem?_map, List.getElem?_range hi]
    rfl
  · rw [to_bsr_amx_take fuel sizeof_T g micro_rows cols _ hg1 hacc hf]
    exact to_bsr_amx_rows fuel sizeof_T g micro_rows cols _ hg1 hacc hf

theorem reorder_to_bsr_amx_output_witness :
    ∃ chunks, reorder_to_bsr_amx 200 32 2 32 2 16 (example_16x2 ++ example_16x2) = .ok chunks
      ∧ chunks.length = 32 / 16
      ∧ ∃ c r, chunks[1]? = some c
          ∧ to_bsr_amx 200 32 2 16 2 16 1
              (((example_16x2 ++ example_16x2).drop (1 * 16 * 2)).take (16 * 2)) = .ok r
          ∧ c.block = (16, 1) ∧ c.group = 2
          ∧ c.indptr = r.indptr ∧ c.indices = r.indices ∧ c.data = r.data :=
  match reorder_to_bsr_amx_output 200 32 2 32 2 16 (example_16x2 ++ example_16x2)
      (by decide) (Or.inr (by decide)) (by decide) (by decide) with
  | ⟨chunks, h1, h2, h3⟩ => ⟨chunks, h1, h2, h3 1 (by decide)⟩

/-- C15 (counterexample): with `rows = 32`, `micro_rows = 16`, the first structure returned
by `reorder_to_bsr_amx` records the matrix shape (32, 2) and block shape (16, 1) but its row
pointer has 2 entries, not `32 / 16 + 1 = 3`. -/
theorem chunk_rowptr_length_counterexample :
    16 % 16 = 0 ∧ 32 % 16 = 0
    ∧ ∃ chunks c, reorder_to_bsr_amx 200 32 2 32 2 16 (example_16x2 ++ example_16x2)
          = .ok chunks
        ∧ c ∈ chunks
        ∧ c.indptr.length ≠ c.shape.1 / c.block.1 + 1 := by
  refine ⟨by decide, by decide,
    [{ block := (16, 1), shape := (32, 2), indptr := [0, 1], indices := [0, 0],
       data := [1, 0, 0, 0, 0, 0, 0, 0, 0, 0, 0, 0, 0, 0, 0, 0,
                0, 0, 0, 0, 0, 0, 0, 0, 0, 0, 0, 0, 0, 0, 7, 0],
       group := 2 },
     { block := (16, 1), shape := (32, 2), indptr := [0, 1], indices := [0, 0],
       data := [1, 0, 0, 0, 0, 0, 0, 0, 0, 0, 0, 0, 0, 0, 0, 0,
                0, 0, 0, 0, 0, 0, 0, 0, 0, 0, 0, 0, 0, 0, 7, 0],
       group := 2 }],
    { block := (16, 1), shape := (32, 2), indptr := [0, 1], indices := [0, 0],
      data := [1, 0, 0, 0, 0, 0, 0, 0, 0, 0, 0, 0, 0, 0, 0, 0,
               0, 0, 0, 0, 0, 0, 0, 0, 0, 0, 0, 0, 0, 0, 7, 0],
      group := 2 }, rfl, by decide, by decide⟩

/-- C15 (amended): for `rows % micro_rows = 0`, an accepted group and enough fuel, every
structure returned by `reorder_to_bsr_amx` records block shape (16, 1) and the shape
`(rows, cols)` of the whole matrix, and its row pointer has
`micro_rows / blockRows + 1` entries, `blockRows` being the one recorded on it. -/
theorem chunk_rowptr_length (fuel sizeof_T g rows cols micro_rows : Nat) (M : List Int)
    (hg1 : 1 ≤ g) (hacc : g = 1 ∨ g = 64 / sizeof_T) (hr : rows % micro_rows = 0)
    (hfuel : g + cols + rows * cols ≤ fuel) :
    ∃ chunks, reorder_to_bsr_amx fuel sizeof_T g rows cols micro_rows M = .ok chunks
      ∧ ∀ c, c ∈ chunks →
          c.indptr.length = micro_rows / c.block.1 + 1
          ∧ c.block = (16, 1) ∧ c.shape = (rows, cols) := by
  refine ⟨_, reorder_to_bsr_amx_ok fuel sizeof_T g rows cols micro_rows M hg1 hacc hr hfuel, ?_⟩
  intro c hc
  obtain ⟨i, _, rfl⟩ := List.mem_map.1 hc
  exact ⟨groupPtr_length _ _ _ _ _ _, rfl, rfl⟩

theorem chunk_rowptr_length_witness :
    ∃ chunks, reorder_to_bsr_amx 200 32 2 32 2 16 (example_16x2 ++ example_16x2) = .ok chunks
      ∧ ∀ c, c ∈ chunks →
          c.indptr.length = 16 / c.block.1 + 1
          ∧ c.block = (16, 1) ∧ c.shape = (32, 2) :=
  chunk_rowptr_length 200 32 2 32 2 16 (example_16x2 ++ example_16x2)
    (by decide) (Or.inr (by decide)) (by decide) (by decide)

/-! ## Stage C and the block shape -/

/-- C18 (counterexample): for the 1 x 32 matrix 1, ..., 32 with block shape (1, 16)
(two nonzero blocks) and `g = 2`, the compacted buffer is the matrix itself and
`to_bsr_amx` returns the elements of the two blocks interleaved one by one, whereas row 0
of block 0 followed by row 0 of block 1 is the matrix itself. -/
theorem stage_c_general_shape_counterexample :
    1 % 1 = 0 ∧ 32 % 16 = 0 ∧ 2 = 64 / 32
    ∧ amx_compact 40 2 (1 * 16) (tobsr 1 32 1 16 example_1x32).indptr [0, 1] [0, 1]
        (tobsr 1 32 1 16 example_1x32).data (List.replicate (2 * (1 * 16)) 0, 0)
        = .ok (example_1x32, 32)
    ∧ to_bsr_amx 40 32 2 1 32 1 16 example_1x32
        = .ok { block := (1, 16), shape := (1, 32), indptr := [0, 1], indices := [0, 1],
                data := [1, 17, 2, 18, 3, 19, 4, 20, 5, 21, 6, 22, 7, 23, 8, 24,
                         9, 25, 10, 26, 11, 27, 12, 28, 13, 29, 14, 30, 15, 31, 16, 32],
                group := 2 }
    ∧ slice [1, 17, 2, 18, 3, 19, 4, 20, 5, 21, 6, 22, 7, 23, 8, 24,
             9, 25, 10, 26, 11, 27, 12, 28, 13, 29, 14, 30, 15, 31, 16, 32]
          (0 * 2 * (1 * 16)) ((0 + 1) * 2 * (1 * 16))
        ≠ tileRowsSpec 1 16 2 example_1x32 0 := by
  refine ⟨by decide, by decide, by decide, rfl, rfl, by decide⟩

theorem slice_flatMap_range {α : Type} (f : Nat → List α) (sz m G : Nat)
    (hsz : ∀ x, x < m → (f x).length = sz) (hG : G < m) :
    slice ((List.range m).flatMap f) (G * sz) ((G + 1) * sz) = f G := by
  obtain ⟨rest, hr⟩ := flatMap_range_split f G m hG
  have hlen : ((List.range G).flatMap f).length = G * sz := by
    rw [length_flatMap_const f sz _ (fun x hx => hsz x (by
      have := List.mem_range.1 hx; omega)), List.length_range]
  have h := slice_append_mid ((List.range G).flatMap f) (f G) rest
  rw [hlen, hsz G hG] at h
  rw [hr, show (G + 1) * sz = G * sz + sz by ring]
  exact h

theorem amxTile_eq_spec (g : Nat) (nd : List Int) (G : Nat) :
    amxTile g nd (G * g) = tileRowsSpec 16 1 g nd G := by
  unfold amxTile tileRowsSpec
  apply flatMap_range_congr
  intro i _
  rw [List.range'_eq_map_range, List.map_map]
  have h1 : ∀ (l : List Nat) (F : Nat → Int),
      (l.flatMap fun s => (List.range 1).map fun e => F (s + e)) = l.map fun s => F s := by
    intro l F
    induction l with
    | nil => rfl
    | cons x xs ih =>
      rw [List.flatMap_cons, ih]
      rfl
  have h2 := h1 (List.range g) (fun t => nd.getD ((G * g) * 16 + i + t * 16) 0)
  have h3 : ((List.range g).flatMap fun s =>
        (List.range 1).map fun e => nd.getD ((G * g + s) * (16 * 1) + i * 1 + e) 0)
      = (List.range g).flatMap fun s =>
        (List.range 1).map fun e => nd.getD ((G * g) * 16 + i + s * 16 + e * 16) 0 := by
    apply flatMap_range_congr
    intro s _
    apply List.map_congr_left
    intro e he
    have he0 : e = 0 := by
      have := List.mem_range.1 he
      omega
    subst he0
    congr 1
    ring
  rw [h3]
  have h4 : ((List.range g).flatMap fun s =>
        (List.range 1).map fun e => nd.getD ((G * g) * 16 + i + s * 16 + e * 16) 0)
      = (List.range g).flatMap fun s =>
        (List.range 1).map fun e =>
          (fun t => nd.getD ((G * g) * 16 + i + t * 16) 0) (s + e) := by
    apply flatMap_range_congr
    intro s _
    apply List.map_congr_left
    intro e _
    show nd.getD _ 0 = nd.getD _ 0
    congr 1
    ring
  rw [h4, h2]
  apply List.map_congr_left
  intro s _
  show nd.getD _ 0 = nd.getD _ 0
  congr 1
  ring

/-- C18 (amended): for block shape (16, 1), every accepted group size `g ≥ 2` and enough
fuel, the data returned by `to_bsr_amx` for every run `G` of `g` consecutive blocks of the
compacted buffer (the buffer left by Stage B) consists of, for `rowWithinTile = 0 .. 15`
in that order, the `rowWithinTile`-th row (one element) of each of the `g` blocks of the
run, back to back. -/
theorem stage_c_tile_rows (fuel sizeof_T g rows cols : Nat) (M : List Int) (hg2 : 2 ≤ g)
    (hacc : g = 64 / sizeof_T) (hfuel : g + cols + rows * cols ≤ fuel) :
    ∃ r nd, to_bsr_amx fuel sizeof_T g rows cols 16 1 M = .ok r
      ∧ amx_compact fuel g (16 * 1) (tobsr rows cols 16 1 M).indptr r.indptr r.indices
          (tobsr rows cols 16 1 M).data (List.replicate (r.indices.length * (16 * 1)) 0, 0)
          = .ok (nd, r.indices.length * (16 * 1))
      ∧ ∀ G, G < r.indices.length / g →
          slice r.data (G * (g * (16 * 1))) ((G + 1) * (g * (16 * 1)))
            = tileRowsSpec 16 1 g nd G := by
  have hg1 : 1 ≤ g := by omega
  refine ⟨_, _, to_bsr_amx_16 fuel sizeof_T g rows cols M hg2 hacc hfuel,
    tobsr_compact fuel g rows cols 16 1 M hg1 (by omega), ?_⟩
  intro G hG
  simp only at hG ⊢
  rw [show g * (16 * 1) = 16 * g by ring,
    slice_flatMap_range _ (16 * g) _ G (fun x _ => length_amxTile g _ _) hG]
  exact amxTile_eq_spec g _ G

theorem stage_c_tile_rows_witness :
    ∃ r nd, to_bsr_amx 64 32 2 16 2 16 1 example_16x2 = .ok r
      ∧ amx_compact 64 2 (16 * 1) (tobsr 16 2 16 1 example_16x2).indptr r.indptr r.indices
          (tobsr 16 2 16 1 example_16x2).data (List.replicate (r.indices.length * (16 * 1)) 0, 0)
          = .ok (nd, r.indices.length * (16 * 1))
      ∧ slice r.data (0 * (2 * (16 * 1))) ((0 + 1) * (2 * (16 * 1)))
          = tileRowsSpec 16 1 2 nd 0 := by
  obtain ⟨r, nd, hr, hnd, h⟩ := stage_c_tile_rows 64 32 2 16 2 example_16x2
    (by decide) (by decide) (by decide)
  have hev : to_bsr_amx 64 32 2 16 2 16 1 example_16x2
      = .ok { block := (16, 1), shape := (16, 2), indptr := [0, 1], indices := [0, 0],
              data := [1, 0, 0, 0, 0, 0, 0, 0, 0, 0, 0, 0, 0, 0, 0, 0,
                       0, 0, 0, 0, 0, 0, 0, 0, 0, 0, 0, 0, 0, 0, 7, 0],
              group := 2 } := by
    rfl
  rw [hev] at hr
  cases hr
  exact ⟨_, nd, hev, hnd, h 0 (by decide)⟩

/-! ## Additive decode of the grouped output -/

theorem sum_range_mul (h : Nat → Int) (K g : Nat) :
    ((List.range K).map fun k => ((List.range g).map fun s => h (k * g + s)).sum).sum
      = ((List.range (K * g)).map h).sum := by
  induction K with
  | zero => simp
  | succ K ih =>
    rw [List.range_succ, List.map_append, List.sum_append, ih, Nat.succ_mul, List.range_add,
      List.map_append, List.sum_append, List.map_map]
    simp only [List.map_cons, List.map_nil, List.sum_cons, List.sum_nil, add_zero]
    rfl

theorem sum_range_zero_tail (h : Nat → Int) (L N : Nat) (hLN : L ≤ N)
    (hz : ∀ t, L ≤ t → h t = 0) :
    ((List.range N).map h).sum = ((List.range L).map h).sum := by
  obtain ⟨d, rfl⟩ : ∃ d, N = L + d := ⟨N - L, by omega⟩
  rw [List.range_add, List.map_append, List.sum_append, List.map_map]
  have : ((List.range d).map (h ∘ fun x => L + x)).sum = 0 := by
    apply List.sum_eq_zero
    intro x hx
    obtain ⟨t, _, rfl⟩ := List.mem_map.1 hx
    exact hz _ (Nat.le_add_right _ _)
  rw [this, add_zero]

theorem map_getD_range (l : List Nat) : (List.range l.length).map (fun t => l.getD t 0) = l := by
  apply List.ext_getElem
  · simp
  · intro n h1 h2
    simp [List.getElem?_eq_getElem h2]

theorem sum_indicator_nodup (l : List Nat) (c : Nat) (v : Int) (hnd : l.Nodup) :
    (l.map fun x => if x = c then v else 0).sum = if c ∈ l then v else 0 := by
  induction l with
  | nil => simp
  | cons x xs ih =>
    have hx : x ∉ xs := (List.nodup_cons.1 hnd).1
    rw [List.map_cons, List.sum_cons, ih (List.nodup_cons.1 hnd).2]
    by_cases hxc : x = c
    · subst hxc
      simp [hx]
    · have hcx : ¬ c = x := fun e => hxc e.symm
      simp [hxc, hcx]

theorem amx_scatter_row (g cols b i c : Nat) (M : List Int) (hg1 : 1 ≤ g) (hi : i < 16)
    (hc : c < cols) :
    ((List.range ((padRow g (nzcols M cols 16 1 b)).length / g)).map fun k =>
      ((List.range g).map fun s =>
        if (padRow g (nzcols M cols 16 1 b)).getD (k * g + s) 0 = c
        then (if k * g + s < (nzcols M cols 16 1 b).length
              then M.getD ((b * 16 + i) * cols + (nzcols M cols 16 1 b).getD (k * g + s) 0) 0
              else 0)
        else 0).sum).sum
      = M.getD ((b * 16 + i) * cols + c) 0 := by
  have hstep := sum_range_mul
    (fun t => if (padRow g (nzcols M cols 16 1 b)).getD t 0 = c
        then (if t < (nzcols M cols 16 1 b).length
              then M.getD ((b * 16 + i) * cols + (nzcols M cols 16 1 b).getD t 0) 0
              else 0)
        else 0) ((padRow g (nzcols M cols 16 1 b)).length / g) g
  simp only at hstep
  rw [hstep, div_mul_length_padRow g _ hg1,
    sum_range_zero_tail _ (nzcols M cols 16 1 b).length _ (length_padRow_ge g _)
      (fun t ht => by
        rw [if_neg (Nat.not_lt.2 ht)]
        exact ite_self 0)]
  have hcongr : ((List.range (nzcols M cols 16 1 b).length).map fun t =>
        if (padRow g (nzcols M cols 16 1 b)).getD t 0 = c
        then (if t < (nzcols M cols 16 1 b).length
              then M.getD ((b * 16 + i) * cols + (nzcols M cols 16 1 b).getD t 0) 0
              else 0)
        else 0)
      = ((List.range (nzcols M cols 16 1 b).length).map fun t => (nzcols M cols 16 1 b).getD t 0).map
          fun x => if x = c then M.getD ((b * 16 + i) * cols + c) 0 else 0 := by
    rw [List.map_map]
    apply List.map_congr_left
    intro t ht
    have ht2 := List.mem_range.1 ht
    simp only [Function.comp]
    rw [getD_padRow_lt g _ t ht2, if_pos ht2]
    by_cases hx : (nzcols M cols 16 1 b).getD t 0 = c
    · rw [if_pos hx, if_pos hx, hx]
    · rw [if_neg hx, if_neg hx]
  rw [hcongr, map_getD_range, sum_indicator_nodup _ _ _ (nzcols_nodup M cols 16 1 b)]
  by_cases hmem : c ∈ nzcols M cols 16 1 b
  · rw [if_pos hmem]
  · rw [if_neg hmem]
    by_contra hne
    apply hmem
    rw [mem_nzcols]
    refine ⟨by rw [Nat.div_one]; exact hc, i, 0, hi, by decide, ?_⟩
    rw [Nat.mul_one, Nat.add_zero]
    exact fun e => hne e.symm

/-- C19: for block shape (16, 1), every accepted group size `g ≥ 2` and enough fuel,
`to_bsr_amx` returns a structure `r` such that for every block-row `b < rows / 16`, every
`i < 16` and every column `c < cols`, the sum of `r.data[G*g*16 + i*g + s]` over the groups
`G` in `[r.indptr[b], r.indptr[b+1])` and the slots `s < g` with `r.indices[G*g + s] = c`
equals `M[(b*16 + i)*cols + c]`: adding up the grouped output reproduces `M` although
padding slots repeat a genuine column index. -/
theorem to_bsr_amx_scatter_sum (fuel sizeof_T g rows cols : Nat) (M : List Int) (hg2 : 2 ≤ g)
    (hacc : g = 64 / sizeof_T) (hfuel : g + cols + rows * cols ≤ fuel) :
    ∃ r, to_bsr_amx fuel sizeof_T g rows cols 16 1 M = .ok r
      ∧ ∀ b i c, b < rows / 16 → i < 16 → c < cols →
          amx_scatter_cell g r b i c = M.getD ((b * 16 + i) * cols + c) 0 := by
  have hg1 : 1 ≤ g := by omega
  refine ⟨_, to_bsr_amx_16 fuel sizeof_T g rows cols M hg2 hacc hfuel, ?_⟩
  intro b i c hb hi hc
  unfold amx_scatter_cell
  simp only
  rw [groupPtr_diff g M cols 16 1 _ b hb hg1, groupPtr_getD _ _ _ _ _ _ _ (Nat.le_of_lt hb),
    List.range'_eq_map_range, List.map_map, ← amx_scatter_row g cols b i c M hg1 hi hc]
  congr 1
  apply List.map_congr_left
  intro k hk
  have hk2 := List.mem_range.1 hk
  simp only [Function.comp]
  congr 1
  apply List.map_congr_left
  intro s hs
  have hs2 := List.mem_range.1 hs
  have hGm : (gcolsUpTo g M cols 16 1 b).length / g + k
      < (gcolsUpTo g M cols 16 1 (rows / 16)).length / g := by
    have h1 := groups_mono g M cols 16 1 (b + 1) (rows / 16) hb
    rw [groups_succ g M cols 16 1 b hg1] at h1
    omega
  have e1 : ((gcolsUpTo g M cols 16 1 b).length / g + k) * g + s
      = (gcolsUpTo g M cols 16 1 b).length + (k * g + s) := by
    rw [Nat.add_mul, div_mul_length_gcolsUpTo g M cols 16 1 b hg1, Nat.add_assoc]
  have hin := (group_in_padRow g (nzcols M cols 16 1 b) hg1 k hk2).2
  rw [getD_tiles g _ _ _ i s hGm hi hs2, compacted_cell g rows cols M hg1 b k s i hb hk2 hs2 hi,
    e1, getD_gcolsUpTo g M cols 16 1 _ b _ hb (by omega)]

theorem to_bsr_amx_scatter_sum_witness :
    ∃ r, to_bsr_amx 64 32 2 16 2 16 1 example_16x2 = .ok r
      ∧ amx_scatter_cell 2 r 0 15 0 = example_16x2.getD ((0 * 16 + 15) * 2 + 0) 0
      ∧ amx_scatter_cell 2 r 0 15 1 = example_16x2.getD ((0 * 16 + 15) * 2 + 1) 0 := by
  obtain ⟨r, hr, h⟩ := to_bsr_amx_scatter_sum 64 32 2 16 2 example_16x2
    (by decide) (by decide) (by decide)
  exact ⟨r, hr, h 0 15 0 (by decide) (by decide) (by decide),
    h 0 15 1 (by decide) (by decide) (by decide)⟩

/-! ## Checked indexing: the checked loops follow the unchecked ones -/

theorem readAt_getD_int (v : List Int) (i : Nat) (h : i < v.length) :
    readAt v i = .ok (v.getD i 0) := by
  unfold readAt
  rw [List.getElem?_eq_getElem h, List.getD_eq_getElem _ _ h]

theorem readAt_getD_nat (v : List Nat) (i : Nat) (h : i < v.length) :
    readAt v i = .ok (v.getD i 0) := by
  unfold readAt
  rw [List.getElem?_eq_getElem h, List.getD_eq_getElem _ _ h]

theorem readBack_getLastD (v : List Nat) (h : v ≠ []) : readBack v = .ok (v.getLastD 0) := by
  unfold readBack
  cases v with
  | nil => exact absurd rfl h
  | cons x xs =>
    rw [List.getLast?_eq_getLast _ (List.cons_ne_nil x xs)]
    rfl

theorem whileLoopC_sim {σ : Type} (cond : σ → Bool) (body : σ → Except Err σ)
    (condC : σ → Except Fault Bool) (bodyC : σ → Except Fault σ) (I : σ → Prop)
    (hc : ∀ s, I s → condC s = .ok (cond s))
    (hb : ∀ s s', I s → cond s = true → body s = .ok s' → bodyC s = .ok s' ∧ I s') :
    ∀ (fuel : Nat) (s r : σ), I s → whileLoop cond body fuel s = .ok r →
      whileLoopC condC bodyC fuel s = .ok r := by
  intro fuel
  induction fuel with
  | zero =>
    intro s r hI h
    unfold whileLoop at h
    unfold whileLoopC
    rw [hc s hI]
    simp only
    cases hcs : cond s with
    | true => rw [hcs] at h; simp at h
    | false =>
      rw [hcs] at h
      simpa using h
  | succ fuel ih =>
    intro s r hI h
    unfold whileLoop at h
    unfold whileLoopC
    rw [hc s hI]
    simp only
    cases hcs : cond s with
    | false =>
      rw [hcs] at h
      simpa using h
    | true =>
      rw [hcs] at h
      simp only [if_true] at h ⊢
      cases hbs : body s with
      | error e => rw [hbs] at h; simp at h
      | ok s' =>
        rw [hbs] at h
        simp only at h
        obtain ⟨h1, h2⟩ := hb s s' hI hcs hbs
        rw [h1]
        exact ih s' r h2 h

theorem forLoopC_sim {σ β : Type} (body : σ → β → Except Err σ)
    (bodyC : σ → β → Except Fault σ) :
    ∀ (l : List β) (s r : σ),
      (∀ s s' x, x ∈ l → body s x = .ok s' → bodyC s x = .ok s') →
      forLoop body l s = .ok r → forLoopC bodyC l s = .ok r := by
  intro l
  induction l with
  | nil =>
    intro s r _ h
    unfold forLoop at h
    unfold forLoopC
    cases h
    rfl
  | cons x xs ih =>
    intro s r hb h
    unfold forLoop at h
    unfold forLoopC
    cases hbs : body s x with
    | error e => rw [hbs] at h; simp at h
    | ok s' =>
      rw [hbs] at h
      simp only at h
      rw [hb s s' x (List.mem_cons_self _ _) hbs]
      exact ih s' r (fun s s' y hy => hb s s' y (List.mem_cons_of_mem _ hy)) h

theorem forLoopC_sim_range {σ : Type} (body : σ → Nat → Except Err σ)
    (bodyC : σ → Nat → Except Fault σ) :
    ∀ (n lo : Nat) (J : Nat → σ → Prop) (s r : σ),
      (∀ k s s', k < n → J k s → body s (lo + k) = .ok s' →
        bodyC s (lo + k) = .ok s' ∧ J (k + 1) s') →
      J 0 s → forLoop body (List.range' lo n) s = .ok r →
      forLoopC bodyC (List.range' lo n) s = .ok r := by
  intro n
  induction n with
  | zero =>
    intro lo J s r _ _ h
    rw [List.range'_zero] at h ⊢
    unfold forLoop at h
    unfold forLoopC
    cases h
    rfl
  | succ n ih =>
    intro lo J s r hb h0 h
    rw [List.range'_succ] at h ⊢
    unfold forLoop at h
    unfold forLoopC
    cases hbs : body s lo with
    | error e => rw [hbs] at h; simp at h
    | ok s' =>
      rw [hbs] at h
      simp only at h
      obtain ⟨h1, h2⟩ := hb 0 s s' (Nat.succ_pos _) h0 hbs
      rw [Nat.add_zero] at h1
      rw [h1]
      refine ih (lo + 1) (fun k => J (k + 1)) s' r ?_ h2 h
      intro k t t' hk hJ hbt
      have e : lo + 1 + k = lo + (k + 1) := by omega
      rw [e] at hbt ⊢
      exact hb (k + 1) t t' (by omega) hJ hbt

theorem forLoopC_foldl {σ β : Type} (f : σ → β → σ) (bodyC : σ → β → Except Fault σ) :
    ∀ (l : List β) (s : σ), (∀ s x, x ∈ l → bodyC s x = .ok (f s x)) →
      forLoopC bodyC l s = .ok (l.foldl f s) := by
  intro l
  induction l with
  | nil => intro s _; rfl
  | cons x xs ih =>
    intro s hb
    unfold forLoopC
    rw [hb s x (List.mem_cons_self _ _)]
    exact ih (f s x) (fun s y hy => hb s y (List.mem_cons_of_mem _ hy))

theorem forLoopC_all {β : Type} (p : β → Bool) (bodyC : Bool → β → Except Fault Bool) :
    ∀ (l : List β) (acc : Bool), (∀ x, x ∈ l → bodyC true x = .ok (p x)) →
      (∀ x, x ∈ l → bodyC false x = .ok false) →
      forLoopC bodyC l acc = .ok (acc && l.all p) := by
  intro l
  induction l with
  | nil => intro acc _ _; simp [forLoopC]
  | cons x xs ih =>
    intro acc ht hf
    unfold forLoopC
    cases acc with
    | true =>
      rw [ht x (List.mem_cons_self _ _)]
      simp only
      rw [ih (p x) (fun y hy => ht y (List.mem_cons_of_mem _ hy))
        (fun y hy => hf y (List.mem_cons_of_mem _ hy))]
      simp
    | false =>
      rw [hf x (List.mem_cons_self _ _)]
      simp only
      rw [ih false (fun y hy => ht y (List.mem_cons_of_mem _ hy))
        (fun y hy => hf y (List.mem_cons_of_mem _ hy))]
      simp

/-! ## Checked indexing: `tobsr` -/

theorem is_zero_checked_eq (M : List Int) (rows cols br bc b c : Nat)
    (hlen : rows * cols ≤ M.length) (hb : b < rows / br) (hc : c < cols / bc) :
    is_zero_checked M cols br bc (b * br * cols + c * bc)
      = .ok (is_zero M cols br bc (b * br * cols + c * bc)) := by
  unfold is_zero_checked is_zero
  have h := forLoopC_all
    (fun i => (List.range bc).all fun j =>
      M.getD (b * br * cols + c * bc + (i * cols + j)) 0 == 0)
    (fun is_zero i =>
      forLoopC
        (fun is_zero j =>
          if is_zero then
            match readAt M (b * br * cols + c * bc + (i * cols + j)) with
            | .error e => .error e
            | .ok v => .ok (v == 0)
          else .ok false)
        (List.range bc) is_zero)
    (List.range br) true ?_ ?_
  · rw [Bool.true_and] at h
    exact h
  · intro i hi
    have h2 := forLoopC_all
      (fun j => M.getD (b * br * cols + c * bc + (i * cols + j)) 0 == 0)
      (fun is_zero j =>
        if is_zero then
          match readAt M (b * br * cols + c * bc + (i * cols + j)) with
          | .error e => .error e
          | .ok v => .ok (v == 0)
        else .ok false)
      (List.range bc) true ?_ ?_
    · rw [Bool.true_and] at h2
      exact h2
    · intro j hj
      beta_reduce
      rw [if_pos rfl, readAt_getD_int _ _ (Nat.lt_of_lt_of_le
        (dense_index_lt rows cols br bc b c i j hb hc (List.mem_range.1 hi)
          (List.mem_range.1 hj)) hlen)]
    · intro j _
      rfl
  · intro i hi
    have h2 := forLoopC_all
      (fun j => M.getD (b * br * cols + c * bc + (i * cols + j)) 0 == 0)
      (fun is_zero j =>
        if is_zero then
          match readAt M (b * br * cols + c * bc + (i * cols + j)) with
          | .error e => .error e
          | .ok v => .ok (v == 0)
        else .ok false)
      (List.range bc) false ?_ ?_
    · rw [Bool.false_and] at h2
      exact h2
    · intro j hj
      beta_reduce
      rw [if_pos rfl, readAt_getD_int _ _ (Nat.lt_of_lt_of_le
        (dense_index_lt rows cols br bc b c i j hb hc (List.mem_range.1 hi)
          (List.mem_range.1 hj)) hlen)]
    · intro j _
      rfl

theorem tobsr_scan_row_checked_eq (M : List Int) (rows cols br bc b : Nat)
    (hlen : rows * cols ≤ M.length) (hb : b < rows / br) (C : List Nat) :
    tobsr_scan_row_checked M cols br bc b C = .ok (tobsr_scan_row M cols br bc b C) := by
  unfold tobsr_scan_row_checked tobsr_scan_row
  apply forLoopC_foldl
  intro s c hc
  rw [is_zero_checked_eq M rows cols br bc b c hlen hb (List.mem_range.1 hc)]

theorem tobsr_scan_checked_eq (M : List Int) (rows cols br bc : Nat)
    (hlen : rows * cols ≤ M.length) :
    tobsr_scan_checked rows cols br bc M = .ok (tobsr_scan rows cols br bc M) := by
  unfold tobsr_scan_checked tobsr_scan
  apply forLoopC_foldl
  intro s b hb
  rw [tobsr_scan_row_checked_eq M rows cols br bc b hlen (List.mem_range.1 hb)]

theorem tobsr_copy_block_checked_eq (M : List Int) (rows cols br bc b c nnz_idx : Nat)
    (hlen : rows * cols ≤ M.length) (hb : b < rows / br) (hc : c < cols / bc)
    (data : List Int) :
    tobsr_copy_block_checked M cols br bc b c nnz_idx data
      = .ok (tobsr_copy_block M cols br bc b c nnz_idx data) := by
  unfold tobsr_copy_block_checked tobsr_copy_block
  apply forLoopC_foldl
  intro s i hi
  beta_reduce
  apply forLoopC_foldl
  intro s j hj
  beta_reduce
  rw [readAt_getD_int _ _ (Nat.lt_of_lt_of_le
    (dense_index_lt rows cols br bc b c i j hb hc (List.mem_range.1 hi)
      (List.mem_range.1 hj)) hlen)]

theorem tobsr_fill_checked_eq (M : List Int) (rows cols br bc : Nat)
    (rowptr colidxs : List Nat) (hlen : rows * cols ≤ M.length)
    (hrl : rows / br + 1 ≤ rowptr.length)
    (hidx : ∀ b idx, b < rows / br → rowptr.getD b 0 ≤ idx → idx < rowptr.getD (b + 1) 0 →
      idx < colidxs.length ∧ colidxs.getD idx 0 < cols / bc)
    (st : List Int × Nat) :
    tobsr_fill_checked rows cols br bc M rowptr colidxs st
      = .ok (tobsr_fill rows cols br bc M rowptr colidxs st) := by
  unfold tobsr_fill_checked tobsr_fill
  apply forLoopC_foldl
  intro s b hb
  have hb2 := List.mem_range.1 hb
  rw [readAt_getD_nat rowptr b (by omega), readAt_getD_nat rowptr (b + 1) (by omega)]
  simp only
  apply forLoopC_foldl
  intro s idx hidx2
  have h3 := List.mem_range'_1.1 hidx2
  obtain ⟨h4, h5⟩ := hidx b idx hb2 h3.1 (by omega)
  rw [readAt_getD_nat colidxs idx h4]
  simp only
  rw [tobsr_copy_block_checked_eq M rows cols br bc b _ _ hlen hb2 h5]

theorem tobsr_read_bounds (M : List Int) (rows cols br bc : Nat) (b idx : Nat)
    (hb : b < rows / br) (h1 : (tobsr rows cols br bc M).indptr.getD b 0 ≤ idx)
    (h2 : idx < (tobsr rows cols br bc M).indptr.getD (b + 1) 0) :
    idx < (tobsr rows cols br bc M).indices.length
      ∧ (tobsr rows cols br bc M).indices.getD idx 0 < cols / bc := by
  have hd := tobsr_indptr_diff rows cols br bc M b hb
  have hlast : (tobsr rows cols br bc M).indptr.getD (b + 1) 0
      ≤ (tobsr rows cols br bc M).indices.length := by
    rw [tobsr_indptr_getD rows cols br bc M (b + 1) hb, tobsr_indices]
    exact length_flatMap_range_mono _ _ _ hb
  refine ⟨by omega, ?_⟩
  obtain ⟨t, rfl⟩ : ∃ t, idx = (tobsr rows cols br bc M).indptr.getD b 0 + t :=
    ⟨idx - (tobsr rows cols br bc M).indptr.getD b 0, by omega⟩
  have ht : t < (nzcols M cols br bc b).length := by omega
  rw [tobsr_indptr_getD rows cols br bc M b (Nat.le_of_lt hb),
    tobsr_indices_getD rows cols br bc M b t hb ht]
  exact getD_nzcols_lt M cols br bc b t ht

theorem tobsr_checked_eq (M : List Int) (rows cols br bc : Nat)
    (hlen : rows * cols ≤ M.length) :
    tobsr_checked rows cols br bc M = .ok (tobsr rows cols br bc M) := by
  unfold tobsr_checked
  rw [tobsr_scan_checked_eq M rows cols br bc hlen]
  simp only
  have hf := tobsr_fill_checked_eq M rows cols br bc
    ((tobsr_scan rows cols br bc M).1 ++ [(tobsr_scan rows cols br bc M).2.length])
    (tobsr_scan rows cols br bc M).2 hlen
    (Nat.le_of_eq (tobsr_indptr_length rows cols br bc M).symm)
    (fun b idx hb h1 h2 => tobsr_read_bounds M rows cols br bc b idx hb h1 h2)
    (List.replicate ((tobsr_scan rows cols br bc M).2.length * br * bc) 0, 0)
  rw [hf]
  rfl

/-! ## Checked indexing: Stage A -/

theorem amx_copy_loop_checked_sim (fuel g b_row : Nat) (indptr indices : List Nat)
    (hb : b_row + 1 < indptr.length) (hhi : indptr.getD (b_row + 1) 0 ≤ indices.length)
    (st r : List Nat × Nat × Nat)
    (h : amx_copy_loop fuel g (indptr.getD (b_row + 1) 0) indices st = .ok r) :
    amx_copy_loop_checked fuel g b_row indptr indices st = .ok r := by
  unfold amx_copy_loop at h
  unfold amx_copy_loop_checked
  refine whileLoopC_sim _ _ _ _ (fun _ => True) ?_ ?_ fuel st r True.intro h
  · intro s _
    beta_reduce
    rw [readAt_getD_nat indptr (b_row + 1) hb]
    by_cases h1 : s.2.2 < g
    · rw [if_pos h1]
      simp [h1]
    · rw [if_neg h1]
      simp [h1]
  · intro s s' _ hc hs
    refine ⟨?_, True.intro⟩
    simp only [Bool.and_eq_true, decide_eq_true_eq] at hc
    beta_reduce at hs ⊢
    rw [readAt_getD_nat indices s.2.1 (by omega)]
    cases hs
    rfl

theorem amx_pad_loop_checked_sim (fuel g : Nat) (st r : List Nat × Nat) (hne : st.1 ≠ [])
    (h : amx_pad_loop fuel g st = .ok r) : amx_pad_loop_checked fuel g st = .ok r := by
  unfold amx_pad_loop at h
  unfold amx_pad_loop_checked
  refine whileLoopC_sim _ _ _ _ (fun s => s.1 ≠ []) ?_ ?_ fuel st r hne h
  · intro s _
    rfl
  · intro s s' hs1 _ hs
    beta_reduce at hs ⊢
    rw [readBack_getLastD s.1 hs1]
    cases hs
    exact ⟨rfl, by simp⟩

theorem amx_row_loop_checked_sim (fuel g b_row : Nat) (indptr indices : List Nat) (hg1 : 1 ≤ g)
    (hgf : g ≤ fuel) (hb : b_row + 1 < indptr.length)
    (hhi : indptr.getD (b_row + 1) 0 ≤ indices.length) (st r : List Nat × Nat)
    (h : amx_row_loop fuel g (indptr.getD (b_row + 1) 0) indices st = .ok r) :
    amx_row_loop_checked fuel g b_row indptr indices st = .ok r := by
  unfold amx_row_loop at h
  unfold amx_row_loop_checked
  refine whileLoopC_sim _ _ _ _ (fun _ => True) ?_ ?_ fuel st r True.intro h
  · intro s _
    beta_reduce
    rw [readAt_getD_nat indptr (b_row + 1) hb]
  · intro s s' _ hc hs
    refine ⟨?_, True.intro⟩
    simp only [decide_eq_true_eq] at hc
    beta_reduce at hs ⊢
    have hcopy := amx_copy_loop_eq fuel g (indptr.getD (b_row + 1) 0) indices s.1 s.2 hgf
      (Nat.le_of_lt hc)
    rw [hcopy] at hs
    rw [amx_copy_loop_checked_sim fuel g b_row indptr indices hb hhi _ _ hcopy]
    simp only at hs ⊢
    have hne : s.1 ++ seg indices s.2 (min g (indptr.getD (b_row + 1) 0 - s.2)) ≠ [] := by
      intro e
      have hl := congrArg List.length e
      have hm : 1 ≤ min g (indptr.getD (b_row + 1) 0 - s.2) := by
        rw [Nat.le_min]
        omega
      rw [List.length_append] at hl
      unfold seg at hl
      rw [List.length_map, List.length_range', List.length_nil] at hl
      omega
    cases hpad : amx_pad_loop fuel g
        (s.1 ++ seg indices s.2 (min g (indptr.getD (b_row + 1) 0 - s.2)),
          min g (indptr.getD (b_row + 1) 0 - s.2)) with
    | error e => rw [hpad] at hs; simp at hs
    | ok s2 =>
      rw [hpad] at hs
      rw [amx_pad_loop_checked_sim fuel g _ s2 hne hpad]
      simp only at hs ⊢
      cases hs
      rfl

theorem amx_group_indices_checked_sim (fuel g : Nat) (indptr indices : List Nat) (hg1 : 1 ≤ g)
    (hgf : g ≤ fuel)
    (hhi : ∀ b, b + 1 < indptr.length → indptr.getD (b + 1) 0 ≤ indices.length)
    (r : List Nat × List Nat) (h : amx_group_indices fuel g indptr indices = .ok r) :
    amx_group_indices_checked fuel g indptr indices = .ok r := by
  unfold amx_group_indices at h
  unfold amx_group_indices_checked
  refine forLoopC_sim _ _ _ _ r ?_ h
  intro s s' b hb hs
  have hb2 : b + 1 < indptr.length := by
    have := List.mem_range.1 hb
    omega
  beta_reduce at hs ⊢
  rw [readAt_getD_nat indptr b (by omega)]
  simp only at hs ⊢
  cases hrow : amx_row_loop fuel g (indptr.getD (b + 1) 0) indices (s.1, indptr.getD b 0) with
  | error e => rw [hrow] at hs; simp at hs
  | ok s1 =>
    rw [hrow] at hs
    rw [amx_row_loop_checked_sim fuel g b indptr indices hg1 hgf hb2 (hhi b hb2) _ s1 hrow]
    simp only at hs ⊢
    cases hs
    rfl

/-! ## Checked indexing: Stage B -/

theorem amx_count_loop_checked_sim (fuel g : Nat) (colidxs : List Nat) (B : Nat)
    (hB : B + g ≤ colidxs.length) (r : Nat × Nat)
    (h : amx_count_loop fuel g colidxs (B + 1, 1) = .ok r) :
    amx_count_loop_checked fuel g colidxs (B + 1, 1) = .ok r := by
  unfold amx_count_loop at h
  unfold amx_count_loop_checked
  refine whileLoopC_sim _ _ _ _ (fun s => s.1 = B + s.2 ∧ 1 ≤ s.2) ?_ ?_ fuel _ r
    ⟨rfl, Nat.le_refl _⟩ h
  · intro s hs
    beta_reduce
    by_cases h1 : s.2 < g
    · rw [if_pos h1, readAt_getD_nat colidxs s.1 (by omega),
        readAt_getD_nat colidxs (s.1 - 1) (by omega)]
      simp [h1]
    · rw [if_neg h1]
      simp [h1]
  · intro s s' hs _ hbody
    beta_reduce at hbody ⊢
    cases hbody
    refine ⟨rfl, ?_, ?_⟩
    · show s.1 + 1 = B + (s.2 + 1)
      omega
    · show 1 ≤ s.2 + 1
      omega

theorem amx_compact_row_checked_sim (fuel g bs : Nat) (colidxs : List Nat)
    (bsr_data : List Int) (lo hi nnz0 : Nat)
    (hcol : ∀ k, k < hi - lo → (lo + k) * g + g ≤ colidxs.length)
    (hdat : ∀ k c, k < hi - lo →
      amx_count_loop fuel g colidxs ((lo + k) * g + 1, 1) = .ok c →
      (nnz0 + k * g) * bs + c.2 * bs ≤ bsr_data.length)
    (nd : List Int) (dp : Nat) (r : List Int × Nat × Nat)
    (h : amx_compact_row fuel g bs colidxs bsr_data lo hi (nd, dp, nnz0) = .ok r) :
    amx_compact_row_checked fuel g bs colidxs bsr_data lo hi (nd, dp, nnz0) = .ok r := by
  unfold amx_compact_row at h
  unfold amx_compact_row_checked
  refine forLoopC_sim_range _ _ (hi - lo) lo (fun k s => s.2.2 = nnz0 + k * g) _ r ?_
    (by simp) h
  intro k s s' hk hJ hs
  beta_reduce at hJ hs ⊢
  cases hcnt : amx_count_loop fuel g colidxs ((lo + k) * g + 1, 1) with
  | error e => rw [hcnt] at hs; simp at hs
  | ok c =>
    rw [hcnt] at hs
    rw [amx_count_loop_checked_sim fuel g colidxs ((lo + k) * g) (hcol k hk) c hcnt]
    simp only at hs ⊢
    have hd := hdat k c hk hcnt
    rw [forLoopC_foldl
      (fun new_data elem => new_data.set (s.2.1 + elem) (bsr_data.getD (s.2.2 * bs + elem) 0))
      _ _ _ (by
        intro t elem he
        have he2 := List.mem_range.1 he
        beta_reduce
        rw [readAt_getD_int bsr_data _ (by rw [hJ]; omega)])]
    simp only
    cases hs
    refine ⟨rfl, ?_⟩
    show s.2.2 + g = nnz0 + (k + 1) * g
    rw [hJ, Nat.succ_mul, Nat.add_assoc]

theorem amx_compact_checked_sim (fuel g bs : Nat) (indptr grp colidxs : List Nat)
    (bsr_data : List Int) (hgl : indptr.length ≤ grp.length)
    (hcol : ∀ b k, b + 1 < indptr.length → k < grp.getD (b + 1) 0 - grp.getD b 0 →
      (grp.getD b 0 + k) * g + g ≤ colidxs.length)
    (hdat : ∀ b k c, b + 1 < indptr.length → k < grp.getD (b + 1) 0 - grp.getD b 0 →
      amx_count_loop fuel g colidxs ((grp.getD b 0 + k) * g + 1, 1) = .ok c →
      (indptr.getD b 0 + k * g) * bs + c.2 * bs ≤ bsr_data.length)
    (st r : List Int × Nat)
    (h : amx_compact fuel g bs indptr grp colidxs bsr_data st = .ok r) :
    amx_compact_checked fuel g bs indptr grp colidxs bsr_data st = .ok r := by
  unfold amx_compact at h
  unfold amx_compact_checked
  refine forLoopC_sim _ _ _ _ r ?_ h
  intro s s' b hb hs
  have hb2 : b + 1 < indptr.length := by
    have := List.mem_range.1 hb
    omega
  beta_reduce at hs ⊢
  rw [readAt_getD_nat indptr b (by omega), readAt_getD_nat grp b (by omega),
    readAt_getD_nat grp (b + 1) (by omega)]
  simp only at hs ⊢
  cases hrow : amx_compact_row fuel g bs colidxs bsr_data (grp.getD b 0) (grp.getD (b + 1) 0)
      (s.1, s.2, indptr.getD b 0) with
  | error e => rw [hrow] at hs; simp at hs
  | ok s1 =>
    rw [hrow] at hs
    rw [amx_compact_row_checked_sim fuel g bs colidxs bsr_data _ _ _
      (fun k hk => hcol b k hb2 hk) (fun k c hk hc => hdat b k c hb2 hk hc) _ _ s1 hrow]
    simp only at hs ⊢
    cases hs
    rfl

theorem tobsr_compact_checked (fuel g rows cols br bc : Nat) (M : List Int) (hg1 : 1 ≤ g)
    (hgf : g ≤ fuel) :
    amx_compact_checked fuel g (br * bc) (tobsr rows cols br bc M).indptr
        (groupPtr g M cols br bc (rows / br)) (gcolsUpTo g M cols br bc (rows / br))
        (tobsr rows cols br bc M).data
        (List.replicate ((gcolsUpTo g M cols br bc (rows / br)).length * (br * bc)) 0, 0)
      = .ok (compacted g (br * bc) (tobsr rows cols br bc M).indptr
              (groupPtr g M cols br bc (rows / br)) (tobsr rows cols br bc M).data
              (realCount g M cols br bc) (rows / br),
            (gcolsUpTo g M cols br bc (rows / br)).length * (br * bc)) := by
  have hil := tobsr_indptr_length rows cols br bc M
  refine amx_compact_checked_sim fuel g (br * bc) _ _ _ _ ?_ ?_ ?_ _ _
    (tobsr_compact fuel g rows cols br bc M hg1 hgf)
  · rw [hil, groupPtr_length]
  · intro b k hb hk
    have hb2 : b < rows / br := by omega
    rw [groupPtr_diff g M cols br bc _ b hb2 hg1] at hk
    rw [groupPtr_getD _ _ _ _ _ _ _ (Nat.le_of_lt hb2)]
    have h1 := groups_succ g M cols br bc b hg1
    have h2 := groups_mono g M cols br bc (b + 1) (rows / br) hb2
    have h3 := div_mul_length_gcolsUpTo g M cols br bc (rows / br) hg1
    have h4 : (gcolsUpTo g M cols br bc b).length / g + k + 1
        ≤ (gcolsUpTo g M cols br bc (rows / br)).length / g := by omega
    have h5 := Nat.mul_le_mul_right g h4
    rw [h3, Nat.succ_mul] at h5
    exact h5
  · intro b k c hb hk hc
    have hb2 : b < rows / br := by omega
    rw [groupPtr_diff g M cols br bc _ b hb2 hg1] at hk
    rw [groupPtr_getD _ _ _ _ _ _ _ (Nat.le_of_lt hb2),
      tobsr_count fuel g rows cols br bc M hg1 hgf b hb2 k hk] at hc
    cases hc
    simp only
    have h1 := (realCount_pos g M cols br bc b k hg1 hk).2.2
    have h2 := length_colsUpTo_mono M cols br bc (b + 1) (rows / br) hb2
    rw [colsUpTo_succ, List.length_append] at h2
    rw [tobsr_indptr_getD rows cols br bc M b (Nat.le_of_lt hb2), length_tobsr_data,
      tobsr_indices, ← Nat.add_mul, Nat.mul_assoc]
    exact Nat.mul_le_mul_right _ (by omega)

theorem length_tobsr_compacted (g rows cols br bc : Nat) (M : List Int) (hg1 : 1 ≤ g) :
    (compacted g (br * bc) (tobsr rows cols br bc M).indptr
        (groupPtr g M cols br bc (rows / br)) (tobsr rows cols br bc M).data
        (realCount g M cols br bc) (rows / br)).length
      = (gcolsUpTo g M cols br bc (rows / br)).length * (br * bc) := by
  have hg0 : (groupPtr g M cols br bc (rows / br)).getD 0 0 = 0 := by
    rw [groupPtr_getD _ _ _ _ _ _ _ (Nat.zero_le _)]
    simp [gcolsUpTo]
  have hgmono : ∀ b, b < rows / br → (groupPtr g M cols br bc (rows / br)).getD b 0
      ≤ (groupPtr g M cols br bc (rows / br)).getD (b + 1) 0 := by
    intro b hb
    rw [groupPtr_getD _ _ _ _ _ _ _ (Nat.le_of_lt hb), groupPtr_getD _ _ _ _ _ _ _ hb,
      groups_succ g M cols br bc b hg1]
    exact Nat.le_add_right _ _
  have hcg : ∀ b, b < rows / br → ∀ k,
      k < (groupPtr g M cols br bc (rows / br)).getD (b + 1) 0
          - (groupPtr g M cols br bc (rows / br)).getD b 0 →
      realCount g M cols br bc b k ≤ g := by
    intro b _ k _
    exact realCount_le g M cols br bc b k
  rw [length_compacted g (br * bc) (tobsr rows cols br bc M).indptr
    (groupPtr g M cols br bc (rows / br)) (tobsr rows cols br bc M).data
    (realCount g M cols br bc) (rows / br) hg0 hgmono hcg,
    groupPtr_getD _ _ _ _ _ _ _ (Nat.le_refl _), ← Nat.mul_assoc,
    div_mul_length_gcolsUpTo g M cols br bc _ hg1]

/-! ## Checked indexing: Stage C -/

theorem amx_reorder_checked_sim (fuel g n : Nat) (nd : List Int) (hdiv : n % g = 0)
    (hnd : n * 16 ≤ nd.length) (st r : List Int × Nat × Nat) (hst : st.2.2 % g = 0)
    (h : amx_reorder fuel g n nd st = .ok r) : amx_reorder_checked fuel g n nd st = .ok r := by
  unfold amx_reorder at h
  unfold amx_reorder_checked
  refine whileLoopC_sim _ _ _ _ (fun s => s.2.2 % g = 0) ?_ ?_ fuel st r hst h
  · intro s _
    rfl
  · intro s s' hs hc hbody
    simp only [decide_eq_true_eq] at hc
    have hle : s.2.2 + g ≤ n := by
      obtain ⟨a, ha⟩ := Nat.dvd_of_mod_eq_zero hs
      obtain ⟨b, hb⟩ := Nat.dvd_of_mod_eq_zero hdiv
      rw [ha, hb] at hc
      have hab : a < b := Nat.lt_of_mul_lt_mul_left hc
      have := Nat.mul_le_mul_left g (Nat.succ_le_of_lt hab)
      rw [Nat.mul_succ] at this
      rw [ha, hb]
      exact this
    beta_reduce at hbody ⊢
    rw [forLoopC_foldl
      (fun (st' : List Int × Nat) i =>
        (List.range' s.2.2 g).foldl
          (fun st'' j => (st''.1.set st''.2 (nd.getD (j * 16 + i) 0), st''.2 + 1)) st')
      _ _ _ (by
        intro t i hi
        have hi2 := List.mem_range.1 hi
        apply forLoopC_foldl
        intro u j hj
        have hj2 := List.mem_range'_1.1 hj
        rw [readAt_getD_int nd _ (by omega)])]
    simp only
    cases hbody
    refine ⟨rfl, ?_⟩
    show (s.2.2 + g) % g = 0
    rw [Nat.add_mod_right]
    exact hs

/-! ## Checked indexing: `to_bsr_amx` -/

theorem to_bsr_amx_checked_short_buffer :
    to_bsr_amx_checked 64 32 2 16 2 16 1 (example_16x2.take 31) = .error .out_of_bounds := by
  rfl

theorem to_bsr_amx_checked_small_block :
    to_bsr_amx_checked 40 32 2 1 2 1 1 [1, 1] = .error .out_of_bounds := by
  rfl

/-- C20: for block shape (16, 1), every accepted group size `g ≥ 2`, enough fuel and a
dense buffer of exactly `rows * cols` elements, the embedding of `to_bsr_amx` (and of the
`tobsr` call in it) in which every read is checked (the dense buffer, `rowptr` and
`colidxs` in `tobsr`; `indptr`, `indices` and `colidxs.back()` in Stage A;
`group_rowptr`, `indptr`, `colidxs[b_col_idx]`, `colidxs[b_col_idx - 1]` and the ungrouped
data at `nnz_idx*16 + elem` in Stage B; `new_data[j*16 + i]` in Stage C) never takes the
out-of-bounds branch: it returns the structure that the unchecked embedding returns. -/
theorem to_bsr_amx_in_bounds (fuel sizeof_T g rows cols : Nat) (M : List Int) (hg2 : 2 ≤ g)
    (hacc : g = 64 / sizeof_T) (hfuel : g + cols + rows * cols ≤ fuel)
    (hlen : M.length = rows * cols) :
    ∃ r, to_bsr_amx_checked fuel sizeof_T g rows cols 16 1 M = .ok r
      ∧ to_bsr_amx fuel sizeof_T g rows cols 16 1 M = .ok r := by
  have hg1 : 1 ≤ g := by omega
  obtain ⟨c, hc, hr⟩ := to_bsr_amx_eq fuel sizeof_T g rows cols 16 1 M hg2 hacc hfuel
  refine ⟨_, ?_, hr⟩
  unfold to_bsr_amx_checked
  rw [tobsr_checked_eq M rows cols 16 1 (Nat.le_of_eq hlen.symm)]
  simp only
  rw [if_neg (by omega), if_neg (by simp [hacc]),
    amx_group_indices_checked_sim fuel g _ _ hg1 (by omega)
      (fun b hb => by
        rw [tobsr_indptr_length] at hb
        rw [tobsr_indptr_getD rows cols 16 1 M (b + 1) (by omega), tobsr_indices]
        exact length_colsUpTo_mono M cols 16 1 (b + 1) (rows / 16) (by omega))
      _ (tobsr_group_indices fuel g rows cols 16 1 M hg1 (by omega) (by omega))]
  simp only
  have e : (tobsr rows cols 16 1 M).indptr.length - 1 = rows / 16 := by
    rw [tobsr_indptr_length, Nat.add_sub_cancel]
  rw [e, groupPtr_set, tobsr_compact_checked fuel g rows cols 16 1 M hg1 (by omega)]
  simp only
  have hnd : (gcolsUpTo g M cols 16 1 (rows / 16)).length * 16
      ≤ (compacted g (16 * 1) (tobsr rows cols 16 1 M).indptr
          (groupPtr g M cols 16 1 (rows / 16)) (tobsr rows cols 16 1 M).data
          (realCount g M cols 16 1) (rows / 16)).length := by
    have h2 := length_tobsr_compacted g rows cols 16 1 M hg1
    rw [Nat.mul_one] at h2
    exact Nat.le_of_eq h2.symm
  rw [amx_reorder_checked_sim fuel g _ _ (length_gcolsUpTo_mod g M cols 16 1 _ hg1) hnd _ c
    (Nat.zero_mod g) hc]

theorem to_bsr_amx_in_bounds_witness :
    ∃ r, to_bsr_amx_checked 64 32 2 16 2 16 1 example_16x2 = .ok r
      ∧ to_bsr_amx 64 32 2 16 2 16 1 example_16x2 = .ok r :=
  to_bsr_amx_in_bounds 64 32 2 16 2 example_16x2 (by decide) (by decide) (by decide)
    (by decide)

end jd.spns
